import Mathlib

/-!
Merge candidate selection of a Cnch merge-tree table.

A shallow embedding of `src/CloudServices/selectPartsToMerge.cpp` and a
verification of its planning contract.

Conventions of the embedding:

* a `std::vector` is a `List`; `v.back()` is the last element of the list and
  `v.emplace_back()` appends at the end;
* a `std::unordered_map` is the association list of its entries in order of
  first insertion; the order in which the C++ container is iterated is not
  specified, so it is a parameter (`HashIteration`) that may be any
  permutation of the entries;
* `parts_ranges.back()` on an empty vector and a failing `assert` are the two
  ways the range builder can go wrong; the builder therefore returns in
  `Except LogicError`;
* code that lives outside the translated file (the merge selector, the
  statistics registry, the part comparator, the timestamp conversion, the
  wall clock) is a field of `Externals`;
* byte sizes, row counts and counters are natural numbers (sums are assumed
  to stay below `2^64`); the two places where a width matters, the
  conversion of the configured `max_parts_to_break` to `size_t` and the
  conversion of `num_default_workers` to a signed 64-bit value, are explicit.
-/

namespace DB

/-! ## Data model -/

/-- Outcome of one planning pass (`ServerSelectPartsDecision`). -/
inductive ServerSelectPartsDecision where
  | SELECTED
  | CANNOT_SELECT
  | NOTHING_TO_MERGE
deriving DecidableEq, Repr

/-- The attributes of one part that the planner reads: `name()`,
`info().partition_id`, `info().level`, `part_model().size()`, `rowsCount()`,
`getCommitTime()`, `getColumnsCommitTime()`, `getMutationCommitTime()`,
`part_model().bucket_number()` and `part_model().table_definition_hash()`. -/
structure PartModel where
  name : String
  partition_id : String
  level : Nat
  size : Nat
  rows_count : Nat
  commit_time : Nat
  columns_commit_time : Nat
  mutation_commit_time : Nat
  bucket_number : Int
  table_definition_hash : Nat
deriving DecidableEq, Repr

/-- A part together with its version chain: `tryGetPreviousPart()` is null for
a `base` part and the previous version for a `chained` part.  Chains are
finite by construction. -/
inductive ServerDataPart where
  | base (m : PartModel)
  | chained (m : PartModel) (prev : ServerDataPart)
deriving DecidableEq, Repr

namespace ServerDataPart

/-- The attributes of the part itself (not of its chain). -/
def model : ServerDataPart → PartModel
  | base m => m
  | chained m _ => m

/-- Accessor `tryGetPreviousPart()`. -/
def tryGetPreviousPart : ServerDataPart → Option ServerDataPart
  | base _ => none
  | chained _ prev => some prev

/-- Accessor `info().partition_id`. -/
def partition_id (p : ServerDataPart) : String := p.model.partition_id

/-- The grouping key `(getColumnsCommitTime(), getMutationCommitTime())`. -/
def commitKey (p : ServerDataPart) : Nat × Nat :=
  (p.model.columns_commit_time, p.model.mutation_commit_time)

end ServerDataPart

/-- Record `IMergeSelector<ServerDataPart>::Part` handed to the selector. -/
structure SelectorPart where
  size : Nat
  rows : Nat
  age : Int
  level : Nat
  chain_depth : Nat
  data : ServerDataPart
  shall_participate_in_merges : Bool
deriving DecidableEq, Repr

/-- Type `IMergeSelector<ServerDataPart>::PartsRange`. -/
abbrev PartsRange := List SelectorPart

/-- Type `IMergeSelector<ServerDataPart>::PartsRanges`. -/
abbrev PartsRanges := List PartsRange

/-- Type `ServerDataPartsVector`. -/
abbrev ServerDataPartsVector := List ServerDataPart

/-- Callback `ServerCanMergeCallback`: the first argument is the previous part
or null. -/
abbrev ServerCanMergeCallback := Option ServerDataPart → ServerDataPart → Bool

/-- The caller's `SelectPartsToMergeSettings`. -/
structure SelectPartsToMergeSettings where
  max_total_size_to_merge : Nat
  num_default_workers : Nat
  aggressive : Bool
  enable_batch_select : Bool
  final : Bool
deriving DecidableEq, Repr

/-- The table-level settings read through `data.getSettings()`. -/
structure MergeTreeSettings where
  cnch_merge_select_nonadjacent_parts : Bool
  cnch_merge_max_parts_to_merge : Nat
  max_parts_to_merge_at_once : Nat
  cnch_merge_max_total_rows_to_merge : Int
  merge_with_ttl_timeout : Int
  cnch_merge_expected_parts_number : Int
  cnch_merge_write_amplification_optimize_threshold : Nat
deriving DecidableEq, Repr

/-- The fields of `DanceMergeSelector::Settings` that the planner writes. -/
structure DanceMergeSelectorSettings where
  max_parts_to_merge_base : Nat
  max_total_rows_to_merge : Int
  enable_batch_select : Bool
  min_parts_to_merge_base : Nat
  final : Bool
  max_age_for_single_part_chain : Int
  select_nonadjacent_parts_allowed : Bool
deriving DecidableEq, Repr

/-- What the planner reads from the table object `data`:
its settings, `getInMemoryMetadataPtr()->hasUniqueKey()`, `isBucketTable()`,
`getTableHashForClusterBy().match(h)`, the value returned by
`config.getInt64("dance_merge_selector.max_parts_to_break", MERGE_MAX_PARTS_TO_BREAK)`
and the selector settings produced by `merge_settings.loadFromConfig(config)`. -/
structure MergeTreeMetaBase where
  settings : MergeTreeSettings
  hasUniqueKey : Bool
  isBucketTable : Bool
  tableHashMatch : Nat → Bool
  max_parts_to_break_config : Int
  loadFromConfig : DanceMergeSelectorSettings

/-- The arguments with which a `MergeSelectorAdaptiveController` is built and
initialised (lines 274-279). -/
structure MergeSelectorAdaptiveController where
  is_bucket_table : Bool
  expected_parts_number : Int
  write_amplification_optimize_threshold : Nat
  max_parts_to_merge : Nat
  bg_task_stats : Nat
  parts_ranges : PartsRanges
  unselectable_part_rows : List (String × (Nat × Nat))
deriving DecidableEq, Repr

/-- Iteration order of a `std::unordered_map` whose mapped values are part
vectors: some permutation of the entries. -/
structure HashIteration (K : Type) where
  order : List (K × ServerDataPartsVector) → List (K × ServerDataPartsVector)
  order_perm : ∀ m, (order m).Perm m

/-- The iteration that visits the entries in order of first insertion. -/
def HashIteration.insertionOrder (K : Type) : HashIteration K where
  order := fun m => m
  order_perm := fun m => List.Perm.refl m

/-- Collaborators that are not part of the translated file. -/
structure Externals where
  /-- Wall clock `std::time(nullptr)`. -/
  current_time : Int
  /-- Conversion `TxnTimestamp(t).toSecond()`. -/
  toSecond : Nat → Int
  /-- Iteration order of the bucket map. -/
  bucketIteration : HashIteration Int
  /-- Iteration order of the map keyed by the two commit times. -/
  groupIteration : HashIteration (Nat × Nat)
  /-- Result of `getOrCreateTableStats(data.getStorageID())`, null or a handle. -/
  getOrCreateTableStats : Option Nat
  /-- Method `DanceMergeSelector::selectMulti` of a selector built from the
  given settings, with or without an adaptive controller. -/
  selectMulti : DanceMergeSelectorSettings → Option MergeSelectorAdaptiveController →
    PartsRanges → Nat → PartsRanges
  /-- Comparator `CnchPartsHelper::PartComparator<ServerDataPartPtr>`. -/
  partLess : ServerDataPart → ServerDataPart → Bool

/-- The two ways the range builder can fail. -/
inductive LogicError where
  | backOfEmptyVector
  | assertionFailed
deriving DecidableEq, Repr

/-! ## Grouping -/

/-- One `push_back`/`emplace` into an unordered map of part vectors: append to
the entry of `key` when it exists, otherwise add the entry `key ↦ [part]`. -/
def insertIntoGroup {K : Type} [DecidableEq K] (key : K) (part : ServerDataPart) :
    List (K × ServerDataPartsVector) → List (K × ServerDataPartsVector)
  | [] => [(key, [part])]
  | (k, ps) :: rest =>
    if k = key then (k, ps ++ [part]) :: rest
    else (k, ps) :: insertIntoGroup key part rest

/-- Function `groupPartsByBucketNumber` (lines 323-336). -/
def groupPartsByBucketNumber (data : MergeTreeMetaBase)
    (grouped_buckets : List (Int × ServerDataPartsVector))
    (data_parts : ServerDataPartsVector) : List (Int × ServerDataPartsVector) :=
  data_parts.foldl
    (fun grouped part =>
      if !data.tableHashMatch part.model.table_definition_hash then grouped
      else insertIntoGroup part.model.bucket_number part grouped)
    grouped_buckets

/-- The map `grouped_ranges` built by the first loop of
`groupPartsByColumnsMutationsCommitTime` (lines 343-348). -/
def groupedRanges (parts : ServerDataPartsVector) :
    List ((Nat × Nat) × ServerDataPartsVector) :=
  parts.foldl (fun grouped p => insertIntoGroup p.commitKey p grouped) []

/-- Function `groupPartsByColumnsMutationsCommitTime` (lines 338-355): the
groups are appended to `part_ranges` in the iteration order of the map. -/
def groupPartsByColumnsMutationsCommitTime (iteration : HashIteration (Nat × Nat))
    (parts : ServerDataPartsVector) (part_ranges : List ServerDataPartsVector) :
    List ServerDataPartsVector :=
  part_ranges ++ (iteration.order (groupedRanges parts)).map Prod.snd

/-! ## Candidate range builder -/

/-- The loop `while (p_part)` of lines 160-166, entered with a non-null
`p_part`; the accumulator is `(chain_depth, size, part_commit_time)`.  The
field `size` is a `size_t`: the addition of line 163 wraps around at `2^64`. -/
def walkChain (toSecond : Nat → Int) : ServerDataPart → Nat × Nat × Int → Nat × Nat × Int
  | .base m, (depth, size, _) => (depth + 1, (size + m.size) % 2 ^ 64, toSecond m.commit_time)
  | .chained m prev, (depth, size, _) =>
    walkChain toSecond prev (depth + 1, (size + m.size) % 2 ^ 64, toSecond m.commit_time)

/-- Lines 156-177: the selector record of an accepted part.  The value of
`part_model().size()` is stored in the `size_t` field `size` (line 157), so
it is taken modulo `2^64`. -/
def makePartInfo (ext : Externals) (part : ServerDataPart) : SelectorPart :=
  let start : Nat × Nat × Int :=
    (0, part.model.size % 2 ^ 64, ext.toSecond part.model.commit_time)
  let acc :=
    match part.tryGetPreviousPart with
    | none => start
    | some p_part => walkChain ext.toSecond p_part start
  { size := acc.2.1
    rows := part.model.rows_count
    age := if ext.current_time > acc.2.2 then ext.current_time - acc.2.2 else 0
    level := part.model.level
    chain_depth := acc.1
    data := part
    shall_participate_in_merges := true }

/-- The loop-carried variables of the range builder. -/
structure ScanState where
  parts_ranges : PartsRanges
  parts_selected_precondition : Nat
  prev_partition_id : Option String
  prev_part : Option ServerDataPart
deriving DecidableEq, Repr

/-- Access `v.back()`: fails on an empty vector. -/
def back {α : Type} (v : List α) : Except LogicError α :=
  match v.getLast? with
  | some x => .ok x
  | none => .error .backOfEmptyVector

/-- Statement `parts_ranges.back().emplace_back(x)`. -/
def pushToBack (v : PartsRanges) (x : SelectorPart) : Except LogicError PartsRanges :=
  match v.getLast? with
  | some b => .ok (v.dropLast ++ [b ++ [x]])
  | none => .error .backOfEmptyVector

/-- Lines 156-183: the tail of the loop body, reached when `part` is accepted. -/
def acceptPart (ext : Externals) (st : ScanState) (part : ServerDataPart) :
    Except LogicError ScanState := do
  let ranges ← pushToBack st.parts_ranges (makePartInfo ext part)
  pure { parts_ranges := ranges
         parts_selected_precondition := st.parts_selected_precondition + 1
         prev_partition_id := st.prev_partition_id
         prev_part := some part }

/-- Lines 104-105: `need_split_by_max_parts_to_break`. -/
def needSplit (nonadjacent : Bool) (max_parts_to_break : Nat) (ranges : PartsRanges) : Bool :=
  !nonadjacent &&
    (match ranges.getLast? with
     | none => false
     | some b => decide (b.length ≥ max_parts_to_break))

/-- Lines 107-115: open a new partition frame when the partition changes or
the last range is full. -/
def openFrame (nonadjacent : Bool) (max_parts_to_break : Nat) (st : ScanState)
    (part : ServerDataPart) : ScanState :=
  let partition_changed :=
    match st.prev_partition_id with
    | none => true
    | some prev => decide (part.partition_id ≠ prev)
  if partition_changed || needSplit nonadjacent max_parts_to_break st.parts_ranges then
    { parts_ranges :=
        match st.parts_ranges.getLast? with
        | none => st.parts_ranges ++ [[]]
        | some b => if !b.isEmpty then st.parts_ranges ++ [[]] else st.parts_ranges
      parts_selected_precondition := st.parts_selected_precondition
      prev_partition_id := some part.partition_id
      prev_part := none }
  else st

/-- Lines 117-183: the eligibility checks on `part` and, when it is accepted,
its insertion into the last range. -/
def checkAndAccept (ext : Externals) (can_merge_callback : ServerCanMergeCallback)
    (st : ScanState) (part : ServerDataPart) : Except LogicError ScanState :=
  match st.prev_part with
  | none =>
    if !can_merge_callback none part then pure st
    else do
      let last ← back st.parts_ranges
      let st := if !last.isEmpty then { st with parts_ranges := st.parts_ranges ++ [[]] } else st
      acceptPart ext st part
  | some prev =>
    if !can_merge_callback (some prev) part then do
      let st := { st with prev_part := none }
      let last ← back st.parts_ranges
      if last.isEmpty then throw .assertionFailed
      if !can_merge_callback none part then pure st
      else acceptPart ext { st with parts_ranges := st.parts_ranges ++ [[]] } part
    else acceptPart ext st part

/-- Lines 99-184: one iteration of the loop over the parts of a frame. -/
def scanPart (ext : Externals) (nonadjacent : Bool) (max_parts_to_break : Nat)
    (can_merge_callback : ServerCanMergeCallback) (st : ScanState) (part : ServerDataPart) :
    Except LogicError ScanState :=
  checkAndAccept ext can_merge_callback (openFrame nonadjacent max_parts_to_break st part) part

/-- Lines 93-185: the loop over one `range_before_split`; the two `prev_`
variables are fresh for every such frame, the ranges and the counter are not. -/
def scanFrame (ext : Externals) (nonadjacent : Bool) (max_parts_to_break : Nat)
    (can_merge_callback : ServerCanMergeCallback)
    (acc : PartsRanges × Nat) (range_before_split : ServerDataPartsVector) :
    Except LogicError (PartsRanges × Nat) := do
  let st ← range_before_split.foldlM
    (scanPart ext nonadjacent max_parts_to_break can_merge_callback)
    { parts_ranges := acc.1
      parts_selected_precondition := acc.2
      prev_partition_id := none
      prev_part := none }
  pure (st.parts_ranges, st.parts_selected_precondition)

/-- Line 72: the configured value converted to `size_t`. -/
def maxPartsToBreak (data : MergeTreeMetaBase) : Nat :=
  (data.max_parts_to_break_config % (2 ^ 64 : Int)).toNat

/-- Lines 75-83: the bucket map. -/
def makeBuckets (data : MergeTreeMetaBase) (data_parts : ServerDataPartsVector) :
    List (Int × ServerDataPartsVector) :=
  if data.isBucketTable then groupPartsByBucketNumber data [] data_parts
  else [(0, data_parts)]

/-- Lines 87-91: the frames of one bucket. -/
def framesOfBucket (ext : Externals) (nonadjacent : Bool) (bucket : ServerDataPartsVector) :
    List ServerDataPartsVector :=
  if nonadjacent then groupPartsByColumnsMutationsCommitTime ext.groupIteration bucket []
  else [bucket]

/-- All frames scanned by lines 85-186, in scan order. -/
def allFrames (ext : Externals) (data : MergeTreeMetaBase) (data_parts : ServerDataPartsVector) :
    List ServerDataPartsVector :=
  ((ext.bucketIteration.order (makeBuckets data data_parts)).map
    (fun bucket =>
      framesOfBucket ext data.settings.cnch_merge_select_nonadjacent_parts bucket.2)).flatten

/-- Lines 62-186: the candidate ranges and the counter
`parts_selected_precondition` after all buckets have been scanned. -/
def buildPartsRanges (ext : Externals) (data : MergeTreeMetaBase)
    (data_parts : ServerDataPartsVector) (can_merge_callback : ServerCanMergeCallback) :
    Except LogicError (PartsRanges × Nat) :=
  (allFrames ext data data_parts).foldlM
    (scanFrame ext data.settings.cnch_merge_select_nonadjacent_parts (maxPartsToBreak data)
      can_merge_callback)
    ([], 0)

/-! ## Selector configuration -/

/-- Constant `std::numeric_limits<UInt32>::max()`. -/
def UInt32_max : Int := 4294967295

/-- Lines 241-248: the row cap given to the selector. -/
def effectiveMaxTotalRows (data : MergeTreeMetaBase) : Int :=
  let max_rows := data.settings.cnch_merge_max_total_rows_to_merge
  if data.hasUniqueKey then
    if !(decide (0 < max_rows) && decide (max_rows ≤ UInt32_max)) then UInt32_max else max_rows
  else max_rows

/-- The flag `aggressive` after lines 54 and 76-81. -/
def effectiveAggressive (data : MergeTreeMetaBase) (settings : SelectPartsToMergeSettings) :
    Bool :=
  if data.isBucketTable then true else settings.aggressive

/-- Lines 237-257: the settings of the selector. -/
def makeMergeSettings (data : MergeTreeMetaBase) (settings : SelectPartsToMergeSettings) :
    DanceMergeSelectorSettings :=
  let loaded := data.loadFromConfig
  { max_parts_to_merge_base :=
      min data.settings.cnch_merge_max_parts_to_merge data.settings.max_parts_to_merge_at_once
    max_total_rows_to_merge := effectiveMaxTotalRows data
    enable_batch_select := settings.enable_batch_select
    min_parts_to_merge_base :=
      if effectiveAggressive data settings then 1 else loaded.min_parts_to_merge_base
    final := settings.final
    max_age_for_single_part_chain := data.settings.merge_with_ttl_timeout
    select_nonadjacent_parts_allowed := data.settings.cnch_merge_select_nonadjacent_parts }

/-- Conversion of a `size_t` to a signed 64-bit integer. -/
def toInt64 (n : Nat) : Int :=
  let m : Int := ((n % 2 ^ 64 : Nat) : Int)
  if m < 2 ^ 63 then m else m - 2 ^ 64

/-- Lines 260-283: the adaptive controller attached to the selector, if any. -/
def makeAdaptiveController (ext : Externals) (data : MergeTreeMetaBase)
    (settings : SelectPartsToMergeSettings) (parts_ranges : PartsRanges)
    (unselectable_part_rows : List (String × (Nat × Nat))) :
    Option MergeSelectorAdaptiveController :=
  let expected_parts_number := data.settings.cnch_merge_expected_parts_number
  if decide (expected_parts_number ≥ 0) && !effectiveAggressive data settings
      && !settings.final then
    match ext.getOrCreateTableStats with
    | none => none
    | some bg_task_stats =>
      let expected_parts_number :=
        if expected_parts_number = 0 then toInt64 settings.num_default_workers
        else expected_parts_number
      if expected_parts_number > 0 then
        some { is_bucket_table := data.isBucketTable
               expected_parts_number := expected_parts_number
               write_amplification_optimize_threshold :=
                 data.settings.cnch_merge_write_amplification_optimize_threshold
               max_parts_to_merge :=
                 (makeMergeSettings data settings).max_parts_to_merge_base
               bg_task_stats := bg_task_stats
               parts_ranges := parts_ranges
               unselectable_part_rows := unselectable_part_rows }
      else none
  else none

/-! ## Post-processing and the planner -/

/-- Line 316: `std::sort` with the part comparator, as an insertion sort. -/
def sortParts (less : ServerDataPart → ServerDataPart → Bool) (parts : ServerDataPartsVector) :
    ServerDataPartsVector :=
  parts.insertionSort (fun a b => less b a = false)

/-- Lines 296-307: the test that makes the loop `continue`. -/
def isRejectedSingleton (range : PartsRange) : Bool :=
  match range with
  | [part] => decide (part.chain_depth = 0)
  | _ => false

/-- Lines 308-316: the part vector appended to `res` for one kept range. -/
def materialize (ext : Externals) (data : MergeTreeMetaBase) (range : PartsRange) :
    ServerDataPartsVector :=
  let emplaced_parts := range.map (fun part => part.data)
  if data.settings.cnch_merge_select_nonadjacent_parts then sortParts ext.partLess emplaced_parts
  else emplaced_parts

/-- Lines 293-317: the loop over the ranges returned by the selector. -/
def postProcess (ext : Externals) (data : MergeTreeMetaBase)
    (res : List ServerDataPartsVector) (ranges : PartsRanges) : List ServerDataPartsVector :=
  ranges.foldl
    (fun res range =>
      if isRejectedSingleton range then res
      else res ++ [materialize ext data range])
    res

/-- Line 285: the ranges returned by the selector for given candidate ranges. -/
def selectedRanges (ext : Externals) (data : MergeTreeMetaBase)
    (unselectable_part_rows : List (String × (Nat × Nat)))
    (settings : SelectPartsToMergeSettings) (parts_ranges : PartsRanges) : PartsRanges :=
  ext.selectMulti (makeMergeSettings data settings)
    (makeAdaptiveController ext data settings parts_ranges unselectable_part_rows)
    parts_ranges settings.max_total_size_to_merge

/-- Function `selectPartsToMerge` (lines 33-320): the decision and the final
value of the output parameter `res`. -/
def selectPartsToMerge (ext : Externals) (data : MergeTreeMetaBase)
    (res : List ServerDataPartsVector) (data_parts : ServerDataPartsVector)
    (unselectable_part_rows : List (String × (Nat × Nat)))
    (can_merge_callback : ServerCanMergeCallback) (settings : SelectPartsToMergeSettings) :
    Except LogicError (ServerSelectPartsDecision × List ServerDataPartsVector) :=
  if data_parts.isEmpty then pure (.NOTHING_TO_MERGE, res)
  else do
    let built ← buildPartsRanges ext data data_parts can_merge_callback
    if built.2 = 0 then pure (.CANNOT_SELECT, res)
    else
      let ranges := selectedRanges ext data unselectable_part_rows settings built.1
      if ranges.isEmpty then pure (.CANNOT_SELECT, res)
      else pure (.SELECTED, postProcess ext data res ranges)

/-! ## Syntax trees (Parsers/IAST.cpp, lines 33-92) -/

/-- A node of a syntax tree.  Of the class `IAST` only the vector `children`
is read by `size`, `checkSize` and `checkDepthImpl`; trees are finite. -/
inductive IAST where
  | node (children : List IAST)
deriving Repr

/-- The two exceptions thrown by the checks, with the maximum named in the
message: "AST is too big. Maximum: n" and "AST is too deep. Maximum: n". -/
inductive ASTException where
  | TOO_BIG_AST (maximum : Nat)
  | TOO_DEEP_AST (maximum : Nat)
deriving DecidableEq, Repr

mutual
/-- Method `IAST::size` (lines 33-40). -/
def IAST.size : IAST → Nat
  | .node children => IAST.sizeLoop children 1
/-- The loop of lines 36-37 over the remaining children, `res` so far. -/
def IAST.sizeLoop : List IAST → Nat → Nat
  | [], res => res
  | child :: rest, res => IAST.sizeLoop rest (res + child.size)
end

mutual
/-- Method `IAST::checkSize` (lines 42-52). -/
def IAST.checkSize (max_size : Nat) : IAST → Except ASTException Nat
  | .node children =>
    match IAST.checkSizeLoop max_size children 1 with
    | .error e => .error e
    | .ok res => if res > max_size then .error (.TOO_BIG_AST max_size) else .ok res
/-- The loop of lines 45-46 over the remaining children, `res` so far. -/
def IAST.checkSizeLoop (max_size : Nat) : List IAST → Nat → Except ASTException Nat
  | [], res => .ok res
  | child :: rest, res =>
    match child.checkSize max_size with
    | .error e => .error e
    | .ok n => IAST.checkSizeLoop max_size rest (res + n)
end

mutual
/-- Method `IAST::checkDepthImpl` (lines 81-92); the second argument is
`level`. -/
def IAST.checkDepthImpl (max_depth : Nat) : IAST → Nat → Except ASTException Nat
  | .node children, level => IAST.checkDepthLoop max_depth children level (level + 1)
/-- The loop of lines 84-89 over the remaining children of a node at `level`,
`res` so far. -/
def IAST.checkDepthLoop (max_depth : Nat) : List IAST → Nat → Nat → Except ASTException Nat
  | [], _, res => .ok res
  | child :: rest, level, res =>
    if level ≥ max_depth then .error (.TOO_DEEP_AST max_depth)
    else
      match child.checkDepthImpl max_depth (level + 1) with
      | .error e => .error e
      | .ok d => IAST.checkDepthLoop max_depth rest level (max res d)
end

/-! ## SQL hints (Parsers/IAST.cpp, lines 198-258) -/

/-- Modelled from the spec: the class `SqlHint`, declared outside the
translated file: a name, the options in order of insertion, and the key-value
options, a map with distinct keys held as the list of its entries. -/
structure SqlHint where
  name : String
  options : List String
  kv_options : List (String × String)
deriving DecidableEq, Repr

/-- Modelled from the spec: `SqlHint::setOption`, declared outside the
translated file: the option is added after the existing ones. -/
def SqlHint.setOption (hint : SqlHint) (option : String) : SqlHint :=
  { hint with options := hint.options ++ [option] }

/-- Modelled from the spec: `SqlHint::setKvOption`, declared outside the
translated file: the key gets the value, as a new entry when the key is not
yet in the map. -/
def SqlHint.setKvOption (hint : SqlHint) (key value : String) : SqlHint :=
  { hint with
    kv_options :=
      if key ∈ hint.kv_options.map Prod.fst then
        hint.kv_options.map fun e => if e.1 = key then (key, value) else e
      else hint.kv_options ++ [(key, value)] }

/-- Modelled from the spec: `writeBinary` and `readBinary` for `String` and
`size_t` (the IO helpers, outside the translated file), over buffers of
cells of type `B`; a read returns the value and the rest of the buffer, or
nothing when it throws. -/
structure BinaryFormat (B : Type) where
  writeString : String → List B
  readString : List B → Option (String × List B)
  writeSize : Nat → List B
  readSize : List B → Option (Nat × List B)

/-- Iteration order of the map `kv_options`: some permutation of its entries. -/
structure KvIteration where
  order : List (String × String) → List (String × String)
  order_perm : ∀ m, (order m).Perm m

/-- Method `SqlHint::serialize` (lines 198-211): the buffer after the writes. -/
def SqlHint.serialize {B : Type} (fmt : BinaryFormat B) (iteration : KvIteration)
    (hint : SqlHint) (buf : List B) : List B :=
  let buf := buf ++ fmt.writeString hint.name
  let buf := buf ++ fmt.writeSize hint.options.length
  let buf := hint.options.foldl (fun buf option => buf ++ fmt.writeString option) buf
  let buf := buf ++ fmt.writeSize hint.kv_options.length
  (iteration.order hint.kv_options).foldl
    (fun buf item => buf ++ fmt.writeString item.1 ++ fmt.writeString item.2) buf

/-- The loop of lines 222-227 with `size - i` iterations left. -/
def SqlHint.readOptions {B : Type} (fmt : BinaryFormat B) :
    Nat → SqlHint → List B → Option (SqlHint × List B)
  | 0, hint, buf => some (hint, buf)
  | n + 1, hint, buf =>
    match fmt.readString buf with
    | none => none
    | some (option, buf) => SqlHint.readOptions fmt n (hint.setOption option) buf

/-- The loop of lines 230-237 with `size - i` iterations left. -/
def SqlHint.readKvOptions {B : Type} (fmt : BinaryFormat B) :
    Nat → SqlHint → List B → Option (SqlHint × List B)
  | 0, hint, buf => some (hint, buf)
  | n + 1, hint, buf =>
    match fmt.readString buf with
    | none => none
    | some (key, buf) =>
      match fmt.readString buf with
      | none => none
      | some (value, buf) => SqlHint.readKvOptions fmt n (hint.setKvOption key value) buf

/-- Method `SqlHint::deserialize` (lines 213-240): the hint and the rest of
the buffer. -/
def SqlHint.deserialize {B : Type} (fmt : BinaryFormat B) (buf : List B) :
    Option (SqlHint × List B) :=
  match fmt.readString buf with
  | none => none
  | some (name, buf) =>
    let hint : SqlHint := { name := name, options := [], kv_options := [] }
    match fmt.readSize buf with
    | none => none
    | some (size, buf) =>
      match SqlHint.readOptions fmt size hint buf with
      | none => none
      | some (hint, buf) =>
        match fmt.readSize buf with
        | none => none
        | some (size, buf) => SqlHint.readKvOptions fmt size hint buf

/-- Method `SqlHints::serialize` (lines 242-247). -/
def SqlHints.serialize {B : Type} (fmt : BinaryFormat B) (iteration : KvIteration)
    (hints : List SqlHint) (buf : List B) : List B :=
  hints.foldl (fun buf hint => hint.serialize fmt iteration buf)
    (buf ++ fmt.writeSize hints.length)

/-- The loop of lines 253-257 with `size - i` iterations left. -/
def SqlHints.readHints {B : Type} (fmt : BinaryFormat B) :
    Nat → List SqlHint → List B → Option (List SqlHint × List B)
  | 0, hints, buf => some (hints, buf)
  | n + 1, hints, buf =>
    match SqlHint.deserialize fmt buf with
    | none => none
    | some (hint, buf) => SqlHints.readHints fmt n (hints ++ [hint]) buf

/-- Method `SqlHints::deserialize` (lines 249-258) on the hints `self`. -/
def SqlHints.deserialize {B : Type} (fmt : BinaryFormat B) (self : List SqlHint)
    (buf : List B) : Option (List SqlHint × List B) :=
  match fmt.readSize buf with
  | none => none
  | some (size, buf) => SqlHints.readHints fmt size self buf

/-! ## Metrics of catalog calls (Catalog/CatalogMetricHelper.h, lines 35-48) -/

namespace Catalog

/-- The process state a job can see and change: the profile event counters,
indexed by event, and everything else. -/
structure World (σ : Type) where
  counters : Nat → Nat
  state : σ

/-- Call `ProfileEvents::increment(event)`. -/
def increment {σ : Type} (event : Nat) (w : World σ) : World σ :=
  { w with counters := fun e => if e = event then w.counters e + 1 else w.counters e }

/-- Modelled from the spec: the class `ProfileEventsTimer`, declared outside
the translated file: what its constructor and its destructor do to the
process state. -/
structure ProfileEventsTimer (σ : Type) where
  construct : World σ → World σ
  destruct : World σ → World σ

/-- Type `Job`, a `std::function<void()>`: a run changes the process state and
either returns normally (`none`) or throws an exception (`some e`). -/
abbrev Job (σ ε : Type) := World σ → Option ε × World σ

/-- Function `runWithMetricSupport` (lines 35-48): the exception that leaves
the function, if any, and the process state afterwards.  The timer `helper`
is constructed first and destroyed when the scope is left, on both paths. -/
def runWithMetricSupport {σ ε : Type} (helper : ProfileEventsTimer σ) (job : Job σ ε)
    (success failed : Nat) (w : World σ) : Option ε × World σ :=
  let w := helper.construct w
  match job w with
  | (none, w) => (none, helper.destruct (increment success w))
  | (some e, w) => (some e, helper.destruct (increment failed w))

end Catalog

/-! ## Concrete tables and parts used to evaluate the planner -/

namespace Example

/-- A part model with the given name, partition, size and commit-time key. -/
def model (name partition_id : String) (size : Nat) (key : Nat × Nat) : PartModel :=
  { name := name
    partition_id := partition_id
    level := 0
    size := size
    rows_count := 5
    commit_time := 100
    columns_commit_time := key.1
    mutation_commit_time := key.2
    bucket_number := 0
    table_definition_hash := 7 }

/-- First part of partition `P0`. -/
def p0a : ServerDataPart := .base (model "P0_1_1_0" "P0" 10 (1, 1))

/-- Second part of partition `P0`. -/
def p0b : ServerDataPart := .base (model "P0_2_2_0" "P0" 10 (1, 1))

/-- Third part of partition `P0`. -/
def p0c : ServerDataPart := .base (model "P0_3_3_0" "P0" 10 (1, 1))

/-- A part of partition `P1`, with another commit-time key. -/
def p1a : ServerDataPart := .base (model "P1_4_4_0" "P1" 10 (2, 1))

/-- A selector that returns every candidate range whole. -/
def wholeRanges : DanceMergeSelectorSettings → Option MergeSelectorAdaptiveController →
    PartsRanges → Nat → PartsRanges :=
  fun _ _ parts_ranges _ => parts_ranges

/-- Collaborators: fixed clock, insertion-order iteration, no statistics, the
selector `wholeRanges`, parts compared by name. -/
def ext : Externals :=
  { current_time := 1000
    toSecond := fun t => (t : Int)
    bucketIteration := HashIteration.insertionOrder Int
    groupIteration := HashIteration.insertionOrder (Nat × Nat)
    getOrCreateTableStats := none
    selectMulti := wholeRanges
    partLess := fun a b => decide (a.model.name < b.model.name) }

/-- Selector settings as loaded from the configuration. -/
def loaded : DanceMergeSelectorSettings :=
  { max_parts_to_merge_base := 100
    max_total_rows_to_merge := 1000000
    enable_batch_select := false
    min_parts_to_merge_base := 3
    final := false
    max_age_for_single_part_chain := 0
    select_nonadjacent_parts_allowed := false }

/-- A table that is not bucketed, with the given nonadjacent flag, configured
`max_parts_to_break`, unique-key flag and configured row cap. -/
def table (nonadjacent : Bool) (max_parts_to_break : Int) (unique_key : Bool)
    (max_total_rows : Int) : MergeTreeMetaBase :=
  { settings :=
      { cnch_merge_select_nonadjacent_parts := nonadjacent
        cnch_merge_max_parts_to_merge := 100
        max_parts_to_merge_at_once := 100
        cnch_merge_max_total_rows_to_merge := max_total_rows
        merge_with_ttl_timeout := 0
        cnch_merge_expected_parts_number := -1
        cnch_merge_write_amplification_optimize_threshold := 0 }
    hasUniqueKey := unique_key
    isBucketTable := false
    tableHashMatch := fun h => decide (h = 7)
    max_parts_to_break_config := max_parts_to_break
    loadFromConfig := loaded }

/-- The caller's settings. -/
def settings : SelectPartsToMergeSettings :=
  { max_total_size_to_merge := 1000
    num_default_workers := 1
    aggressive := false
    enable_batch_select := false
    final := false }

/-- A callback that accepts every part and every pair. -/
def acceptAll : ServerCanMergeCallback := fun _ _ => true

/-- A callback that rejects everything. -/
def rejectAll : ServerCanMergeCallback := fun _ _ => false

/-- A callback that accepts exactly the parts of partition `P0`. -/
def onlyP0 : ServerCanMergeCallback := fun _ part => decide (part.partition_id = "P0")

/-- The non-bucketed strict table of the examples made a bucket table. -/
def bucketTable : MergeTreeMetaBase :=
  { table false 10 false 0 with isBucketTable := true }

/-- A part of partition `P0` in bucket 1 whose clustering hash (8) does not
match the table definition (7). -/
def unclustered : ServerDataPart :=
  .base { model "P0_5_5_0" "P0" 10 (1, 1) with bucket_number := 1, table_definition_hash := 8 }

/-- Collaborators of the examples with a statistics object for the table. -/
def extWithStats : Externals :=
  { ext with getOrCreateTableStats := some 5 }

/-- A strict, non-bucketed table whose expected part count is the value 0
that stands for the default worker count. -/
def adaptiveTable : MergeTreeMetaBase :=
  { table false 10 false 0 with
    settings := { (table false 10 false 0).settings with cnch_merge_expected_parts_number := 0 } }

/-- A part of partition `P2` with two previous versions. -/
def chainedPart : ServerDataPart :=
  .chained (model "P2_6_6_0_3" "P2" 10 (1, 1))
    (.chained (model "P2_6_6_0_2" "P2" 20 (1, 1)) (.base (model "P2_6_6_0" "P2" 30 (1, 1))))

/-- A part of partition `P3` of `2^63` bytes whose only previous version has
`2^63` bytes too. -/
def hugeChain : ServerDataPart :=
  .chained (model "P3_9_9_0_2" "P3" (2 ^ 63) (3, 1))
    (.base (model "P3_9_9_0" "P3" (2 ^ 63) (3, 1)))

/-- A part of partition `P0` of 30 bytes. -/
def p0big : ServerDataPart := .base (model "P0_7_7_0" "P0" 30 (1, 1))

/-- A part of partition `P0` of 20 bytes. -/
def p0mid : ServerDataPart := .base (model "P0_8_8_0" "P0" 20 (1, 1))

/-- Collaborators of the examples with parts compared by their size. -/
def extBySize : Externals :=
  { ext with partLess := fun a b => decide (a.model.size < b.model.size) }

/-- A callback that accepts `p0a` alone and the pair (`p0a`, `p0c`), and
nothing else. -/
def onlyFirstAndThird : ServerCanMergeCallback := fun prev part =>
  match prev with
  | none => decide (part = p0a)
  | some q => decide (q = p0a ∧ part = p0c)

/-- A tree of two nodes: a root with one child. -/
def rootWithChild : IAST := .node [.node []]

/-- A tree of four nodes and depth 3. -/
def smallTree : IAST := .node [.node [], .node [.node []]]

/-- A binary format whose cells are whole values: a size or a string. -/
def cellFormat : BinaryFormat (Nat ⊕ String) where
  writeString := fun s => [Sum.inr s]
  readString := fun buf =>
    match buf with
    | Sum.inr s :: rest => some (s, rest)
    | _ => none
  writeSize := fun n => [Sum.inl n]
  readSize := fun buf =>
    match buf with
    | Sum.inl n :: rest => some (n, rest)
    | _ => none

/-- The iteration of `kv_options` that visits the entries in reverse order. -/
def reverseKv : KvIteration where
  order := fun m => m.reverse
  order_perm := fun m => List.reverse_perm m

/-- Two hints: one with two options and two key-value options, one with none. -/
def hints : List SqlHint :=
  [{ name := "leading", options := ["t1", "t2"], kv_options := [("a", "1"), ("b", "2")] },
   { name := "no_merge", options := [], kv_options := [] }]

/-- A timer that counts the request under event 0 when it is destroyed. -/
def requestTimer : Catalog.ProfileEventsTimer Nat where
  construct := fun w => w
  destruct := fun w => Catalog.increment 0 w

/-- A job that counts its runs in the state and returns normally. -/
def goodJob : Catalog.Job Nat String := fun w => (none, { w with state := w.state + 1 })

/-- A job that counts its runs in the state and throws. -/
def badJob : Catalog.Job Nat String := fun w => (some "boom", { w with state := w.state + 1 })

/-- A process state with all counters at 0 and no job run. -/
def freshWorld : Catalog.World Nat := { counters := fun _ => 0, state := 0 }

end Example

/-! ## Predicates used to state and prove the contract -/

deriving instance DecidableEq for Except

/-- Well-formedness of the loop-carried variables: once a partition frame is
open there is a last range, and a non-null `prev_part` is the part most
recently pushed, sitting at the end of the last range. -/
def ScanState.WF (ext : Externals) (st : ScanState) : Prop :=
  (st.prev_partition_id ≠ none → st.parts_ranges ≠ []) ∧
  (∀ p, st.prev_part = some p →
    st.prev_partition_id ≠ none ∧
    ∃ init b, st.parts_ranges = init ++ [b ++ [makePartInfo ext p]])

/-- The three ways in which the checks of lines 117-183 can end, starting
from the state `st` reached after lines 107-115. -/
inductive Outcome (ext : Externals) (cm : ServerCanMergeCallback) (part : ServerDataPart)
    (st : ScanState) : ScanState → Prop where
  | skipped :
      cm none part = false →
      (∀ prev, st.prev_part = some prev → cm (some prev) part = false) →
      Outcome ext cm part st { st with prev_part := none }
  | started (init : PartsRanges) (b : PartsRange) :
      st.parts_ranges = init ++ [b] →
      cm none part = true →
      (∀ prev, st.prev_part = some prev → cm (some prev) part = false) →
      Outcome ext cm part st
        { parts_ranges := (if b = [] then init else init ++ [b]) ++ [[makePartInfo ext part]]
          parts_selected_precondition := st.parts_selected_precondition + 1
          prev_partition_id := st.prev_partition_id
          prev_part := some part }
  | extended (init : PartsRanges) (b : PartsRange) (prev : ServerDataPart) :
      st.parts_ranges = init ++ [b ++ [makePartInfo ext prev]] →
      st.prev_part = some prev →
      cm (some prev) part = true →
      Outcome ext cm part st
        { parts_ranges := init ++ [b ++ [makePartInfo ext prev] ++ [makePartInfo ext part]]
          parts_selected_precondition := st.parts_selected_precondition + 1
          prev_partition_id := st.prev_partition_id
          prev_part := some part }

/-- What lines 107-115 do to the state `st` when `part` is looked at. -/
inductive Opened (nonadjacent : Bool) (max_parts_to_break : Nat) (part : ServerDataPart)
    (st : ScanState) : ScanState → Prop where
  | kept :
      st.prev_partition_id = some part.partition_id →
      needSplit nonadjacent max_parts_to_break st.parts_ranges = false →
      Opened nonadjacent max_parts_to_break part st st
  | fresh :
      (∀ init, st.parts_ranges ≠ init ++ [[]]) →
      Opened nonadjacent max_parts_to_break part st
        { parts_ranges := st.parts_ranges ++ [[]]
          parts_selected_precondition := st.parts_selected_precondition
          prev_partition_id := some part.partition_id
          prev_part := none }
  | reused (init : PartsRanges) :
      st.parts_ranges = init ++ [[]] →
      Opened nonadjacent max_parts_to_break part st
        { parts_ranges := init ++ [[]]
          parts_selected_precondition := st.parts_selected_precondition
          prev_partition_id := some part.partition_id
          prev_part := none }

/-- A list of parts in which the first part passes the solo check and every
two neighbours pass the pair check. -/
def MergeableChain (cm : ServerCanMergeCallback) (ps : ServerDataPartsVector) : Prop :=
  (∀ p0, ps.head? = some p0 → cm none p0 = true) ∧
    List.Chain' (fun a b => cm (some a) b = true) ps

/-- The state of a grouping loop after the parts `pre` have been looked at:
the keys are distinct, the group of a key holds the kept parts of `pre` with
that key in input order and is not empty, and every kept part has a group. -/
def GroupsOf {K : Type} [DecidableEq K] (keep : ServerDataPart → Bool) (key : ServerDataPart → K)
    (pre : ServerDataPartsVector) (m : List (K × ServerDataPartsVector)) : Prop :=
  (m.map Prod.fst).Nodup ∧
  (∀ e ∈ m, e.2 ≠ [] ∧ e.2 = pre.filter (fun p => keep p && decide (key p = e.1))) ∧
  (∀ p ∈ pre, keep p = true → key p ∈ m.map Prod.fst)

/-- The previous versions of a part, nearest first: the parts reached by
following `tryGetPreviousPart()` until it is null. -/
def ServerDataPart.previousParts : ServerDataPart → List ServerDataPart
  | .base _ => []
  | .chained _ prev => prev :: prev.previousParts

/-- The last part of the version chain of a part: the part itself when it has
no previous part. -/
def ServerDataPart.basePart : ServerDataPart → ServerDataPart
  | .base m => .base m
  | .chained _ prev => prev.basePart

/-- The maximal runs of consecutive parts with equal partition id, in input
order. -/
def partitionRuns : ServerDataPartsVector → List ServerDataPartsVector
  | [] => []
  | p :: ps =>
    match partitionRuns ps with
    | (q :: run) :: runs =>
      if p.partition_id = q.partition_id then (p :: q :: run) :: runs
      else [p] :: (q :: run) :: runs
    | runs => [p] :: runs

/-- Helper of `chunksOf` with a bound on the number of chunks. -/
def chunksAux {α : Type} (n : Nat) : Nat → List α → List (List α)
  | 0, _ => []
  | fuel + 1, l =>
    match l with
    | [] => []
    | _ :: _ => l.take n :: chunksAux n fuel (l.drop n)

/-- A list cut in order into chunks of `n` elements, the last chunk possibly
shorter: the first `n` elements, then the chunks of the rest. -/
def chunksOf {α : Type} (n : Nat) (l : List α) : List (List α) :=
  chunksAux n l.length l

/-- A list of runs: every run is non-empty and has one partition id, and the
run that follows has another one. -/
def RunsOK : List ServerDataPartsVector → Prop
  | [] => True
  | run :: runs =>
    (∃ p rest, run = p :: rest ∧ (∀ x ∈ rest, x.partition_id = p.partition_id) ∧
      ∀ p2 rest2 tl, runs = (p2 :: rest2) :: tl → p.partition_id ≠ p2.partition_id) ∧
    RunsOK runs

/-- The invariant of the list of candidate ranges and the counter: every
range other than the last one is non-empty, and the counter is the total
number of records held. -/
def RangesCounted (ranges : PartsRanges) (counter : Nat) : Prop :=
  (∀ r ∈ ranges.dropLast, r ≠ []) ∧ counter = (ranges.map List.length).sum

/-- The parts held in a list of candidate ranges, range after range. -/
def heldParts (ranges : PartsRanges) : ServerDataPartsVector :=
  ranges.flatten.map fun sp => sp.data

/-- The test that decides whether lines 117-154 skip `part`, in terms of the
value `prev` of `prev_part` after lines 107-115. -/
def isLeftOut (cm : ServerCanMergeCallback) (prev : Option ServerDataPart)
    (part : ServerDataPart) : Bool :=
  !cm none part &&
    (match prev with
     | none => true
     | some q => !cm (some q) part)

mutual
/-- All nodes of a tree, the root first. -/
def IAST.nodes : IAST → List IAST
  | .node children => .node children :: IAST.nodesOfList children
/-- All nodes of the trees of a list. -/
def IAST.nodesOfList : List IAST → List IAST
  | [] => []
  | child :: rest => child.nodes ++ IAST.nodesOfList rest
end

mutual
/-- The depth of a tree: the number of nodes on a longest path from the root
to a leaf. -/
def IAST.depth : IAST → Nat
  | .node children => 1 + IAST.depthOfList children
/-- The largest depth of the trees of a list, 0 for the empty list. -/
def IAST.depthOfList : List IAST → Nat
  | [] => 0
  | child :: rest => max child.depth (IAST.depthOfList rest)
end

theorem back_concat {α : Type} (init : List α) (b : α) : back (init ++ [b]) = .ok b := by
  simp [back]

theorem pushToBack_concat (init : PartsRanges) (b : PartsRange) (x : SelectorPart) :
    pushToBack (init ++ [b]) x = .ok (init ++ [b ++ [x]]) := by
  simp [pushToBack]

theorem exists_concat_of_ne_nil {α : Type} (l : List α) (h : l ≠ []) :
    ∃ init b, l = init ++ [b] :=
  ⟨l.dropLast, l.getLast h, (List.dropLast_append_getLast h).symm⟩

theorem checkAndAccept_outcome (ext : Externals) (cm : ServerCanMergeCallback)
    (st : ScanState) (part : ServerDataPart) (hwf : st.WF ext)
    (hne : st.parts_ranges ≠ []) :
    ∃ st2, checkAndAccept ext cm st part = .ok st2 ∧ Outcome ext cm part st st2 := by
  obtain ⟨rs, n, pid, prev⟩ := st
  obtain ⟨init, b, rfl⟩ := exists_concat_of_ne_nil rs hne
  cases prev with
  | none =>
    cases hc : cm none part with
    | false =>
      refine ⟨_, ?_, Outcome.skipped hc (by simp)⟩
      simp [checkAndAccept, hc, pure, Except.pure]
    | true =>
      refine ⟨_, ?_, Outcome.started init b rfl hc (by simp)⟩
      by_cases hb : b = []
      · subst hb
        simp [checkAndAccept, hc, back_concat, acceptPart, pushToBack_concat, bind, Except.bind,
          pure, Except.pure]
      · have hp := pushToBack_concat (init ++ [b]) [] (makePartInfo ext part)
        simp only [List.append_assoc, List.singleton_append, List.nil_append] at hp
        simp [checkAndAccept, hc, back_concat, acceptPart, bind, Except.bind, hb, hp,
          pure, Except.pure]
  | some prev =>
    obtain ⟨_, init2, b2, h2⟩ := hwf.2 prev rfl
    simp only at h2
    obtain ⟨rfl, hb⟩ := List.append_inj' h2 (by simp)
    obtain rfl : b = b2 ++ [makePartInfo ext prev] := by simpa using hb
    cases hc : cm (some prev) part with
    | true =>
      refine ⟨_, ?_, Outcome.extended init b2 prev rfl rfl hc⟩
      simp [checkAndAccept, hc, acceptPart, pushToBack_concat, bind, Except.bind,
          pure, Except.pure]
    | false =>
      cases hn : cm none part with
      | false =>
        refine ⟨_, ?_, Outcome.skipped hn (by simp [hc])⟩
        simp [checkAndAccept, hc, hn, back_concat, bind, Except.bind, pure, Except.pure]
      | true =>
        refine ⟨_, ?_, Outcome.started init _ rfl hn (by simp [hc])⟩
        have hp := pushToBack_concat (init ++ [b2 ++ [makePartInfo ext prev]]) []
          (makePartInfo ext part)
        simp only [List.append_assoc, List.singleton_append, List.nil_append] at hp
        simp [checkAndAccept, hc, hn, back_concat, acceptPart, bind, Except.bind, hp,
          pure, Except.pure]

theorem openFrame_opened (nonadjacent : Bool) (max_parts_to_break : Nat) (st : ScanState)
    (part : ServerDataPart) :
    Opened nonadjacent max_parts_to_break part st
      (openFrame nonadjacent max_parts_to_break st part) := by
  unfold openFrame
  simp only []
  split_ifs with h
  · rcases List.eq_nil_or_concat st.parts_ranges with hnil | ⟨init, b, hb⟩
    · rw [hnil]
      simp only [List.getLast?_nil, List.nil_append]
      have := @Opened.fresh nonadjacent max_parts_to_break part st (by simp [hnil])
      simpa [hnil] using this
    · rw [List.concat_eq_append] at hb
      by_cases hbe : b = []
      · subst hbe
        have := @Opened.reused nonadjacent max_parts_to_break part st init hb
        simpa [hb] using this
      · have := @Opened.fresh nonadjacent max_parts_to_break part st
          (by
            intro init2 h2
            rw [hb] at h2
            have := (List.append_inj' h2 (by simp)).2
            simp at this
            exact hbe this)
        have hb2 : b.isEmpty = false := by cases b <;> simp_all
        simpa [hb, hb2] using this
  · have h1 : st.prev_partition_id = some part.partition_id := by
      cases hp : st.prev_partition_id with
      | none => simp [hp] at h
      | some q =>
        simp [hp] at h
        simp [h.1]
    have h2 : needSplit nonadjacent max_parts_to_break st.parts_ranges = false := by
      cases hn : needSplit nonadjacent max_parts_to_break st.parts_ranges with
      | false => rfl
      | true => simp [hn] at h
    exact Opened.kept h1 h2

theorem Opened.opened_partition_id {nonadjacent : Bool} {max_parts_to_break : Nat}
    {part : ServerDataPart} {st st1 : ScanState}
    (h : Opened nonadjacent max_parts_to_break part st st1) :
    st1.prev_partition_id = some part.partition_id := by
  cases h with
  | kept h1 _ => exact h1
  | fresh _ => rfl
  | reused _ _ => rfl

theorem Opened.opened_count {nonadjacent : Bool} {max_parts_to_break : Nat}
    {part : ServerDataPart} {st st1 : ScanState}
    (h : Opened nonadjacent max_parts_to_break part st st1) :
    st1.parts_selected_precondition = st.parts_selected_precondition := by
  cases h <;> rfl

theorem Opened.opened_wf {ext : Externals} {nonadjacent : Bool} {max_parts_to_break : Nat}
    {part : ServerDataPart} {st st1 : ScanState}
    (h : Opened nonadjacent max_parts_to_break part st st1) (hwf : st.WF ext) :
    st1.WF ext ∧ st1.parts_ranges ≠ [] := by
  cases h with
  | kept h1 _ => exact ⟨hwf, hwf.1 (by simp [h1])⟩
  | fresh _ => exact ⟨⟨by simp, by simp⟩, by simp⟩
  | reused init _ => exact ⟨⟨by simp, by simp⟩, by simp⟩

theorem Outcome.outcome_wf {ext : Externals} {cm : ServerCanMergeCallback} {part : ServerDataPart}
    {st1 st2 : ScanState} (h : Outcome ext cm part st1 st2) (hwf : st1.WF ext)
    (hpid : st1.prev_partition_id ≠ none) : st2.WF ext := by
  cases h with
  | skipped _ _ => exact ⟨hwf.1, by simp⟩
  | started init b _ _ _ =>
    refine ⟨by simp, ?_⟩
    intro p hp
    simp only [Option.some.injEq] at hp
    subst hp
    exact ⟨hpid, _, [], rfl⟩
  | extended init b prev _ _ _ =>
    refine ⟨by simp, ?_⟩
    intro p hp
    simp only [Option.some.injEq] at hp
    subst hp
    exact ⟨hpid, _, _, rfl⟩

/-- One loop iteration never fails from a well-formed state, and its effect is
an `Opened` step followed by an `Outcome` step. -/
theorem scanPart_ok (ext : Externals) (nonadjacent : Bool) (max_parts_to_break : Nat)
    (cm : ServerCanMergeCallback) (st : ScanState) (part : ServerDataPart) (hwf : st.WF ext) :
    ∃ st1 st2, scanPart ext nonadjacent max_parts_to_break cm st part = .ok st2 ∧
      Opened nonadjacent max_parts_to_break part st st1 ∧ st1.WF ext ∧
      Outcome ext cm part st1 st2 ∧ st2.WF ext := by
  have ho := openFrame_opened nonadjacent max_parts_to_break st part
  obtain ⟨hwf1, hne⟩ := ho.opened_wf hwf
  obtain ⟨st2, h2, hout⟩ := checkAndAccept_outcome ext cm _ part hwf1 hne
  exact ⟨_, st2, h2, ho, hwf1, hout, hout.outcome_wf hwf1 (by simp [ho.opened_partition_id])⟩

/-- Induction over the parts of one frame: a property of the loop-carried
state that survives every iteration holds when the frame has been scanned,
and the scan does not fail. -/
theorem scanParts_induction (ext : Externals) (nonadjacent : Bool) (max_parts_to_break : Nat)
    (cm : ServerCanMergeCallback) (I : ScanState → Prop) (frame : ServerDataPartsVector)
    (hstep : ∀ part ∈ frame, ∀ st st1 st2, st.WF ext → I st →
      Opened nonadjacent max_parts_to_break part st st1 → st1.WF ext →
      Outcome ext cm part st1 st2 → I st2) :
    ∀ st, st.WF ext → I st →
      ∃ st2, frame.foldlM (scanPart ext nonadjacent max_parts_to_break cm) st = .ok st2 ∧
        st2.WF ext ∧ I st2 := by
  induction frame with
  | nil =>
    intro st hwf hI
    exact ⟨st, rfl, hwf, hI⟩
  | cons part rest ih =>
    intro st hwf hI
    obtain ⟨st1, st2, hrun, hopen, hwf1, hout, hwf2⟩ :=
      scanPart_ok ext nonadjacent max_parts_to_break cm st part hwf
    have hI2 := hstep part (List.mem_cons_self _ _) st st1 st2 hwf hI hopen hwf1 hout
    obtain ⟨st3, hrun3, hwf3, hI3⟩ :=
      ih (fun p hp => hstep p (List.mem_cons_of_mem _ hp)) st2 hwf2 hI2
    refine ⟨st3, ?_, hwf3, hI3⟩
    simp [List.foldlM_cons, hrun, bind, Except.bind, hrun3]

/-- Induction over the whole range builder.  `J` is a property of the pair
(ranges, counter) between two frames, `I frame` a property of the state
while `frame` is scanned. -/
theorem buildPartsRanges_induction (ext : Externals) (data : MergeTreeMetaBase)
    (data_parts : ServerDataPartsVector) (cm : ServerCanMergeCallback)
    (J : PartsRanges × Nat → Prop) (I : ServerDataPartsVector → ScanState → Prop)
    (h0 : J ([], 0))
    (hin : ∀ frame ∈ allFrames ext data data_parts, ∀ acc, J acc →
      I frame { parts_ranges := acc.1, parts_selected_precondition := acc.2,
                prev_partition_id := none, prev_part := none })
    (hstep : ∀ frame ∈ allFrames ext data data_parts, ∀ part ∈ frame, ∀ st st1 st2,
      st.WF ext → I frame st →
      Opened data.settings.cnch_merge_select_nonadjacent_parts (maxPartsToBreak data) part st st1 →
      st1.WF ext → Outcome ext cm part st1 st2 → I frame st2)
    (hout : ∀ frame ∈ allFrames ext data data_parts, ∀ st, I frame st →
      J (st.parts_ranges, st.parts_selected_precondition)) :
    ∃ built, buildPartsRanges ext data data_parts cm = .ok built ∧ J built := by
  unfold buildPartsRanges
  generalize allFrames ext data data_parts = frames at hin hstep hout
  generalize (([], 0) : PartsRanges × Nat) = acc at h0
  induction frames generalizing acc with
  | nil => exact ⟨acc, rfl, h0⟩
  | cons frame rest ih =>
    have hmem : frame ∈ frame :: rest := List.mem_cons_self _ _
    obtain ⟨st2, hrun, _, hI2⟩ :=
      scanParts_induction ext data.settings.cnch_merge_select_nonadjacent_parts
        (maxPartsToBreak data) cm (I frame) frame (hstep frame hmem)
        { parts_ranges := acc.1, parts_selected_precondition := acc.2,
          prev_partition_id := none, prev_part := none }
        ⟨by simp, by simp⟩ (hin frame hmem acc h0)
    obtain ⟨built, hb, hJ⟩ :=
      ih (fun f hf => hin f (List.mem_cons_of_mem _ hf))
        (fun f hf => hstep f (List.mem_cons_of_mem _ hf))
        (fun f hf => hout f (List.mem_cons_of_mem _ hf))
        (st2.parts_ranges, st2.parts_selected_precondition) (hout frame hmem st2 hI2)
    refine ⟨built, ?_, hJ⟩
    simp [List.foldlM_cons, scanFrame, hrun, bind, Except.bind, pure, Except.pure, hb]

/-! ### The frames -/

theorem insertIntoGroup_forall {K : Type} [DecidableEq K] (Q : K → ServerDataPart → Prop)
    (key : K) (part : ServerDataPart) (hq : Q key part) :
    ∀ m : List (K × ServerDataPartsVector), (∀ e ∈ m, ∀ x ∈ e.2, Q e.1 x) →
      ∀ e ∈ insertIntoGroup key part m, ∀ x ∈ e.2, Q e.1 x := by
  intro m
  induction m with
  | nil =>
    intro _ e he x hx
    simp only [insertIntoGroup, List.mem_singleton] at he
    subst he
    simp only [List.mem_singleton] at hx
    subst hx
    exact hq
  | cons hd tl ih =>
    obtain ⟨k, ps⟩ := hd
    intro hm e he x hx
    simp only [insertIntoGroup] at he
    split_ifs at he with hk
    · rcases List.mem_cons.1 he with rfl | he
      · rcases List.mem_append.1 hx with hx | hx
        · exact hm (k, ps) (List.mem_cons_self _ _) x hx
        · simp only [List.mem_singleton] at hx
          subst hx
          subst hk
          exact hq
      · exact hm e (List.mem_cons_of_mem _ he) x hx
    · rcases List.mem_cons.1 he with rfl | he
      · exact hm (k, ps) (List.mem_cons_self _ _) x hx
      · exact ih (fun e2 he2 => hm e2 (List.mem_cons_of_mem _ he2)) e he x hx

theorem groupPartsByBucketNumber_forall (data : MergeTreeMetaBase)
    (Q : Int → ServerDataPart → Prop) (data_parts : ServerDataPartsVector)
    (hq : ∀ p ∈ data_parts, Q p.model.bucket_number p) :
    ∀ m : List (Int × ServerDataPartsVector), (∀ e ∈ m, ∀ x ∈ e.2, Q e.1 x) →
      ∀ e ∈ groupPartsByBucketNumber data m data_parts, ∀ x ∈ e.2, Q e.1 x := by
  unfold groupPartsByBucketNumber
  induction data_parts with
  | nil => intro m hm; simpa using hm
  | cons p rest ih =>
    intro m hm
    simp only [List.foldl_cons]
    apply ih (fun q hqr => hq q (List.mem_cons_of_mem _ hqr))
    split_ifs
    · exact hm
    · exact insertIntoGroup_forall Q _ p (hq p (List.mem_cons_self _ _)) m hm

theorem groupedRanges_forall (Q : Nat × Nat → ServerDataPart → Prop)
    (parts : ServerDataPartsVector) (hq : ∀ p ∈ parts, Q p.commitKey p) :
    ∀ e ∈ groupedRanges parts, ∀ x ∈ e.2, Q e.1 x := by
  unfold groupedRanges
  have key : ∀ (ps : ServerDataPartsVector) (m : List ((Nat × Nat) × ServerDataPartsVector)),
      (∀ p ∈ ps, Q p.commitKey p) → (∀ e ∈ m, ∀ x ∈ e.2, Q e.1 x) →
      ∀ e ∈ ps.foldl (fun grouped p => insertIntoGroup p.commitKey p grouped) m,
        ∀ x ∈ e.2, Q e.1 x := by
    intro ps
    induction ps with
    | nil => intro m _ hm; simpa using hm
    | cons p rest ih =>
      intro m hps hm
      simp only [List.foldl_cons]
      exact ih _ (fun q hqr => hps q (List.mem_cons_of_mem _ hqr))
        (insertIntoGroup_forall Q _ p (hps p (List.mem_cons_self _ _)) m hm)
  exact key parts [] hq (by simp)

/-- Every bucket holds input parts only. -/
theorem makeBuckets_subset (data : MergeTreeMetaBase) (data_parts : ServerDataPartsVector) :
    ∀ e ∈ makeBuckets data data_parts, ∀ x ∈ e.2, x ∈ data_parts := by
  unfold makeBuckets
  split_ifs
  · exact groupPartsByBucketNumber_forall data (fun _ x => x ∈ data_parts) data_parts
      (fun p hp => hp) [] (by simp)
  · intro e he x hx
    simp only [List.mem_singleton] at he
    subst he
    exact hx

/-- Every frame of a bucket holds parts of that bucket only. -/
theorem framesOfBucket_subset (ext : Externals) (nonadjacent : Bool)
    (bucket : ServerDataPartsVector) :
    ∀ frame ∈ framesOfBucket ext nonadjacent bucket, ∀ x ∈ frame, x ∈ bucket := by
  intro frame hf x hx
  unfold framesOfBucket at hf
  split_ifs at hf
  · simp only [groupPartsByColumnsMutationsCommitTime, List.nil_append, List.mem_map] at hf
    obtain ⟨e, he, rfl⟩ := hf
    exact groupedRanges_forall (fun _ x => x ∈ bucket) bucket (fun p hp => hp) e
      ((ext.groupIteration.order_perm _).mem_iff.1 he) x hx
  · simp only [List.mem_singleton] at hf
    subst hf
    exact hx

/-- With nonadjacent mode enabled all parts of a frame have one commit-time key. -/
theorem framesOfBucket_commitKey (ext : Externals) (bucket : ServerDataPartsVector) :
    ∀ frame ∈ framesOfBucket ext true bucket, ∀ x ∈ frame, ∀ y ∈ frame,
      x.commitKey = y.commitKey := by
  intro frame hf x hx y hy
  simp only [framesOfBucket, if_true, groupPartsByColumnsMutationsCommitTime, List.nil_append,
    List.mem_map] at hf
  obtain ⟨e, he, rfl⟩ := hf
  have h := groupedRanges_forall (fun k x => x.commitKey = k) bucket (fun p _ => rfl) e
    ((ext.groupIteration.order_perm _).mem_iff.1 he)
  rw [h x hx, h y hy]

theorem mem_allFrames {ext : Externals} {data : MergeTreeMetaBase}
    {data_parts : ServerDataPartsVector} {frame : ServerDataPartsVector}
    (h : frame ∈ allFrames ext data data_parts) :
    ∃ e ∈ makeBuckets data data_parts,
      frame ∈ framesOfBucket ext data.settings.cnch_merge_select_nonadjacent_parts e.2 := by
  simp only [allFrames, List.mem_flatten, List.mem_map] at h
  obtain ⟨l, ⟨e, he, rfl⟩, hl⟩ := h
  exact ⟨e, (ext.bucketIteration.order_perm _).mem_iff.1 he, hl⟩

/-- Every scanned frame holds input parts only. -/
theorem allFrames_subset (ext : Externals) (data : MergeTreeMetaBase)
    (data_parts : ServerDataPartsVector) :
    ∀ frame ∈ allFrames ext data data_parts, ∀ x ∈ frame, x ∈ data_parts := by
  intro frame hf x hx
  obtain ⟨e, he, hfe⟩ := mem_allFrames hf
  exact makeBuckets_subset data data_parts e he x (framesOfBucket_subset ext _ e.2 frame hfe x hx)

/-- With nonadjacent mode enabled every scanned frame has one commit-time key. -/
theorem allFrames_commitKey (ext : Externals) (data : MergeTreeMetaBase)
    (data_parts : ServerDataPartsVector)
    (hna : data.settings.cnch_merge_select_nonadjacent_parts = true) :
    ∀ frame ∈ allFrames ext data data_parts, ∀ x ∈ frame, ∀ y ∈ frame,
      x.commitKey = y.commitKey := by
  intro frame hf
  obtain ⟨e, _, hfe⟩ := mem_allFrames hf
  rw [hna] at hfe
  exact framesOfBucket_commitKey ext e.2 frame hfe

/-! ### Invariants of the range builder -/

theorem snoc_inj {α : Type} {init init2 : List α} {b b2 : α}
    (h : init ++ [b] = init2 ++ [b2]) : init = init2 ∧ b = b2 := by
  obtain ⟨h1, h2⟩ := List.append_inj' h (by simp)
  exact ⟨h1, by simpa using h2⟩

@[simp] theorem makePartInfo_data (ext : Externals) (part : ServerDataPart) :
    (makePartInfo ext part).data = part := rfl

/-- The range builder never fails. -/
theorem buildPartsRanges_total (ext : Externals) (data : MergeTreeMetaBase)
    (data_parts : ServerDataPartsVector) (cm : ServerCanMergeCallback) :
    ∃ built, buildPartsRanges ext data data_parts cm = .ok built := by
  obtain ⟨built, hb, _⟩ := buildPartsRanges_induction ext data data_parts cm
    (fun _ => True) (fun _ _ => True) trivial (fun _ _ _ _ => trivial)
    (fun _ _ _ _ _ _ _ _ _ _ _ _ => trivial) (fun _ _ _ _ => trivial)
  exact ⟨built, hb⟩

/-- When every part fails the solo check nothing is accepted. -/
theorem buildPartsRanges_none_accepted (ext : Externals) (data : MergeTreeMetaBase)
    (data_parts : ServerDataPartsVector) (cm : ServerCanMergeCallback)
    (hsolo : ∀ p ∈ data_parts, cm none p = false) :
    ∃ built, buildPartsRanges ext data data_parts cm = .ok built ∧
      built.2 = 0 ∧ ∀ r ∈ built.1, r = [] := by
  refine buildPartsRanges_induction ext data data_parts cm
    (fun acc => acc.2 = 0 ∧ ∀ r ∈ acc.1, r = [])
    (fun _ st => st.parts_selected_precondition = 0 ∧ st.prev_part = none ∧
      ∀ r ∈ st.parts_ranges, r = [])
    ⟨rfl, by simp⟩ (fun _ _ acc h => ⟨h.1, rfl, h.2⟩) ?_ (fun _ _ st h => ⟨h.1, h.2.2⟩)
  intro frame hf part hp st st1 st2 _ hI hopen _ hout
  have hc : cm none part = false :=
    hsolo part (allFrames_subset ext data data_parts frame hf part hp)
  have h1 : st1.parts_selected_precondition = 0 ∧ st1.prev_part = none ∧
      ∀ r ∈ st1.parts_ranges, r = [] := by
    cases hopen with
    | kept _ _ => exact hI
    | fresh _ =>
      refine ⟨hI.1, rfl, ?_⟩
      intro r hr
      rcases List.mem_append.1 hr with hr | hr
      · exact hI.2.2 r hr
      · simpa using hr
    | reused init h =>
      refine ⟨hI.1, rfl, ?_⟩
      intro r hr
      exact hI.2.2 r (h ▸ hr)
  cases hout with
  | skipped _ _ => exact ⟨h1.1, rfl, h1.2.2⟩
  | started init b _ hn _ => rw [hc] at hn; exact absurd hn (by simp)
  | extended init b prev _ hprev _ => rw [h1.2.1] at hprev; exact absurd hprev (by simp)

theorem mergeableChain_nil (cm : ServerCanMergeCallback) : MergeableChain cm [] :=
  ⟨by simp, List.chain'_nil⟩

theorem mergeableChain_single {cm : ServerCanMergeCallback} {p : ServerDataPart}
    (h : cm none p = true) : MergeableChain cm [p] :=
  ⟨by simpa using h, List.chain'_singleton p⟩

theorem mergeableChain_snoc {cm : ServerCanMergeCallback} {l : ServerDataPartsVector}
    {prev part : ServerDataPart} (h : MergeableChain cm (l ++ [prev]))
    (hc : cm (some prev) part = true) : MergeableChain cm (l ++ [prev] ++ [part]) := by
  refine ⟨?_, ?_⟩
  · intro p0 hp0
    apply h.1 p0
    cases l <;> simpa using hp0
  · refine List.Chain'.append h.2 (List.chain'_singleton part) ?_
    intro x hx y hy
    rw [List.getLast?_concat] at hx
    simp only [Option.mem_def, Option.some.injEq] at hx
    simp only [List.head?_cons, Option.mem_def, Option.some.injEq] at hy
    subst hx hy
    exact hc

/-- Every candidate range is a mergeable chain. -/
theorem buildPartsRanges_mergeable (ext : Externals) (data : MergeTreeMetaBase)
    (data_parts : ServerDataPartsVector) (cm : ServerCanMergeCallback) :
    ∃ built, buildPartsRanges ext data data_parts cm = .ok built ∧
      ∀ r ∈ built.1, MergeableChain cm (r.map fun x => x.data) := by
  refine buildPartsRanges_induction ext data data_parts cm
    (fun acc => ∀ r ∈ acc.1, MergeableChain cm (r.map fun x => x.data))
    (fun _ st => ∀ r ∈ st.parts_ranges, MergeableChain cm (r.map fun x => x.data))
    (by simp) (fun _ _ _ h => h) ?_ (fun _ _ _ h => h)
  intro frame _ part _ st st1 st2 _ hI hopen _ hout
  have h1 : ∀ r ∈ st1.parts_ranges, MergeableChain cm (r.map fun x => x.data) := by
    cases hopen with
    | kept _ _ => exact hI
    | fresh _ =>
      intro r hr
      rcases List.mem_append.1 hr with hr | hr
      · exact hI r hr
      · simp only [List.mem_singleton] at hr
        subst hr
        exact mergeableChain_nil cm
    | reused init h => intro r hr; exact hI r (h ▸ hr)
  cases hout with
  | skipped _ _ => exact h1
  | started init b hrs hn _ =>
    intro r hr
    simp only [List.mem_append, List.mem_singleton] at hr
    rcases hr with hr | rfl
    · apply h1 r
      rw [hrs]
      split_ifs at hr
      · exact List.mem_append_left _ hr
      · simpa using hr
    · exact mergeableChain_single hn
  | extended init b prev hrs _ hc =>
    intro r hr
    simp only [List.mem_append, List.mem_singleton] at hr
    rcases hr with hr | rfl
    · exact h1 r (by rw [hrs]; exact List.mem_append_left _ hr)
    · have hb := h1 (b ++ [makePartInfo ext prev]) (by rw [hrs]; simp)
      simp only [List.map_append, List.map_cons, List.map_nil, makePartInfo_data] at hb ⊢
      exact mergeableChain_snoc hb hc

/-- All parts of a candidate range have one partition id. -/
theorem buildPartsRanges_partition (ext : Externals) (data : MergeTreeMetaBase)
    (data_parts : ServerDataPartsVector) (cm : ServerCanMergeCallback) :
    ∃ built, buildPartsRanges ext data data_parts cm = .ok built ∧
      ∀ r ∈ built.1, ∀ x ∈ r, ∀ y ∈ r, x.data.partition_id = y.data.partition_id := by
  refine buildPartsRanges_induction ext data data_parts cm
    (fun acc => ∀ r ∈ acc.1, ∀ x ∈ r, ∀ y ∈ r, x.data.partition_id = y.data.partition_id)
    (fun _ st =>
      (∀ r ∈ st.parts_ranges, ∀ x ∈ r, ∀ y ∈ r, x.data.partition_id = y.data.partition_id) ∧
      ∀ init b pid, st.parts_ranges = init ++ [b] → st.prev_partition_id = some pid →
        ∀ x ∈ b, x.data.partition_id = pid)
    (by simp) (fun _ _ _ h => ⟨h, by simp⟩) ?_ (fun _ _ _ h => h.1)
  intro frame _ part _ st st1 st2 _ hI hopen _ hout
  have hpid := hopen.opened_partition_id
  have h1 : (∀ r ∈ st1.parts_ranges, ∀ x ∈ r, ∀ y ∈ r,
        x.data.partition_id = y.data.partition_id) ∧
      ∀ init b, st1.parts_ranges = init ++ [b] → ∀ x ∈ b,
        x.data.partition_id = part.partition_id := by
    cases hopen with
    | kept hk _ => exact ⟨hI.1, fun init b hb => hI.2 init b _ hb hk⟩
    | fresh _ =>
      refine ⟨?_, ?_⟩
      · intro r hr
        rcases List.mem_append.1 hr with hr | hr
        · exact hI.1 r hr
        · simp only [List.mem_singleton] at hr
          subst hr
          simp
      · intro init b hb
        obtain ⟨_, rfl⟩ := snoc_inj hb
        simp
    | reused init h =>
      refine ⟨fun r hr => hI.1 r (h ▸ hr), ?_⟩
      intro init2 b hb
      obtain ⟨_, rfl⟩ := snoc_inj hb
      simp
  cases hout with
  | skipped _ _ => exact ⟨h1.1, fun init b pid hb hp => by
      rw [hpid] at hp
      simp only [Option.some.injEq] at hp
      subst hp
      exact h1.2 init b hb⟩
  | started init b hrs _ _ =>
    refine ⟨?_, ?_⟩
    · intro r hr
      simp only [List.mem_append, List.mem_singleton] at hr
      rcases hr with hr | rfl
      · apply h1.1 r
        rw [hrs]
        split_ifs at hr
        · exact List.mem_append_left _ hr
        · simpa using hr
      · simp
    · intro init2 b2 pid hb hp
      obtain ⟨_, rfl⟩ := snoc_inj hb
      rw [hpid] at hp
      simp only [Option.some.injEq] at hp
      subst hp
      simp
  | extended init b prev hrs _ _ =>
    have hback := h1.2 init _ hrs
    have hnew : ∀ x ∈ b ++ [makePartInfo ext prev] ++ [makePartInfo ext part],
        x.data.partition_id = part.partition_id := by
      intro x hx
      rcases List.mem_append.1 hx with hx | hx
      · exact hback x hx
      · simp only [List.mem_singleton] at hx
        subst hx
        rfl
    refine ⟨?_, ?_⟩
    · intro r hr
      simp only [List.mem_append, List.mem_singleton] at hr
      rcases hr with hr | rfl
      · exact h1.1 r (by rw [hrs]; exact List.mem_append_left _ hr)
      · intro x hx y hy
        rw [hnew x hx, hnew y hy]
    · intro init2 b2 pid hb hp
      obtain ⟨_, rfl⟩ := snoc_inj hb
      rw [hpid] at hp
      simp only [Option.some.injEq] at hp
      subst hp
      exact hnew

/-- Every candidate range draws its parts from one scanned frame. -/
theorem buildPartsRanges_frame (ext : Externals) (data : MergeTreeMetaBase)
    (data_parts : ServerDataPartsVector) (cm : ServerCanMergeCallback) :
    ∃ built, buildPartsRanges ext data data_parts cm = .ok built ∧
      ∀ r ∈ built.1, ∃ f ∈ allFrames ext data data_parts, ∀ x ∈ r, x.data ∈ f := by
  refine buildPartsRanges_induction ext data data_parts cm
    (fun acc => ∀ r ∈ acc.1, ∃ f ∈ allFrames ext data data_parts, ∀ x ∈ r, x.data ∈ f)
    (fun frame st =>
      (∀ r ∈ st.parts_ranges, ∃ f ∈ allFrames ext data data_parts, ∀ x ∈ r, x.data ∈ f) ∧
      (st.prev_partition_id ≠ none → ∀ init b, st.parts_ranges = init ++ [b] →
        ∀ x ∈ b, x.data ∈ frame))
    (by simp) (fun _ _ _ h => ⟨h, by simp⟩) ?_ (fun _ _ _ h => h.1)
  intro frame hf part hp st st1 st2 _ hI hopen _ hout
  have h1 : (∀ r ∈ st1.parts_ranges, ∃ f ∈ allFrames ext data data_parts,
        ∀ x ∈ r, x.data ∈ f) ∧
      ∀ init b, st1.parts_ranges = init ++ [b] → ∀ x ∈ b, x.data ∈ frame := by
    cases hopen with
    | kept hk _ => exact ⟨hI.1, hI.2 (by simp [hk])⟩
    | fresh _ =>
      refine ⟨?_, ?_⟩
      · intro r hr
        rcases List.mem_append.1 hr with hr | hr
        · exact hI.1 r hr
        · simp only [List.mem_singleton] at hr
          subst hr
          exact ⟨frame, hf, by simp⟩
      · intro init b hb
        obtain ⟨_, rfl⟩ := snoc_inj hb
        simp
    | reused init h =>
      refine ⟨fun r hr => hI.1 r (h ▸ hr), ?_⟩
      intro init2 b hb
      obtain ⟨_, rfl⟩ := snoc_inj hb
      simp
  cases hout with
  | skipped _ _ => exact ⟨h1.1, fun _ => h1.2⟩
  | started init b hrs _ _ =>
    refine ⟨?_, ?_⟩
    · intro r hr
      simp only [List.mem_append, List.mem_singleton] at hr
      rcases hr with hr | rfl
      · apply h1.1 r
        rw [hrs]
        split_ifs at hr
        · exact List.mem_append_left _ hr
        · simpa using hr
      · exact ⟨frame, hf, by simpa using hp⟩
    · intro _ init2 b2 hb
      obtain ⟨_, rfl⟩ := snoc_inj hb
      simpa using hp
  | extended init b prev hrs _ _ =>
    have hback := h1.2 init _ hrs
    have hnew : ∀ x ∈ b ++ [makePartInfo ext prev] ++ [makePartInfo ext part],
        x.data ∈ frame := by
      intro x hx
      rcases List.mem_append.1 hx with hx | hx
      · exact hback x hx
      · simp only [List.mem_singleton] at hx
        subst hx
        exact hp
    refine ⟨?_, ?_⟩
    · intro r hr
      simp only [List.mem_append, List.mem_singleton] at hr
      rcases hr with hr | rfl
      · exact h1.1 r (by rw [hrs]; exact List.mem_append_left _ hr)
      · exact ⟨frame, hf, hnew⟩
    · intro _ init2 b2 hb
      obtain ⟨_, rfl⟩ := snoc_inj hb
      exact hnew

/-- With nonadjacent mode enabled all parts of a candidate range have one
commit-time key. -/
theorem buildPartsRanges_commitKey (ext : Externals) (data : MergeTreeMetaBase)
    (data_parts : ServerDataPartsVector) (cm : ServerCanMergeCallback)
    (hna : data.settings.cnch_merge_select_nonadjacent_parts = true) :
    ∃ built, buildPartsRanges ext data data_parts cm = .ok built ∧
      ∀ r ∈ built.1, ∀ x ∈ r, ∀ y ∈ r, x.data.commitKey = y.data.commitKey := by
  obtain ⟨built, hb, h⟩ := buildPartsRanges_frame ext data data_parts cm
  refine ⟨built, hb, ?_⟩
  intro r hr x hx y hy
  obtain ⟨f, hf, hsub⟩ := h r hr
  exact allFrames_commitKey ext data data_parts hna f hf _ (hsub x hx) _ (hsub y hy)

/-- In strict mode a candidate range holds at most `max_parts_to_break` parts,
or one part when that limit is zero. -/
theorem buildPartsRanges_length (ext : Externals) (data : MergeTreeMetaBase)
    (data_parts : ServerDataPartsVector) (cm : ServerCanMergeCallback)
    (hstrict : data.settings.cnch_merge_select_nonadjacent_parts = false) :
    ∃ built, buildPartsRanges ext data data_parts cm = .ok built ∧
      ∀ r ∈ built.1, r.length ≤ max (maxPartsToBreak data) 1 := by
  refine buildPartsRanges_induction ext data data_parts cm
    (fun acc => ∀ r ∈ acc.1, r.length ≤ max (maxPartsToBreak data) 1)
    (fun _ st => ∀ r ∈ st.parts_ranges, r.length ≤ max (maxPartsToBreak data) 1)
    (by simp) (fun _ _ _ h => h) ?_ (fun _ _ _ h => h)
  intro frame _ part _ st st1 st2 _ hI hopen _ hout
  rw [hstrict] at hopen
  have h1 : (∀ r ∈ st1.parts_ranges, r.length ≤ max (maxPartsToBreak data) 1) ∧
      ∀ init b, st1.parts_ranges = init ++ [b] →
        b.length < max (maxPartsToBreak data) 1 := by
    cases hopen with
    | kept _ hs =>
      refine ⟨hI, ?_⟩
      intro init b hb
      simp only [needSplit, hb, List.getLast?_concat, Bool.not_false, Bool.true_and,
        decide_eq_false_iff_not, not_le, ge_iff_le] at hs
      exact lt_of_lt_of_le hs (le_max_left _ _)
    | fresh _ =>
      refine ⟨?_, ?_⟩
      · intro r hr
        rcases List.mem_append.1 hr with hr | hr
        · exact hI r hr
        · simp only [List.mem_singleton] at hr
          subst hr
          simp
      · intro init b hb
        obtain ⟨_, rfl⟩ := snoc_inj hb
        simp
    | reused init h =>
      refine ⟨fun r hr => hI r (h ▸ hr), ?_⟩
      intro init2 b hb
      obtain ⟨_, rfl⟩ := snoc_inj hb
      simp
  cases hout with
  | skipped _ _ => exact h1.1
  | started init b hrs _ _ =>
    intro r hr
    simp only [List.mem_append, List.mem_singleton] at hr
    rcases hr with hr | rfl
    · apply h1.1 r
      rw [hrs]
      split_ifs at hr
      · exact List.mem_append_left _ hr
      · simpa using hr
    · simp
  | extended init b prev hrs _ _ =>
    intro r hr
    simp only [List.mem_append, List.mem_singleton] at hr
    rcases hr with hr | rfl
    · exact h1.1 r (by rw [hrs]; exact List.mem_append_left _ hr)
    · have := h1.2 init _ hrs
      rw [List.length_append, List.length_singleton]
      omega

/-- Every candidate range other than the last one is non-empty. -/
theorem buildPartsRanges_nonempty (ext : Externals) (data : MergeTreeMetaBase)
    (data_parts : ServerDataPartsVector) (cm : ServerCanMergeCallback) :
    ∃ built, buildPartsRanges ext data data_parts cm = .ok built ∧
      ∀ init b, built.1 = init ++ [b] → ∀ r ∈ init, r ≠ [] := by
  refine buildPartsRanges_induction ext data data_parts cm
    (fun acc => ∀ init b, acc.1 = init ++ [b] → ∀ r ∈ init, r ≠ [])
    (fun _ st => ∀ init b, st.parts_ranges = init ++ [b] → ∀ r ∈ init, r ≠ [])
    (by simp) (fun _ _ _ h => h) ?_ (fun _ _ _ h => h)
  intro frame _ part _ st st1 st2 _ hI hopen _ hout
  have h1 : ∀ init b, st1.parts_ranges = init ++ [b] → ∀ r ∈ init, r ≠ [] := by
    cases hopen with
    | kept _ _ => exact hI
    | fresh hfr =>
      intro init b hb r hr
      obtain ⟨rfl, _⟩ := snoc_inj hb
      rcases List.eq_nil_or_concat st.parts_ranges with hnil | ⟨i0, b0, h0⟩
      · rw [hnil] at hr
        simp at hr
      · rw [List.concat_eq_append] at h0
        rw [h0] at hr
        rcases List.mem_append.1 hr with hr | hr
        · exact hI i0 b0 h0 r hr
        · simp only [List.mem_singleton] at hr
          subst hr
          intro hre
          exact hfr i0 (by rw [h0, hre])
    | reused init h => intro i2 b2 hb; exact hI i2 b2 (h.trans hb)
  cases hout with
  | skipped _ _ => exact h1
  | started init b hrs _ _ =>
    intro i2 b2 hb r hr
    obtain ⟨rfl, _⟩ := snoc_inj hb
    split_ifs at hr with hbe
    · exact h1 init b hrs r hr
    · rcases List.mem_append.1 hr with hr | hr
      · exact h1 init b hrs r hr
      · simp only [List.mem_singleton] at hr
        subst hr
        exact hbe
  | extended init b prev hrs _ _ =>
    intro i2 b2 hb r hr
    obtain ⟨rfl, _⟩ := snoc_inj hb
    exact h1 init _ hrs r hr

/-! ### Post-processing -/

theorem postProcess_eq (ext : Externals) (data : MergeTreeMetaBase) (ranges : PartsRanges) :
    ∀ res : List ServerDataPartsVector, postProcess ext data res ranges =
      res ++ (ranges.filter fun r => !isRejectedSingleton r).map (materialize ext data) := by
  unfold postProcess
  induction ranges with
  | nil => intro res; simp
  | cons r rest ih =>
    intro res
    simp only [List.foldl_cons, List.filter_cons]
    rw [ih]
    cases isRejectedSingleton r <;> simp

theorem materialize_length (ext : Externals) (data : MergeTreeMetaBase) (range : PartsRange) :
    (materialize ext data range).length = range.length := by
  unfold materialize sortParts
  split_ifs <;> simp [List.length_insertionSort]

theorem mem_materialize (ext : Externals) (data : MergeTreeMetaBase) (range : PartsRange)
    (p : ServerDataPart) : p ∈ materialize ext data range ↔ ∃ x ∈ range, x.data = p := by
  unfold materialize sortParts
  split_ifs <;> simp [List.mem_insertionSort]

/-- The decision and the output list in terms of the candidate ranges. -/
theorem selectPartsToMerge_eq (ext : Externals) (data : MergeTreeMetaBase)
    (res : List ServerDataPartsVector) (data_parts : ServerDataPartsVector)
    (unselectable_part_rows : List (String × (Nat × Nat)))
    (cm : ServerCanMergeCallback) (settings : SelectPartsToMergeSettings)
    (built : PartsRanges × Nat)
    (hb : buildPartsRanges ext data data_parts cm = .ok built) :
    selectPartsToMerge ext data res data_parts unselectable_part_rows cm settings =
      .ok (if data_parts = [] then (.NOTHING_TO_MERGE, res)
        else if built.2 = 0 then (.CANNOT_SELECT, res)
        else if selectedRanges ext data unselectable_part_rows settings built.1 = [] then
          (.CANNOT_SELECT, res)
        else (.SELECTED, postProcess ext data res
          (selectedRanges ext data unselectable_part_rows settings built.1))) := by
  unfold selectPartsToMerge
  by_cases h1 : data_parts = []
  · simp [h1, pure, Except.pure]
  · have h1b : data_parts.isEmpty = false := by cases data_parts <;> simp_all
    simp only [h1b, h1, if_false, hb, bind, Except.bind, Bool.false_eq_true]
    by_cases h2 : built.2 = 0
    · simp [h2, pure, Except.pure]
    · simp only [h2, if_false]
      by_cases h3 : selectedRanges ext data unselectable_part_rows settings built.1 = []
      · simp [h3, pure, Except.pure]
      · have h3b : (selectedRanges ext data unselectable_part_rows settings built.1).isEmpty
            = false := by
          cases h : selectedRanges ext data unselectable_part_rows settings built.1 <;> simp_all
        simp [h3, h3b, pure, Except.pure]

/-- The planner never fails; it appends to `res`, and every appended vector is
the materialisation of a selector range that is not a rejected singleton. -/
theorem selectPartsToMerge_appended (ext : Externals) (data : MergeTreeMetaBase)
    (res : List ServerDataPartsVector) (data_parts : ServerDataPartsVector)
    (unselectable_part_rows : List (String × (Nat × Nat)))
    (cm : ServerCanMergeCallback) (settings : SelectPartsToMergeSettings)
    (built : PartsRanges × Nat)
    (hb : buildPartsRanges ext data data_parts cm = .ok built) :
    ∃ d appended,
      selectPartsToMerge ext data res data_parts unselectable_part_rows cm settings =
        .ok (d, res ++ appended) ∧
      ∀ r ∈ appended, ∃ s ∈ selectedRanges ext data unselectable_part_rows settings built.1,
        isRejectedSingleton s = false ∧ r = materialize ext data s := by
  rw [selectPartsToMerge_eq ext data res data_parts unselectable_part_rows cm settings built hb]
  split_ifs
  · exact ⟨.NOTHING_TO_MERGE, [], by simp, by simp⟩
  · exact ⟨.CANNOT_SELECT, [], by simp, by simp⟩
  · exact ⟨.CANNOT_SELECT, [], by simp, by simp⟩
  · refine ⟨_, _, by rw [postProcess_eq], ?_⟩
    intro r hr
    simp only [List.mem_map, List.mem_filter, Bool.not_eq_true'] at hr
    obtain ⟨s, ⟨hs, hrej⟩, rfl⟩ := hr
    exact ⟨s, hs, hrej, rfl⟩

/-! ## The planning contract -/

/-- Claim C1: for every table, settings and eligibility callback, a call with
an empty part list returns `NOTHING_TO_MERGE` and leaves `res` as it was. -/
theorem selectPartsToMerge_empty_input (ext : Externals) (data : MergeTreeMetaBase)
    (res : List ServerDataPartsVector)
    (unselectable_part_rows : List (String × (Nat × Nat)))
    (can_merge_callback : ServerCanMergeCallback) (settings : SelectPartsToMergeSettings) :
    selectPartsToMerge ext data res [] unselectable_part_rows can_merge_callback settings =
      .ok (.NOTHING_TO_MERGE, res) := by
  simp [selectPartsToMerge, pure, Except.pure]

/-- Claim C2: for a non-empty part list, in every mode, if the solo check
`canMerge(null, p)` fails for every input part then the range builder accepts
no part (every candidate range is empty and the counter is 0) and the planner
returns `CANNOT_SELECT` with `res` unchanged, whatever the selector is. -/
theorem selectPartsToMerge_all_solo_rejected (ext : Externals) (data : MergeTreeMetaBase)
    (res : List ServerDataPartsVector) (data_parts : ServerDataPartsVector)
    (unselectable_part_rows : List (String × (Nat × Nat)))
    (can_merge_callback : ServerCanMergeCallback) (settings : SelectPartsToMergeSettings)
    (hne : data_parts ≠ [])
    (hsolo : ∀ p ∈ data_parts, can_merge_callback none p = false) :
    (∃ ranges, buildPartsRanges ext data data_parts can_merge_callback = .ok (ranges, 0) ∧
      ∀ r ∈ ranges, r = []) ∧
    selectPartsToMerge ext data res data_parts unselectable_part_rows can_merge_callback
      settings = .ok (.CANNOT_SELECT, res) := by
  obtain ⟨⟨ranges, n⟩, hb, hn, hr⟩ :=
    buildPartsRanges_none_accepted ext data data_parts can_merge_callback hsolo
  simp only at hn hr
  subst hn
  refine ⟨⟨ranges, hb, hr⟩, ?_⟩
  rw [selectPartsToMerge_eq ext data res data_parts unselectable_part_rows
    can_merge_callback settings _ hb]
  simp [hne]

/-- Witness for C2: two parts of different partitions and a callback that
rejects everything, on a strict non-bucketed table. -/
theorem selectPartsToMerge_all_solo_rejected_witness :
    [Example.p0a, Example.p1a] ≠ [] ∧
    (∀ p ∈ [Example.p0a, Example.p1a], Example.rejectAll none p = false) ∧
    (∃ ranges, buildPartsRanges Example.ext (Example.table false 10 false 0)
        [Example.p0a, Example.p1a] Example.rejectAll = .ok (ranges, 0) ∧
      ∀ r ∈ ranges, r = []) ∧
    selectPartsToMerge Example.ext (Example.table false 10 false 0) [] [Example.p0a, Example.p1a]
      [] Example.rejectAll Example.settings = .ok (.CANNOT_SELECT, []) :=
  ⟨by simp, fun _ _ => rfl,
    selectPartsToMerge_all_solo_rejected Example.ext (Example.table false 10 false 0) []
      [Example.p0a, Example.p1a] [] Example.rejectAll Example.settings (by simp)
      (fun _ _ => rfl)⟩

/-- Claim C3: the planner always returns, appending to `res`; an appended
range of length 1 is the materialisation of a singleton range `[sp]` returned
by the selector whose record `sp` has `chain_depth > 0`. -/
theorem selectPartsToMerge_no_plain_singleton (ext : Externals) (data : MergeTreeMetaBase)
    (res : List ServerDataPartsVector) (data_parts : ServerDataPartsVector)
    (unselectable_part_rows : List (String × (Nat × Nat)))
    (can_merge_callback : ServerCanMergeCallback) (settings : SelectPartsToMergeSettings) :
    ∃ built d appended,
      buildPartsRanges ext data data_parts can_merge_callback = .ok built ∧
      selectPartsToMerge ext data res data_parts unselectable_part_rows can_merge_callback
        settings = .ok (d, res ++ appended) ∧
      ∀ r ∈ appended, r.length = 1 →
        ∃ sp, [sp] ∈ selectedRanges ext data unselectable_part_rows settings built.1 ∧
          0 < sp.chain_depth ∧ r = [sp.data] := by
  obtain ⟨built, hb⟩ := buildPartsRanges_total ext data data_parts can_merge_callback
  obtain ⟨d, appended, hsel, happ⟩ := selectPartsToMerge_appended ext data res data_parts
    unselectable_part_rows can_merge_callback settings built hb
  refine ⟨built, d, appended, hb, hsel, ?_⟩
  intro r hr hlen
  obtain ⟨s, hs, hrej, rfl⟩ := happ r hr
  rw [materialize_length] at hlen
  obtain ⟨sp, rfl⟩ := List.length_eq_one.1 hlen
  refine ⟨sp, hs, ?_, ?_⟩
  · simp only [isRejectedSingleton, decide_eq_false_iff_not] at hrej
    exact Nat.pos_of_ne_zero hrej
  · unfold materialize sortParts
    split_ifs <;> simp

/-- Claim C4, evaluated on the code: two parts of different partitions, both
eligible; the selector returns the two candidate ranges, which are singletons
with `chain_depth = 0`; both are discarded, yet the decision is `SELECTED`
and `res` stays empty. -/
theorem selectPartsToMerge_selected_with_empty_result :
    (∀ s ∈ selectedRanges Example.ext (Example.table false 10 false 0) [] Example.settings
        [[makePartInfo Example.ext Example.p0a], [makePartInfo Example.ext Example.p1a]],
      ∃ sp, s = [sp] ∧ sp.chain_depth = 0) ∧
    buildPartsRanges Example.ext (Example.table false 10 false 0) [Example.p0a, Example.p1a]
      Example.acceptAll =
      .ok ([[makePartInfo Example.ext Example.p0a], [makePartInfo Example.ext Example.p1a]], 2) ∧
    selectPartsToMerge Example.ext (Example.table false 10 false 0) []
      [Example.p0a, Example.p1a] [] Example.acceptAll Example.settings =
      .ok (.SELECTED, []) := by
  refine ⟨?_, by decide, by decide⟩
  intro s hs
  simp only [selectedRanges, Example.ext, Example.wholeRanges, List.mem_cons,
    List.mem_singleton, List.not_mem_nil, or_false] at hs
  rcases hs with rfl | rfl
  · exact ⟨_, rfl, rfl⟩
  · exact ⟨_, rfl, rfl⟩

/-- Claim C5: the range builder always returns, and in every candidate range
the first part passes `canMerge(null, ·)` and every two consecutive parts
`(a, b)` pass `canMerge(a, b)`. -/
theorem candidate_ranges_mergeable (ext : Externals) (data : MergeTreeMetaBase)
    (data_parts : ServerDataPartsVector) (can_merge_callback : ServerCanMergeCallback) :
    ∃ built, buildPartsRanges ext data data_parts can_merge_callback = .ok built ∧
      ∀ r ∈ built.1,
        (∀ p0, (r.map fun x => x.data).head? = some p0 → can_merge_callback none p0 = true) ∧
        List.Chain' (fun a b => can_merge_callback (some a) b = true)
          (r.map fun x => x.data) :=
  buildPartsRanges_mergeable ext data data_parts can_merge_callback

/-- Claim C6: for a non-empty part list on a non-bucketed table in strict mode
the range builder returns, all parts of each candidate range have one
partition id, and, if each range the selector returns is a contiguous slice
of one candidate range, all parts of every range appended to `res` have one
partition id. -/
theorem ranges_share_partition_id (ext : Externals) (data : MergeTreeMetaBase)
    (res : List ServerDataPartsVector) (data_parts : ServerDataPartsVector)
    (unselectable_part_rows : List (String × (Nat × Nat)))
    (can_merge_callback : ServerCanMergeCallback) (settings : SelectPartsToMergeSettings)
    (_hne : data_parts ≠ [])
    (_hbucket : data.isBucketTable = false)
    (_hstrict : data.settings.cnch_merge_select_nonadjacent_parts = false)
    (hslice : ∀ built, buildPartsRanges ext data data_parts can_merge_callback = .ok built →
      ∀ s ∈ selectedRanges ext data unselectable_part_rows settings built.1,
        ∃ c ∈ built.1, s <:+: c) :
    ∃ built d appended,
      buildPartsRanges ext data data_parts can_merge_callback = .ok built ∧
      (∀ r ∈ built.1, ∀ x ∈ r, ∀ y ∈ r, x.data.partition_id = y.data.partition_id) ∧
      selectPartsToMerge ext data res data_parts unselectable_part_rows can_merge_callback
        settings = .ok (d, res ++ appended) ∧
      ∀ r ∈ appended, ∀ p ∈ r, ∀ q ∈ r, p.partition_id = q.partition_id := by
  obtain ⟨built, hb, hpid⟩ := buildPartsRanges_partition ext data data_parts can_merge_callback
  obtain ⟨d, appended, hsel, happ⟩ := selectPartsToMerge_appended ext data res data_parts
    unselectable_part_rows can_merge_callback settings built hb
  refine ⟨built, d, appended, hb, hpid, hsel, ?_⟩
  intro r hr p hp q hq
  obtain ⟨s, hs, _, rfl⟩ := happ r hr
  obtain ⟨c, hc, hsc⟩ := hslice built hb s hs
  obtain ⟨x, hx, rfl⟩ := (mem_materialize ext data s p).1 hp
  obtain ⟨y, hy, rfl⟩ := (mem_materialize ext data s q).1 hq
  exact hpid c hc x (hsc.subset hx) y (hsc.subset hy)

/-- Witness for C6: three parts of partition `P0` followed by one part of
partition `P1`, all eligible, with the selector that returns every candidate
range whole. -/
theorem ranges_share_partition_id_witness :
    [Example.p0a, Example.p0b, Example.p0c, Example.p1a] ≠ [] ∧
    (Example.table false 10 false 0).isBucketTable = false ∧
    (Example.table false 10 false 0).settings.cnch_merge_select_nonadjacent_parts = false ∧
    (∀ built, buildPartsRanges Example.ext (Example.table false 10 false 0)
        [Example.p0a, Example.p0b, Example.p0c, Example.p1a] Example.acceptAll = .ok built →
      ∀ s ∈ selectedRanges Example.ext (Example.table false 10 false 0) [] Example.settings
          built.1,
        ∃ c ∈ built.1, s <:+: c) ∧
    ∃ built d appended,
      buildPartsRanges Example.ext (Example.table false 10 false 0)
        [Example.p0a, Example.p0b, Example.p0c, Example.p1a] Example.acceptAll = .ok built ∧
      (∀ r ∈ built.1, ∀ x ∈ r, ∀ y ∈ r, x.data.partition_id = y.data.partition_id) ∧
      selectPartsToMerge Example.ext (Example.table false 10 false 0) []
        [Example.p0a, Example.p0b, Example.p0c, Example.p1a] [] Example.acceptAll
        Example.settings = .ok (d, [] ++ appended) ∧
      ∀ r ∈ appended, ∀ p ∈ r, ∀ q ∈ r, p.partition_id = q.partition_id :=
  ⟨by simp, rfl, rfl, fun _ _ s hs => ⟨s, hs, List.infix_refl s⟩,
    ranges_share_partition_id Example.ext (Example.table false 10 false 0) []
      [Example.p0a, Example.p0b, Example.p0c, Example.p1a] [] Example.acceptAll
      Example.settings (by simp) rfl rfl (fun _ _ s hs => ⟨s, hs, List.infix_refl s⟩)⟩

/-- Claim C7: with nonadjacent mode enabled the range builder returns, all
parts of each candidate range have one (columns commit time, mutation commit
time) key, and, if each range the selector returns draws its parts from one
candidate range, all parts of every range appended to `res` have one such
key. -/
theorem ranges_share_commit_key (ext : Externals) (data : MergeTreeMetaBase)
    (res : List ServerDataPartsVector) (data_parts : ServerDataPartsVector)
    (unselectable_part_rows : List (String × (Nat × Nat)))
    (can_merge_callback : ServerCanMergeCallback) (settings : SelectPartsToMergeSettings)
    (hnonadjacent : data.settings.cnch_merge_select_nonadjacent_parts = true)
    (hdraw : ∀ built, buildPartsRanges ext data data_parts can_merge_callback = .ok built →
      ∀ s ∈ selectedRanges ext data unselectable_part_rows settings built.1,
        ∃ c ∈ built.1, ∀ x ∈ s, x ∈ c) :
    ∃ built d appended,
      buildPartsRanges ext data data_parts can_merge_callback = .ok built ∧
      (∀ r ∈ built.1, ∀ x ∈ r, ∀ y ∈ r, x.data.commitKey = y.data.commitKey) ∧
      selectPartsToMerge ext data res data_parts unselectable_part_rows can_merge_callback
        settings = .ok (d, res ++ appended) ∧
      ∀ r ∈ appended, ∀ p ∈ r, ∀ q ∈ r, p.commitKey = q.commitKey := by
  obtain ⟨built, hb, hkey⟩ :=
    buildPartsRanges_commitKey ext data data_parts can_merge_callback hnonadjacent
  obtain ⟨d, appended, hsel, happ⟩ := selectPartsToMerge_appended ext data res data_parts
    unselectable_part_rows can_merge_callback settings built hb
  refine ⟨built, d, appended, hb, hkey, hsel, ?_⟩
  intro r hr p hp q hq
  obtain ⟨s, hs, _, rfl⟩ := happ r hr
  obtain ⟨c, hc, hsc⟩ := hdraw built hb s hs
  obtain ⟨x, hx, rfl⟩ := (mem_materialize ext data s p).1 hp
  obtain ⟨y, hy, rfl⟩ := (mem_materialize ext data s q).1 hq
  exact hkey c hc x (hsc x hx) y (hsc y hy)

/-- Witness for C7: a part with key (2, 1) between parts with key (1, 1), all
eligible, on a table with nonadjacent mode enabled. -/
theorem ranges_share_commit_key_witness :
    (Example.table true 10 false 0).settings.cnch_merge_select_nonadjacent_parts = true ∧
    (∀ built, buildPartsRanges Example.ext (Example.table true 10 false 0)
        [Example.p0a, Example.p1a, Example.p0b] Example.acceptAll = .ok built →
      ∀ s ∈ selectedRanges Example.ext (Example.table true 10 false 0) [] Example.settings
          built.1,
        ∃ c ∈ built.1, ∀ x ∈ s, x ∈ c) ∧
    ∃ built d appended,
      buildPartsRanges Example.ext (Example.table true 10 false 0)
        [Example.p0a, Example.p1a, Example.p0b] Example.acceptAll = .ok built ∧
      (∀ r ∈ built.1, ∀ x ∈ r, ∀ y ∈ r, x.data.commitKey = y.data.commitKey) ∧
      selectPartsToMerge Example.ext (Example.table true 10 false 0) []
        [Example.p0a, Example.p1a, Example.p0b] [] Example.acceptAll
        Example.settings = .ok (d, [] ++ appended) ∧
      ∀ r ∈ appended, ∀ p ∈ r, ∀ q ∈ r, p.commitKey = q.commitKey :=
  ⟨rfl, fun _ _ s hs => ⟨s, hs, fun _ hx => hx⟩,
    ranges_share_commit_key Example.ext (Example.table true 10 false 0) []
      [Example.p0a, Example.p1a, Example.p0b] [] Example.acceptAll
      Example.settings rfl (fun _ _ s hs => ⟨s, hs, fun _ hx => hx⟩)⟩

/-- Counterexample to C8 as stated: in strict mode with `max_parts_to_break`
configured as 0, one eligible part yields a candidate range of one part, so
it is not true that no candidate range holds more than `max_parts_to_break`
parts. -/
theorem max_parts_to_break_zero_exceeded :
    (Example.table false 0 false 0).settings.cnch_merge_select_nonadjacent_parts = false ∧
    maxPartsToBreak (Example.table false 0 false 0) = 0 ∧
    ∃ built, buildPartsRanges Example.ext (Example.table false 0 false 0) [Example.p0a]
        Example.acceptAll = .ok built ∧
      ¬ ∀ r ∈ built.1, r.length ≤ maxPartsToBreak (Example.table false 0 false 0) :=
  ⟨rfl, by decide, ([[makePartInfo Example.ext Example.p0a]], 1), by decide, by decide⟩

/-- Claim C8, amended: in strict mode the range builder returns and no
candidate range holds more than `max (max_parts_to_break) 1` parts, where
`max_parts_to_break` is the configured value converted to `size_t`; the bound
is `max_parts_to_break` itself whenever that value is at least 1. -/
theorem candidate_range_length_bound (ext : Externals) (data : MergeTreeMetaBase)
    (data_parts : ServerDataPartsVector) (can_merge_callback : ServerCanMergeCallback)
    (hstrict : data.settings.cnch_merge_select_nonadjacent_parts = false) :
    ∃ built, buildPartsRanges ext data data_parts can_merge_callback = .ok built ∧
      (∀ r ∈ built.1, r.length ≤ max (maxPartsToBreak data) 1) ∧
      (1 ≤ maxPartsToBreak data → ∀ r ∈ built.1, r.length ≤ maxPartsToBreak data) := by
  obtain ⟨built, hb, hlen⟩ :=
    buildPartsRanges_length ext data data_parts can_merge_callback hstrict
  refine ⟨built, hb, hlen, ?_⟩
  intro h1 r hr
  have := hlen r hr
  rwa [max_eq_left h1] at this

/-- Witness for the amended C8: three eligible parts of one partition with
`max_parts_to_break` configured as 2. -/
theorem candidate_range_length_bound_witness :
    (Example.table false 2 false 0).settings.cnch_merge_select_nonadjacent_parts = false ∧
    ∃ built, buildPartsRanges Example.ext (Example.table false 2 false 0)
        [Example.p0a, Example.p0b, Example.p0c] Example.acceptAll = .ok built ∧
      (∀ r ∈ built.1, r.length ≤ max (maxPartsToBreak (Example.table false 2 false 0)) 1) ∧
      (1 ≤ maxPartsToBreak (Example.table false 2 false 0) →
        ∀ r ∈ built.1, r.length ≤ maxPartsToBreak (Example.table false 2 false 0)) :=
  ⟨rfl, candidate_range_length_bound Example.ext (Example.table false 2 false 0)
    [Example.p0a, Example.p0b, Example.p0c] Example.acceptAll rfl⟩

/-- Claim C9, evaluated on the code: an eligible part of partition `P0`
followed by an ineligible part of partition `P1`.  The range for `P1` is
created at lines 109-110 before the solo check of line 124 rejects the part,
and it stays: the counter is 1, so the selector is invoked, and the list it
is given ends with an empty range.  With a selector that returns the ranges
it is given, the planner answers `SELECTED` and appends an empty range to
`res`. -/
theorem trailing_empty_range_emitted :
    (∃ built, buildPartsRanges Example.ext (Example.table false 10 false 0)
        [Example.p0a, Example.p1a] Example.onlyP0 = .ok built ∧
      built = ([[makePartInfo Example.ext Example.p0a], []], 1) ∧
      built.2 ≠ 0 ∧
      ¬ ∀ r ∈ built.1, r ≠ []) ∧
    selectPartsToMerge Example.ext (Example.table false 10 false 0) []
      [Example.p0a, Example.p1a] [] Example.onlyP0 Example.settings =
      .ok (.SELECTED, [[]]) :=
  ⟨⟨([[makePartInfo Example.ext Example.p0a], []], 1), by decide, rfl, by decide, by decide⟩,
    by decide⟩

/-- What the range builder does guarantee: it always returns and every
candidate range other than the last one is non-empty. -/
theorem candidate_ranges_nonempty_except_last (ext : Externals) (data : MergeTreeMetaBase)
    (data_parts : ServerDataPartsVector) (can_merge_callback : ServerCanMergeCallback) :
    ∃ built, buildPartsRanges ext data data_parts can_merge_callback = .ok built ∧
      ∀ r ∈ built.1.dropLast, r ≠ [] := by
  obtain ⟨built, hb, hne⟩ := buildPartsRanges_nonempty ext data data_parts can_merge_callback
  refine ⟨built, hb, ?_⟩
  intro r hr
  rcases List.eq_nil_or_concat built.1 with hnil | ⟨init, b, h⟩
  · rw [hnil] at hr
    simp at hr
  · rw [List.concat_eq_append] at h
    rw [h, List.dropLast_concat] at hr
    exact hne init b h r hr

/-- Claim C10: the row cap given to the selector.  On a table with a unique
key it is the configured value `v` when `0 < v ≤ 2^32 - 1` and `2^32 - 1`
otherwise, so it lies in `[1, 2^32 - 1]`; on a table without a unique key it
is `v` unchanged. -/
theorem row_cap_of_selector (data : MergeTreeMetaBase) (settings : SelectPartsToMergeSettings) :
    (data.hasUniqueKey = true →
      (0 < data.settings.cnch_merge_max_total_rows_to_merge ∧
          data.settings.cnch_merge_max_total_rows_to_merge ≤ 2 ^ 32 - 1 →
        (makeMergeSettings data settings).max_total_rows_to_merge =
          data.settings.cnch_merge_max_total_rows_to_merge) ∧
      (¬ (0 < data.settings.cnch_merge_max_total_rows_to_merge ∧
          data.settings.cnch_merge_max_total_rows_to_merge ≤ 2 ^ 32 - 1) →
        (makeMergeSettings data settings).max_total_rows_to_merge = 2 ^ 32 - 1) ∧
      1 ≤ (makeMergeSettings data settings).max_total_rows_to_merge ∧
      (makeMergeSettings data settings).max_total_rows_to_merge ≤ 2 ^ 32 - 1) ∧
    (data.hasUniqueKey = false →
      (makeMergeSettings data settings).max_total_rows_to_merge =
        data.settings.cnch_merge_max_total_rows_to_merge) := by
  simp only [makeMergeSettings, effectiveMaxTotalRows, UInt32_max]
  generalize data.settings.cnch_merge_max_total_rows_to_merge = v
  have hM : (2 : Int) ^ 32 - 1 = 4294967295 := by norm_num
  rw [hM]
  constructor
  · intro hu
    simp only [hu, if_true]
    have key : (if (!(decide (0 < v) && decide (v ≤ 4294967295))) = true
        then (4294967295 : Int) else v) =
        if 0 < v ∧ v ≤ 4294967295 then v else 4294967295 := by
      by_cases h1 : 0 < v <;> by_cases h2 : v ≤ 4294967295 <;> simp [h1, h2]
    rw [key]
    split_ifs with h
    · exact ⟨fun _ => rfl, fun hn => absurd h hn, by omega, h.2⟩
    · exact ⟨fun hp => absurd hp h, fun _ => rfl, by omega, le_refl _⟩
  · intro hu
    simp [hu]

/-- Witness for C10: on a table with a unique key a configured cap of 0 becomes
`2^32 - 1`, and a configured cap of 5000 is kept. -/
theorem row_cap_of_selector_witness :
    (makeMergeSettings (Example.table false 10 true 0) Example.settings).max_total_rows_to_merge
      = 2 ^ 32 - 1 ∧
    (makeMergeSettings (Example.table false 10 true 5000)
      Example.settings).max_total_rows_to_merge = 5000 :=
  ⟨(row_cap_of_selector (Example.table false 10 true 0) Example.settings).1 rfl |>.2.1
      (by decide),
    (row_cap_of_selector (Example.table false 10 true 5000) Example.settings).1 rfl |>.1
      (by decide)⟩

/-! ## Grouping by key -/

theorem insertIntoGroup_keys {K : Type} [DecidableEq K] (key : K) (part : ServerDataPart) :
    ∀ m : List (K × ServerDataPartsVector),
      (insertIntoGroup key part m).map Prod.fst =
        if key ∈ m.map Prod.fst then m.map Prod.fst else m.map Prod.fst ++ [key] := by
  intro m
  induction m with
  | nil => simp [insertIntoGroup]
  | cons hd tl ih =>
    obtain ⟨k, ps⟩ := hd
    by_cases hk : k = key
    · simp [insertIntoGroup, hk]
    · have hk2 : ¬ key = k := fun h => hk h.symm
      simp only [insertIntoGroup, hk, if_false, List.map_cons, ih, List.mem_cons, hk2, false_or]
      split_ifs <;> simp

theorem mem_insertIntoGroup {K : Type} [DecidableEq K] (key : K) (part : ServerDataPart) :
    ∀ m : List (K × ServerDataPartsVector), (m.map Prod.fst).Nodup →
      ∀ e ∈ insertIntoGroup key part m,
        (e ∈ m ∧ e.1 ≠ key) ∨
        (e.1 = key ∧ ((∃ ps, (key, ps) ∈ m ∧ e.2 = ps ++ [part]) ∨
          (key ∉ m.map Prod.fst ∧ e.2 = [part]))) := by
  intro m
  induction m with
  | nil =>
    intro _ e he
    simp only [insertIntoGroup, List.mem_singleton] at he
    subst he
    exact Or.inr ⟨rfl, Or.inr ⟨by simp, rfl⟩⟩
  | cons hd tl ih =>
    obtain ⟨k, ps⟩ := hd
    intro hnd e he
    simp only [List.map_cons, List.nodup_cons] at hnd
    by_cases hk : k = key
    · subst hk
      simp only [insertIntoGroup, if_true, List.mem_cons] at he
      rcases he with rfl | he
      · exact Or.inr ⟨rfl, Or.inl ⟨ps, List.mem_cons_self _ _, rfl⟩⟩
      · refine Or.inl ⟨List.mem_cons_of_mem _ he, ?_⟩
        intro h
        exact hnd.1 (h ▸ List.mem_map_of_mem Prod.fst he)
    · simp only [insertIntoGroup, hk, if_false, List.mem_cons] at he
      rcases he with rfl | he
      · exact Or.inl ⟨List.mem_cons_self _ _, hk⟩
      · rcases ih hnd.2 e he with ⟨h1, h2⟩ | ⟨h1, h2⟩
        · exact Or.inl ⟨List.mem_cons_of_mem _ h1, h2⟩
        · refine Or.inr ⟨h1, ?_⟩
          rcases h2 with ⟨ps2, hps, h3⟩ | ⟨hnot, h3⟩
          · exact Or.inl ⟨ps2, List.mem_cons_of_mem _ hps, h3⟩
          · refine Or.inr ⟨?_, h3⟩
            simp only [List.map_cons, List.mem_cons, not_or]
            exact ⟨fun h => hk h.symm, hnot⟩

theorem groupsOf_skip {K : Type} [DecidableEq K] {keep : ServerDataPart → Bool}
    {key : ServerDataPart → K} {pre : ServerDataPartsVector}
    {m : List (K × ServerDataPartsVector)} {p : ServerDataPart}
    (h : GroupsOf keep key pre m) (hp : keep p = false) :
    GroupsOf keep key (pre ++ [p]) m := by
  refine ⟨h.1, ?_, ?_⟩
  · intro e he
    refine ⟨(h.2.1 e he).1, ?_⟩
    rw [(h.2.1 e he).2]
    simp [List.filter_append, hp]
  · intro q hq hkq
    rcases List.mem_append.1 hq with hq | hq
    · exact h.2.2 q hq hkq
    · simp only [List.mem_singleton] at hq
      subst hq
      rw [hp] at hkq
      exact absurd hkq (by simp)

theorem groupsOf_insert {K : Type} [DecidableEq K] {keep : ServerDataPart → Bool}
    {key : ServerDataPart → K} {pre : ServerDataPartsVector}
    {m : List (K × ServerDataPartsVector)} {p : ServerDataPart}
    (h : GroupsOf keep key pre m) (hp : keep p = true) :
    GroupsOf keep key (pre ++ [p]) (insertIntoGroup (key p) p m) := by
  have hkeys := insertIntoGroup_keys (key p) p m
  refine ⟨?_, ?_, ?_⟩
  · rw [hkeys]
    split_ifs with hin
    · exact h.1
    · exact List.Nodup.append h.1 (List.nodup_singleton _) (by simpa using hin)
  · intro e he
    rcases mem_insertIntoGroup (key p) p m h.1 e he with ⟨hem, hne⟩ | ⟨hk, hcase⟩
    · refine ⟨(h.2.1 e hem).1, ?_⟩
      rw [(h.2.1 e hem).2]
      have : ¬ key p = e.1 := fun h2 => hne h2.symm
      simp [List.filter_append, this]
    · rcases hcase with ⟨ps, hps, he2⟩ | ⟨hnot, he2⟩
      · refine ⟨by rw [he2]; simp, ?_⟩
        have hps2 := (h.2.1 (key p, ps) hps).2
        simp only at hps2
        rw [he2, hk, List.filter_append, ← hps2]
        simp [hp]
      · refine ⟨by rw [he2]; simp, ?_⟩
        have hnil : pre.filter (fun q => keep q && decide (key q = key p)) = [] := by
          rw [List.filter_eq_nil_iff]
          intro q hq hcond
          simp only [Bool.and_eq_true, decide_eq_true_eq] at hcond
          exact hnot (hcond.2 ▸ h.2.2 q hq hcond.1)
        rw [he2, hk]
        simp [List.filter_append, hp, hnil]
  · intro q hq hkq
    rw [hkeys]
    rcases List.mem_append.1 hq with hq | hq
    · have := h.2.2 q hq hkq
      split_ifs
      · exact this
      · exact List.mem_append_left _ this
    · simp only [List.mem_singleton] at hq
      subst hq
      split_ifs with hin
      · exact hin
      · simp

theorem groupsOf_foldl {K : Type} [DecidableEq K] (keep : ServerDataPart → Bool)
    (key : ServerDataPart → K) (parts : ServerDataPartsVector) :
    ∀ (pre : ServerDataPartsVector) (m : List (K × ServerDataPartsVector)),
      GroupsOf keep key pre m →
      GroupsOf keep key (pre ++ parts)
        (parts.foldl (fun g p => if keep p = true then insertIntoGroup (key p) p g else g) m) := by
  induction parts with
  | nil => intro pre m h; simpa using h
  | cons p rest ih =>
    intro pre m h
    simp only [List.foldl_cons]
    have := ih (pre ++ [p])
      (if keep p = true then insertIntoGroup (key p) p m else m)
      (by
        split_ifs with hk
        · exact groupsOf_insert h hk
        · exact groupsOf_skip h (by simpa using hk))
    simpa using this

theorem groupsOf_nil {K : Type} [DecidableEq K] (keep : ServerDataPart → Bool)
    (key : ServerDataPart → K) : GroupsOf keep key [] ([] : List (K × ServerDataPartsVector)) :=
  ⟨by simp, by simp, by simp⟩

/-- The bucket map of a part list, started from an empty map. -/
theorem bucketMap_groupsOf (data : MergeTreeMetaBase)
    (data_parts : ServerDataPartsVector) :
    GroupsOf (fun p => data.tableHashMatch p.model.table_definition_hash)
      (fun p => p.model.bucket_number) data_parts
      (groupPartsByBucketNumber data [] data_parts) := by
  have h := groupsOf_foldl (fun p => data.tableHashMatch p.model.table_definition_hash)
    (fun p => p.model.bucket_number) data_parts [] [] (groupsOf_nil _ _)
  simp only [List.nil_append] at h
  have heq : (fun (grouped : List (Int × ServerDataPartsVector)) (part : ServerDataPart) =>
      if !data.tableHashMatch part.model.table_definition_hash then grouped
      else insertIntoGroup part.model.bucket_number part grouped) =
      (fun g p => if data.tableHashMatch p.model.table_definition_hash = true
        then insertIntoGroup p.model.bucket_number p g else g) := by
    funext g p
    cases data.tableHashMatch p.model.table_definition_hash <;> simp
  unfold groupPartsByBucketNumber
  rw [heq]
  exact h

/-- The map built by the first loop of `groupPartsByColumnsMutationsCommitTime`. -/
theorem groupedRanges_groupsOf (parts : ServerDataPartsVector) :
    GroupsOf (fun _ => true) (fun p => p.commitKey) parts (groupedRanges parts) := by
  have h := groupsOf_foldl (fun _ => true) (fun p => p.commitKey) parts [] [] (groupsOf_nil _ _)
  simpa [groupedRanges] using h

/-- Every part held in a candidate range of a bucket table has a clustering
hash that matches the table definition. -/
theorem buildPartsRanges_clustered (ext : Externals) (data : MergeTreeMetaBase)
    (data_parts : ServerDataPartsVector) (cm : ServerCanMergeCallback)
    (hbucket : data.isBucketTable = true) :
    ∃ built, buildPartsRanges ext data data_parts cm = .ok built ∧
      ∀ r ∈ built.1, ∀ x ∈ r,
        data.tableHashMatch x.data.model.table_definition_hash = true := by
  obtain ⟨built, hb, h⟩ := buildPartsRanges_frame ext data data_parts cm
  refine ⟨built, hb, ?_⟩
  intro r hr x hx
  obtain ⟨f, hf, hsub⟩ := h r hr
  obtain ⟨e, he, hfe⟩ := mem_allFrames hf
  have hxe := framesOfBucket_subset ext _ e.2 f hfe _ (hsub x hx)
  simp only [makeBuckets, hbucket, if_true] at he
  have hg := ((bucketMap_groupsOf data data_parts).2.1 e he).2
  rw [hg] at hxe
  simp only [List.mem_filter, Bool.and_eq_true, decide_eq_true_eq] at hxe
  exact hxe.2.1

/-- Claim C11: `groupPartsByBucketNumber`, started from an empty map, returns
a map with distinct keys in which the group under key `b` is exactly the
input parts whose clustering hash matches the table definition and whose
bucket number is `b`, in input order; no group is empty, every matching part
has its group, and a part whose hash does not match is in no group.  On a
bucket table such a part is therefore in no candidate range and, when the
selector draws every returned range from one candidate range, in no range
appended to `res`. -/
theorem groupPartsByBucketNumber_groups (ext : Externals) (data : MergeTreeMetaBase)
    (res : List ServerDataPartsVector) (data_parts : ServerDataPartsVector)
    (unselectable_part_rows : List (String × (Nat × Nat)))
    (can_merge_callback : ServerCanMergeCallback) (settings : SelectPartsToMergeSettings)
    (hbucket : data.isBucketTable = true)
    (hdraw : ∀ built, buildPartsRanges ext data data_parts can_merge_callback = .ok built →
      ∀ s ∈ selectedRanges ext data unselectable_part_rows settings built.1,
        ∃ c ∈ built.1, ∀ x ∈ s, x ∈ c) :
    ((groupPartsByBucketNumber data [] data_parts).map Prod.fst).Nodup ∧
    (∀ e ∈ groupPartsByBucketNumber data [] data_parts,
      e.2 ≠ [] ∧
      e.2 = data_parts.filter (fun p =>
        data.tableHashMatch p.model.table_definition_hash &&
          decide (p.model.bucket_number = e.1))) ∧
    (∀ p ∈ data_parts, data.tableHashMatch p.model.table_definition_hash = true →
      ∃ e ∈ groupPartsByBucketNumber data [] data_parts, e.1 = p.model.bucket_number) ∧
    (∀ p, data.tableHashMatch p.model.table_definition_hash = false →
      ∀ e ∈ groupPartsByBucketNumber data [] data_parts, p ∉ e.2) ∧
    ∃ built d appended,
      buildPartsRanges ext data data_parts can_merge_callback = .ok built ∧
      (∀ p, data.tableHashMatch p.model.table_definition_hash = false →
        ∀ r ∈ built.1, ∀ x ∈ r, x.data ≠ p) ∧
      selectPartsToMerge ext data res data_parts unselectable_part_rows can_merge_callback
        settings = .ok (d, res ++ appended) ∧
      (∀ p, data.tableHashMatch p.model.table_definition_hash = false →
        ∀ r ∈ appended, p ∉ r) := by
  have hg := bucketMap_groupsOf data data_parts
  refine ⟨hg.1, hg.2.1, ?_, ?_, ?_⟩
  · intro p hp hm
    have := hg.2.2 p hp hm
    simp only [List.mem_map] at this
    obtain ⟨e, he, hk⟩ := this
    exact ⟨e, he, hk⟩
  · intro p hm e he hpe
    rw [(hg.2.1 e he).2] at hpe
    simp only [List.mem_filter, Bool.and_eq_true, decide_eq_true_eq] at hpe
    rw [hm] at hpe
    exact absurd hpe.2.1 (by simp)
  · obtain ⟨built, hb, hcl⟩ :=
      buildPartsRanges_clustered ext data data_parts can_merge_callback hbucket
    obtain ⟨d, appended, hsel, happ⟩ := selectPartsToMerge_appended ext data res data_parts
      unselectable_part_rows can_merge_callback settings built hb
    refine ⟨built, d, appended, hb, ?_, hsel, ?_⟩
    · intro p hm r hr x hx hxp
      have := hcl r hr x hx
      rw [hxp, hm] at this
      exact absurd this (by simp)
    · intro p hm r hr hp
      obtain ⟨s, hs, _, rfl⟩ := happ r hr
      obtain ⟨c, hc, hsc⟩ := hdraw built hb s hs
      obtain ⟨x, hx, rfl⟩ := (mem_materialize ext data s p).1 hp
      have := hcl c hc x (hsc x hx)
      rw [hm] at this
      exact absurd this (by simp)

/-- Witness for C11: a bucket table, two clustered parts of bucket 0 and one
part of bucket 1 whose hash does not match, with the selector that returns
every candidate range whole. -/
theorem groupPartsByBucketNumber_groups_witness :
    Example.bucketTable.isBucketTable = true ∧
    groupPartsByBucketNumber Example.bucketTable []
      [Example.p0a, Example.unclustered, Example.p0b] = [(0, [Example.p0a, Example.p0b])] ∧
    selectPartsToMerge Example.ext Example.bucketTable []
      [Example.p0a, Example.unclustered, Example.p0b] [] Example.acceptAll Example.settings =
      .ok (.SELECTED, [[Example.p0a, Example.p0b]]) ∧
    ∃ built d appended,
      buildPartsRanges Example.ext Example.bucketTable
        [Example.p0a, Example.unclustered, Example.p0b] Example.acceptAll = .ok built ∧
      (∀ p, Example.bucketTable.tableHashMatch p.model.table_definition_hash = false →
        ∀ r ∈ built.1, ∀ x ∈ r, x.data ≠ p) ∧
      selectPartsToMerge Example.ext Example.bucketTable []
        [Example.p0a, Example.unclustered, Example.p0b] [] Example.acceptAll Example.settings =
        .ok (d, [] ++ appended) ∧
      (∀ p, Example.bucketTable.tableHashMatch p.model.table_definition_hash = false →
        ∀ r ∈ appended, p ∉ r) :=
  ⟨rfl, by decide, by decide,
    (groupPartsByBucketNumber_groups Example.ext Example.bucketTable []
      [Example.p0a, Example.unclustered, Example.p0b] [] Example.acceptAll Example.settings rfl
      (fun _ _ s hs => ⟨s, hs, fun _ hx => hx⟩)).2.2.2.2⟩

/-- Claim C19: `groupPartsByColumnsMutationsCommitTime` appends to
`part_ranges` groups that partition the input: no group is empty, every
input part is in a group, two different groups share no part, a group that
holds `x` is exactly the input parts with the commit-time key of `x` in
input order (so two parts are in one group if and only if their keys are
equal, and a group keeps the relative input order). -/
theorem groupPartsByColumnsMutationsCommitTime_partition
    (iteration : HashIteration (Nat × Nat)) (parts : ServerDataPartsVector)
    (part_ranges : List ServerDataPartsVector) :
    ∃ groups,
      groupPartsByColumnsMutationsCommitTime iteration parts part_ranges =
        part_ranges ++ groups ∧
      (∀ g ∈ groups, g ≠ []) ∧
      (∀ p ∈ parts, ∃ g ∈ groups, p ∈ g) ∧
      groups.Pairwise (fun g h => ∀ x ∈ g, x ∉ h) ∧
      (∀ g ∈ groups, ∀ x ∈ g,
        g = parts.filter (fun y => decide (y.commitKey = x.commitKey))) ∧
      (∀ g ∈ groups, ∀ x ∈ g, ∀ y ∈ parts, (y ∈ g ↔ y.commitKey = x.commitKey)) ∧
      (∀ g ∈ groups, g.Sublist parts) := by
  have hg := groupedRanges_groupsOf parts
  have hperm := iteration.order_perm (groupedRanges parts)
  have hent : ∀ e ∈ iteration.order (groupedRanges parts),
      e.2 ≠ [] ∧ e.2 = parts.filter (fun y => decide (y.commitKey = e.1)) := by
    intro e he
    have := hg.2.1 e (hperm.mem_iff.1 he)
    simpa using this
  have hfil : ∀ g ∈ (iteration.order (groupedRanges parts)).map Prod.snd, ∀ x ∈ g,
      g = parts.filter (fun y => decide (y.commitKey = x.commitKey)) := by
    intro g hgm x hx
    simp only [List.mem_map] at hgm
    obtain ⟨e, he, rfl⟩ := hgm
    have h2 := (hent e he).2
    have hxk : x.commitKey = e.1 := by
      rw [h2] at hx
      simpa using (List.mem_filter.1 hx).2
    rw [hxk]
    exact h2
  refine ⟨(iteration.order (groupedRanges parts)).map Prod.snd, rfl, ?_, ?_, ?_, hfil, ?_, ?_⟩
  · intro g hgm
    simp only [List.mem_map] at hgm
    obtain ⟨e, he, rfl⟩ := hgm
    exact (hent e he).1
  · intro p hp
    have := hg.2.2 p hp rfl
    simp only [List.mem_map] at this
    obtain ⟨e, he, hk⟩ := this
    refine ⟨e.2, List.mem_map_of_mem Prod.snd (hperm.mem_iff.2 he), ?_⟩
    rw [(hg.2.1 e he).2]
    simp [hp, hk]
  · rw [List.pairwise_map]
    have hnd : ((iteration.order (groupedRanges parts)).map Prod.fst).Nodup :=
      (hperm.map Prod.fst).nodup_iff.2 hg.1
    have hpw := List.pairwise_map.1 hnd
    refine hpw.imp_of_mem ?_
    intro e f he hf hne x hx hxf
    rw [(hent e he).2] at hx
    rw [(hent f hf).2] at hxf
    simp only [List.mem_filter, decide_eq_true_eq] at hx hxf
    exact hne (hx.2.symm.trans hxf.2)
  · intro g hgm x hx y hy
    rw [hfil g hgm x hx]
    simp [hy]
  · intro g hgm
    simp only [List.mem_map] at hgm
    obtain ⟨e, he, rfl⟩ := hgm
    rw [(hent e he).2]
    exact List.filter_sublist _

/-- Claim C12: on a bucket table the caller's `aggressive` flag has no effect.
With `aggressive = false` the selector is configured exactly as with
`aggressive = true`: `min_parts_to_merge_base` is 1, no adaptive controller
is attached, and the planner returns the same decision and ranges. -/
theorem bucket_table_ignores_aggressive (ext : Externals) (data : MergeTreeMetaBase)
    (res : List ServerDataPartsVector) (data_parts : ServerDataPartsVector)
    (unselectable_part_rows : List (String × (Nat × Nat)))
    (can_merge_callback : ServerCanMergeCallback) (settings : SelectPartsToMergeSettings)
    (hbucket : data.isBucketTable = true) :
    makeMergeSettings data { settings with aggressive := false } =
      makeMergeSettings data { settings with aggressive := true } ∧
    (makeMergeSettings data { settings with aggressive := false }).min_parts_to_merge_base = 1 ∧
    (∀ parts_ranges,
      makeAdaptiveController ext data { settings with aggressive := false } parts_ranges
        unselectable_part_rows = none ∧
      makeAdaptiveController ext data { settings with aggressive := true } parts_ranges
        unselectable_part_rows = none) ∧
    selectPartsToMerge ext data res data_parts unselectable_part_rows can_merge_callback
        { settings with aggressive := false } =
      selectPartsToMerge ext data res data_parts unselectable_part_rows can_merge_callback
        { settings with aggressive := true } := by
  have hs : makeMergeSettings data { settings with aggressive := false } =
      makeMergeSettings data { settings with aggressive := true } := by
    simp [makeMergeSettings, effectiveAggressive, hbucket]
  have hc : ∀ (b : Bool) (parts_ranges : PartsRanges),
      makeAdaptiveController ext data { settings with aggressive := b } parts_ranges
        unselectable_part_rows = none := by
    intro b parts_ranges
    simp [makeAdaptiveController, effectiveAggressive, hbucket]
  refine ⟨hs, by simp [makeMergeSettings, effectiveAggressive, hbucket],
    fun parts_ranges => ⟨hc false parts_ranges, hc true parts_ranges⟩, ?_⟩
  simp only [selectPartsToMerge, selectedRanges, hs, hc]

/-- Witness for C12: the bucket table of the examples with two clustered
parts; both values of the flag give `SELECTED` with the same range. -/
theorem bucket_table_ignores_aggressive_witness :
    Example.bucketTable.isBucketTable = true ∧
    selectPartsToMerge Example.ext Example.bucketTable [] [Example.p0a, Example.p0b] []
        Example.acceptAll { Example.settings with aggressive := false } =
      .ok (.SELECTED, [[Example.p0a, Example.p0b]]) ∧
    selectPartsToMerge Example.ext Example.bucketTable [] [Example.p0a, Example.p0b] []
        Example.acceptAll { Example.settings with aggressive := false } =
      selectPartsToMerge Example.ext Example.bucketTable [] [Example.p0a, Example.p0b] []
        Example.acceptAll { Example.settings with aggressive := true } :=
  ⟨rfl, by decide,
    (bucket_table_ignores_aggressive Example.ext Example.bucketTable []
      [Example.p0a, Example.p0b] [] Example.acceptAll Example.settings rfl).2.2.2⟩

theorem toInt64_of_lt {n : Nat} (h : n < 2 ^ 64) (hpos : 0 < toInt64 n) :
    toInt64 n = (n : Int) := by
  unfold toInt64 at hpos ⊢
  rw [Nat.mod_eq_of_lt h] at hpos ⊢
  simp only at hpos ⊢
  split_ifs at hpos ⊢ with h1
  · rfl
  · omega

/-- Claim C13: the adaptive controller given to the selector.  It is attached
only if the table's `cnch_merge_expected_parts_number` is at least 0, the
effective aggressive flag is false and `final` is false; an attached
controller has a positive expected part count, equal to the table's value
when that is positive and to `num_default_workers` when the table's value is
0; without a statistics object, or with a resulting count that is not
positive, no controller is attached, and in every case the planner returns. -/
theorem adaptive_controller_attachment (ext : Externals) (data : MergeTreeMetaBase)
    (res : List ServerDataPartsVector) (data_parts : ServerDataPartsVector)
    (unselectable_part_rows : List (String × (Nat × Nat)))
    (can_merge_callback : ServerCanMergeCallback) (settings : SelectPartsToMergeSettings)
    (parts_ranges : PartsRanges)
    (hworkers : settings.num_default_workers < 2 ^ 64) :
    (∀ c, makeAdaptiveController ext data settings parts_ranges unselectable_part_rows = some c →
      0 ≤ data.settings.cnch_merge_expected_parts_number ∧
      effectiveAggressive data settings = false ∧
      settings.final = false ∧
      ext.getOrCreateTableStats ≠ none ∧
      0 < c.expected_parts_number ∧
      (0 < data.settings.cnch_merge_expected_parts_number →
        c.expected_parts_number = data.settings.cnch_merge_expected_parts_number) ∧
      (data.settings.cnch_merge_expected_parts_number = 0 →
        c.expected_parts_number = (settings.num_default_workers : Int))) ∧
    (ext.getOrCreateTableStats = none →
      makeAdaptiveController ext data settings parts_ranges unselectable_part_rows = none) ∧
    ((if data.settings.cnch_merge_expected_parts_number = 0
        then toInt64 settings.num_default_workers
        else data.settings.cnch_merge_expected_parts_number) ≤ 0 →
      makeAdaptiveController ext data settings parts_ranges unselectable_part_rows = none) ∧
    (0 ≤ data.settings.cnch_merge_expected_parts_number →
      effectiveAggressive data settings = false → settings.final = false →
      ext.getOrCreateTableStats ≠ none →
      0 < (if data.settings.cnch_merge_expected_parts_number = 0
        then toInt64 settings.num_default_workers
        else data.settings.cnch_merge_expected_parts_number) →
      (makeAdaptiveController ext data settings parts_ranges unselectable_part_rows).isSome
        = true) ∧
    selectedRanges ext data unselectable_part_rows settings parts_ranges =
      ext.selectMulti (makeMergeSettings data settings)
        (makeAdaptiveController ext data settings parts_ranges unselectable_part_rows)
        parts_ranges settings.max_total_size_to_merge ∧
    ∃ out, selectPartsToMerge ext data res data_parts unselectable_part_rows
      can_merge_callback settings = .ok out := by
  have hform : makeAdaptiveController ext data settings parts_ranges unselectable_part_rows =
      if 0 ≤ data.settings.cnch_merge_expected_parts_number ∧
          effectiveAggressive data settings = false ∧ settings.final = false then
        match ext.getOrCreateTableStats with
        | none => none
        | some bg_task_stats =>
          if 0 < (if data.settings.cnch_merge_expected_parts_number = 0
              then toInt64 settings.num_default_workers
              else data.settings.cnch_merge_expected_parts_number) then
            some { is_bucket_table := data.isBucketTable
                   expected_parts_number :=
                     if data.settings.cnch_merge_expected_parts_number = 0
                       then toInt64 settings.num_default_workers
                       else data.settings.cnch_merge_expected_parts_number
                   write_amplification_optimize_threshold :=
                     data.settings.cnch_merge_write_amplification_optimize_threshold
                   max_parts_to_merge :=
                     (makeMergeSettings data settings).max_parts_to_merge_base
                   bg_task_stats := bg_task_stats
                   parts_ranges := parts_ranges
                   unselectable_part_rows := unselectable_part_rows }
          else none
      else none := by
    unfold makeAdaptiveController
    by_cases h0 : 0 ≤ data.settings.cnch_merge_expected_parts_number <;>
      cases ha : effectiveAggressive data settings <;>
      cases hf : settings.final <;> simp [h0]
  refine ⟨?_, ?_, ?_, ?_, rfl, ?_⟩
  · intro c hc
    rw [hform] at hc
    by_cases hcond : 0 ≤ data.settings.cnch_merge_expected_parts_number ∧
        effectiveAggressive data settings = false ∧ settings.final = false
    swap
    · rw [if_neg hcond] at hc
      exact absurd hc (by simp)
    rw [if_pos hcond] at hc
    cases hst : ext.getOrCreateTableStats with
    | none => simp [hst] at hc
    | some stats =>
      simp only [hst] at hc
      by_cases hpos : 0 < (if data.settings.cnch_merge_expected_parts_number = 0
          then toInt64 settings.num_default_workers
          else data.settings.cnch_merge_expected_parts_number)
      · rw [if_pos hpos] at hc
        simp only [Option.some.injEq] at hc
        subst hc
        refine ⟨hcond.1, hcond.2.1, hcond.2.2, by simp, hpos, ?_, ?_⟩
        · intro h0
          simp [ne_of_gt h0]
        · intro h0
          simp only [h0, if_true] at hpos ⊢
          exact toInt64_of_lt hworkers hpos
      · rw [if_neg hpos] at hc
        exact absurd hc (by simp)
  · intro hnone
    rw [hform, hnone]
    by_cases hcond : 0 ≤ data.settings.cnch_merge_expected_parts_number ∧
        effectiveAggressive data settings = false ∧ settings.final = false
    · rw [if_pos hcond]
    · rw [if_neg hcond]
  · intro hle
    rw [hform]
    by_cases hcond : 0 ≤ data.settings.cnch_merge_expected_parts_number ∧
        effectiveAggressive data settings = false ∧ settings.final = false
    · rw [if_pos hcond]
      cases ext.getOrCreateTableStats with
      | none => rfl
      | some stats =>
        simp only
        rw [if_neg (not_lt.2 hle)]
    · rw [if_neg hcond]
  · intro h0 ha hf hst hpos
    rw [hform, if_pos ⟨h0, ha, hf⟩]
    cases hs : ext.getOrCreateTableStats with
    | none => exact absurd hs hst
    | some stats =>
      simp only
      rw [if_pos hpos]
      rfl
  · obtain ⟨built, hb⟩ := buildPartsRanges_total ext data data_parts can_merge_callback
    exact ⟨_, selectPartsToMerge_eq ext data res data_parts unselectable_part_rows
      can_merge_callback settings built hb⟩

/-- Witness for C13: with a statistics object, a table value of 0 and one
default worker, a controller with expected part count 1 is attached. -/
theorem adaptive_controller_attachment_witness :
    Example.settings.num_default_workers < 2 ^ 64 ∧
    (makeAdaptiveController Example.extWithStats Example.adaptiveTable Example.settings [] []
      ).map (fun c => c.expected_parts_number) = some 1 ∧
    (makeAdaptiveController Example.ext Example.adaptiveTable Example.settings [] []) = none ∧
    ∃ out, selectPartsToMerge Example.extWithStats Example.adaptiveTable []
      [Example.p0a, Example.p0b] [] Example.acceptAll Example.settings = .ok out :=
  ⟨by decide, by decide, by decide,
    (adaptive_controller_attachment Example.extWithStats Example.adaptiveTable []
      [Example.p0a, Example.p0b] [] Example.acceptAll Example.settings [] (by decide)).2.2.2.2.2⟩

/-! ## Determinism -/

theorem chunksAux_fuel {α : Type} (n : Nat) (hn : 1 ≤ n) :
    ∀ (fuel : Nat) (l : List α), l.length ≤ fuel →
      chunksAux n fuel l = chunksAux n l.length l := by
  intro fuel
  induction fuel using Nat.strong_induction_on with
  | _ fuel ih =>
    intro l hl
    cases l with
    | nil => cases fuel <;> simp [chunksAux]
    | cons a tl =>
      cases fuel with
      | zero => simp at hl
      | succ f =>
        simp only [chunksAux, List.length_cons]
        have hd : ((a :: tl).drop n).length ≤ tl.length := by
          simp only [List.length_drop, List.length_cons]
          omega
        rw [ih f (Nat.lt_succ_self f) _ (le_trans hd (by simpa using hl)),
          ih tl.length (by simp at hl; omega) _ hd]

theorem chunksOf_nil {α : Type} (n : Nat) : chunksOf n ([] : List α) = [] := rfl

/-- Unfolding of `chunksOf`: the first `n` elements, then the chunks of the rest. -/
theorem chunksOf_cons {α : Type} (n : Nat) (hn : 1 ≤ n) (a : α) (tl : List α) :
    chunksOf n (a :: tl) = (a :: tl).take n :: chunksOf n ((a :: tl).drop n) := by
  unfold chunksOf
  simp only [List.length_cons, chunksAux]
  rw [chunksAux_fuel n hn tl.length]
  simp only [List.length_drop, List.length_cons]
  omega

theorem chunksOf_single {α : Type} (n : Nat) (hn : 1 ≤ n) (cur : List α) (hne : cur ≠ [])
    (hlen : cur.length ≤ n) : chunksOf n cur = [cur] := by
  cases cur with
  | nil => exact absurd rfl hne
  | cons a tl =>
    rw [chunksOf_cons n hn, List.take_of_length_le hlen, List.drop_of_length_le hlen,
      chunksOf_nil]

theorem chunksOf_full {α : Type} (n : Nat) (hn : 1 ≤ n) (cur rest : List α)
    (hlen : cur.length = n) : chunksOf n (cur ++ rest) = cur :: chunksOf n rest := by
  cases cur with
  | nil => simp at hlen; omega
  | cons a tl =>
    have h := chunksOf_cons n hn a (tl ++ rest)
    rw [List.cons_append, h, ← List.cons_append, ← hlen, List.take_left, List.drop_left]

/-- One iteration in strict mode with an all-accepting callback, inside a
partition frame: the part joins the last range, or starts a new one when the
last range is full. -/
theorem scanPart_within (ext : Externals) (n : Nat) (cm : ServerCanMergeCallback)
    (hcm : ∀ o p, cm o p = true) (init : PartsRanges) (b : PartsRange) (hb : b ≠ [])
    (c : Nat) (lastp p : ServerDataPart) :
    scanPart ext false n cm
        { parts_ranges := init ++ [b], parts_selected_precondition := c,
          prev_partition_id := some p.partition_id, prev_part := some lastp } p =
      .ok (if b.length < n then
          { parts_ranges := init ++ [b ++ [makePartInfo ext p]]
            parts_selected_precondition := c + 1
            prev_partition_id := some p.partition_id
            prev_part := some p }
        else
          { parts_ranges := init ++ [b] ++ [[makePartInfo ext p]]
            parts_selected_precondition := c + 1
            prev_partition_id := some p.partition_id
            prev_part := some p }) := by
  have hbe : b.isEmpty = false := by cases b <;> simp_all
  by_cases hlt : b.length < n
  · have hns : needSplit false n (init ++ [b]) = false := by
      simp [needSplit, List.getLast?_concat, hlt]
    simp [scanPart, openFrame, hns, checkAndAccept, hcm, acceptPart, pushToBack_concat, hlt,
      bind, Except.bind, pure, Except.pure]
  · have hns : needSplit false n (init ++ [b]) = true := by
      simp only [needSplit, List.getLast?_concat, Bool.not_false, Bool.true_and,
        decide_eq_true_eq]
      omega
    have hp := pushToBack_concat (init ++ [b]) [] (makePartInfo ext p)
    simp only [List.append_assoc, List.singleton_append, List.nil_append] at hp
    have hbk := back_concat (init ++ [b]) ([] : PartsRange)
    simp only [List.append_assoc, List.singleton_append] at hbk
    simp [scanPart, openFrame, hns, List.getLast?_concat, hbe, checkAndAccept, hcm, acceptPart,
      hbk, hp, hlt, bind, Except.bind, pure, Except.pure]

/-- One iteration in strict mode with an all-accepting callback at the start
of a run: the part opens a range of its own. -/
theorem scanPart_start (ext : Externals) (n : Nat) (cm : ServerCanMergeCallback)
    (hcm : ∀ o p, cm o p = true) (st : ScanState) (p : ServerDataPart)
    (hpid : st.prev_partition_id ≠ some p.partition_id)
    (hne : ∀ init, st.parts_ranges ≠ init ++ [[]]) :
    scanPart ext false n cm st p =
      .ok { parts_ranges := st.parts_ranges ++ [[makePartInfo ext p]]
            parts_selected_precondition := st.parts_selected_precondition + 1
            prev_partition_id := some p.partition_id
            prev_part := some p } := by
  have hopen := openFrame_opened false n st p
  have h1 : openFrame false n st p =
      { parts_ranges := st.parts_ranges ++ [[]]
        parts_selected_precondition := st.parts_selected_precondition
        prev_partition_id := some p.partition_id
        prev_part := none } := by
    generalize openFrame false n st p = st1 at hopen
    cases hopen with
    | kept hk _ => exact absurd hk hpid
    | fresh _ => rfl
    | reused init h => exact absurd h (hne init)
  have hp := pushToBack_concat st.parts_ranges [] (makePartInfo ext p)
  simp only [List.nil_append] at hp
  simp [scanPart, h1, checkAndAccept, hcm, back_concat, acceptPart, hp, bind, Except.bind,
    pure, Except.pure]

/-- Scan of the rest of a run in strict mode with an all-accepting callback,
starting with a non-empty open range `cur`. -/
theorem scan_within_run (ext : Externals) (n : Nat) (hn : 1 ≤ n) (cm : ServerCanMergeCallback)
    (hcm : ∀ o p, cm o p = true) (q : String) :
    ∀ (run : ServerDataPartsVector), (∀ x ∈ run, x.partition_id = q) →
      ∀ (init : PartsRanges) (cur : ServerDataPartsVector) (lastp : ServerDataPart) (c : Nat),
        cur ≠ [] → cur.length ≤ n →
        ∃ st, run.foldlM (scanPart ext false n cm)
            { parts_ranges := init ++ [cur.map (makePartInfo ext)]
              parts_selected_precondition := c
              prev_partition_id := some q
              prev_part := some lastp } = .ok st ∧
          st.parts_ranges =
            init ++ (chunksOf n (cur ++ run)).map (List.map (makePartInfo ext)) ∧
          st.parts_selected_precondition = c + run.length ∧
          st.prev_partition_id = some q ∧
          ∀ i, st.parts_ranges ≠ i ++ [[]] := by
  intro run
  induction run with
  | nil =>
    intro _ init cur lastp c hcur hlen
    refine ⟨_, rfl, ?_, rfl, rfl, ?_⟩
    · simp [chunksOf_single n hn cur hcur hlen]
    · intro i h
      have := (snoc_inj h).2
      simp only [List.map_eq_nil_iff] at this
      exact hcur this
  | cons p rest ih =>
    intro hq init cur lastp c hcur hlen
    have hp : p.partition_id = q := hq p (List.mem_cons_self _ _)
    have hrest : ∀ x ∈ rest, x.partition_id = q := fun x hx => hq x (List.mem_cons_of_mem _ hx)
    have hbne : cur.map (makePartInfo ext) ≠ [] := by simpa using hcur
    have hstep := scanPart_within ext n cm hcm init (cur.map (makePartInfo ext)) hbne c lastp p
    rw [hp] at hstep
    simp only [List.foldlM_cons, hstep, bind, Except.bind, List.length_map]
    by_cases hlt : cur.length < n
    · simp only [hlt, if_true]
      obtain ⟨st, h1, h2, h3, h4, h5⟩ := ih hrest init (cur ++ [p]) p (c + 1)
        (by simp) (by simp; omega)
      refine ⟨st, ?_, ?_, ?_, h4, h5⟩
      · simpa using h1
      · simpa using h2
      · simp only [h3, List.length_cons]; omega
    · simp only [hlt, if_false]
      have hfull : cur.length = n := by omega
      obtain ⟨st, h1, h2, h3, h4, h5⟩ := ih hrest (init ++ [cur.map (makePartInfo ext)]) [p] p
        (c + 1) (by simp) (by simpa using hn)
      refine ⟨st, ?_, ?_, ?_, h4, h5⟩
      · simpa using h1
      · rw [h2, chunksOf_full n hn cur (p :: rest) hfull]
        simp
      · simp only [h3, List.length_cons]; omega

/-- Scan of a whole run in strict mode with an all-accepting callback, from a
state whose last range is not empty and whose partition id is another one. -/
theorem scan_run (ext : Externals) (n : Nat) (hn : 1 ≤ n) (cm : ServerCanMergeCallback)
    (hcm : ∀ o p, cm o p = true) (p : ServerDataPart) (rest : ServerDataPartsVector)
    (hq : ∀ x ∈ rest, x.partition_id = p.partition_id) (st : ScanState)
    (hpid : st.prev_partition_id ≠ some p.partition_id)
    (hne : ∀ init, st.parts_ranges ≠ init ++ [[]]) :
    ∃ st2, (p :: rest).foldlM (scanPart ext false n cm) st = .ok st2 ∧
      st2.parts_ranges =
        st.parts_ranges ++ (chunksOf n (p :: rest)).map (List.map (makePartInfo ext)) ∧
      st2.parts_selected_precondition = st.parts_selected_precondition + (p :: rest).length ∧
      st2.prev_partition_id = some p.partition_id ∧
      ∀ i, st2.parts_ranges ≠ i ++ [[]] := by
  have hstart := scanPart_start ext n cm hcm st p hpid hne
  obtain ⟨st2, h1, h2, h3, h4, h5⟩ := scan_within_run ext n hn cm hcm p.partition_id rest hq
    st.parts_ranges [p] p (st.parts_selected_precondition + 1) (by simp) (by simpa using hn)
  refine ⟨st2, ?_, ?_, ?_, h4, h5⟩
  · simp only [List.foldlM_cons, hstart, bind, Except.bind]
    simpa using h1
  · simpa using h2
  · simp only [h3, List.length_cons]; omega

/-- The runs of `partitionRuns` are maximal runs and concatenate to the input. -/
theorem partitionRuns_ok :
    ∀ ps : ServerDataPartsVector, RunsOK (partitionRuns ps) ∧ (partitionRuns ps).flatten = ps := by
  intro ps
  induction ps with
  | nil => exact ⟨trivial, rfl⟩
  | cons p ps ih =>
    obtain ⟨hok, hflat⟩ := ih
    cases h : partitionRuns ps with
    | nil =>
      rw [h] at hflat
      simp only [List.flatten_nil] at hflat
      subst hflat
      simp only [partitionRuns, h]
      exact ⟨⟨⟨p, [], rfl, by simp, by simp⟩, trivial⟩, rfl⟩
    | cons run runs =>
      rw [h] at hok hflat
      obtain ⟨⟨q, rest, rfl, hrest, hnext⟩, hruns⟩ := hok
      simp only [partitionRuns, h]
      by_cases hpq : p.partition_id = q.partition_id
      · simp only [hpq, if_true]
        refine ⟨⟨⟨p, q :: rest, rfl, ?_, ?_⟩, hruns⟩, ?_⟩
        · intro x hx
          rcases List.mem_cons.1 hx with rfl | hx
          · exact hpq.symm
          · rw [hrest x hx, hpq]
        · intro p2 rest2 tl htl
          rw [hpq]
          exact hnext p2 rest2 tl htl
        · rw [← hflat]
          simp
      · simp only [hpq, if_false]
        refine ⟨⟨⟨p, [], rfl, by simp, ?_⟩, ⟨q, rest, rfl, hrest, hnext⟩, hruns⟩, ?_⟩
        · intro p2 rest2 tl htl
          simp only [List.cons.injEq] at htl
          obtain ⟨⟨rfl, _⟩, _⟩ := htl
          exact hpq
        · rw [← hflat]
          simp

/-- Scan of a list of maximal runs in strict mode with an all-accepting
callback. -/
theorem scan_runs (ext : Externals) (n : Nat) (hn : 1 ≤ n) (cm : ServerCanMergeCallback)
    (hcm : ∀ o p, cm o p = true) :
    ∀ runs : List ServerDataPartsVector, RunsOK runs →
      ∀ st : ScanState,
        (∀ p rest tl, runs = (p :: rest) :: tl →
          st.prev_partition_id ≠ some p.partition_id) →
        (∀ init, st.parts_ranges ≠ init ++ [[]]) →
        ∃ st2, runs.flatten.foldlM (scanPart ext false n cm) st = .ok st2 ∧
          st2.parts_ranges = st.parts_ranges ++
            ((runs.map (chunksOf n)).flatten).map (List.map (makePartInfo ext)) ∧
          st2.parts_selected_precondition =
            st.parts_selected_precondition + runs.flatten.length := by
  intro runs
  induction runs with
  | nil =>
    intro _ st _ _
    exact ⟨st, rfl, by simp, by simp⟩
  | cons run runs ih =>
    intro hok st hpid hne
    obtain ⟨⟨p, rest, rfl, hrest, hnext⟩, hruns⟩ := hok
    obtain ⟨st1, h1, h2, h3, h4, h5⟩ := scan_run ext n hn cm hcm p rest hrest st
      (hpid p rest runs rfl) hne
    obtain ⟨st2, k1, k2, k3⟩ := ih hruns st1
      (by
        intro p2 rest2 tl htl
        rw [h4]
        intro h
        simp only [Option.some.injEq] at h
        exact hnext p2 rest2 tl htl h)
      h5
    refine ⟨st2, ?_, ?_, ?_⟩
    · rw [List.flatten_cons, List.foldlM_append, h1]
      exact k1
    · rw [k2, h2]
      simp
    · rw [k3, h3]
      simp only [List.flatten_cons, List.length_append]
      omega

/-- A table that is not bucketed scans, in strict mode, the input list as its
only frame. -/
theorem allFrames_strict (ext : Externals) (data : MergeTreeMetaBase)
    (data_parts : ServerDataPartsVector) (hbucket : data.isBucketTable = false)
    (hstrict : data.settings.cnch_merge_select_nonadjacent_parts = false) :
    allFrames ext data data_parts = [data_parts] := by
  have hperm := ext.bucketIteration.order_perm [((0 : Int), data_parts)]
  rw [List.perm_singleton] at hperm
  simp [allFrames, makeBuckets, hbucket, hstrict, framesOfBucket, hperm]

/-- The candidate ranges of a strict, non-bucketed table when the callback
accepts everything. -/
theorem buildPartsRanges_strict_accepting (ext : Externals) (data : MergeTreeMetaBase)
    (data_parts : ServerDataPartsVector) (cm : ServerCanMergeCallback)
    (hbucket : data.isBucketTable = false)
    (hstrict : data.settings.cnch_merge_select_nonadjacent_parts = false)
    (hn : 1 ≤ maxPartsToBreak data) (hcm : ∀ o p, cm o p = true) :
    buildPartsRanges ext data data_parts cm =
      .ok ((((partitionRuns data_parts).map (chunksOf (maxPartsToBreak data))).flatten).map
        (List.map (makePartInfo ext)), data_parts.length) := by
  obtain ⟨hok, hflat⟩ := partitionRuns_ok data_parts
  obtain ⟨st2, h1, h2, h3⟩ := scan_runs ext (maxPartsToBreak data) hn cm hcm
    (partitionRuns data_parts) hok
    { parts_ranges := [], parts_selected_precondition := 0,
      prev_partition_id := none, prev_part := none }
    (by simp) (by simp)
  rw [hflat] at h1 h3
  simp only [List.nil_append, Nat.zero_add] at h2 h3
  simp only [buildPartsRanges, allFrames_strict ext data data_parts hbucket hstrict, hstrict,
    List.foldlM_cons, List.foldlM_nil, scanFrame, h1, bind, Except.bind, pure, Except.pure,
    h2, h3]

/-- Claim C15: in strict mode on a non-bucketed table with
`max_parts_to_break ≥ 1` and a callback that accepts every solo part and
every pair, the candidate ranges are exactly the maximal runs of consecutive
input parts with equal partition id (`partitionRuns`), each run cut in input
order into chunks of `max_parts_to_break` parts (`chunksOf`), and the counter
is the number of input parts.  In particular three parts of one partition
with `max_parts_to_break ≥ 3` give one candidate range holding all three in
input order, and if the selector returns that range the result is `SELECTED`
with that one range appended. -/
theorem strict_accepting_candidate_ranges (ext : Externals) (data : MergeTreeMetaBase)
    (res : List ServerDataPartsVector) (data_parts : ServerDataPartsVector)
    (unselectable_part_rows : List (String × (Nat × Nat)))
    (can_merge_callback : ServerCanMergeCallback) (settings : SelectPartsToMergeSettings)
    (hbucket : data.isBucketTable = false)
    (hstrict : data.settings.cnch_merge_select_nonadjacent_parts = false)
    (hbreak : 1 ≤ maxPartsToBreak data)
    (haccept : ∀ prev part, can_merge_callback prev part = true) :
    buildPartsRanges ext data data_parts can_merge_callback =
      .ok ((((partitionRuns data_parts).map (chunksOf (maxPartsToBreak data))).flatten).map
        (List.map (makePartInfo ext)), data_parts.length) ∧
    RunsOK (partitionRuns data_parts) ∧
    (partitionRuns data_parts).flatten = data_parts ∧
    ∀ a b c, data_parts = [a, b, c] → a.partition_id = b.partition_id →
      b.partition_id = c.partition_id → 3 ≤ maxPartsToBreak data →
      buildPartsRanges ext data data_parts can_merge_callback =
        .ok ([[makePartInfo ext a, makePartInfo ext b, makePartInfo ext c]], 3) ∧
      (selectedRanges ext data unselectable_part_rows settings
          [[makePartInfo ext a, makePartInfo ext b, makePartInfo ext c]] =
          [[makePartInfo ext a, makePartInfo ext b, makePartInfo ext c]] →
        selectPartsToMerge ext data res data_parts unselectable_part_rows
          can_merge_callback settings = .ok (.SELECTED, res ++ [[a, b, c]])) := by
  have hmain := buildPartsRanges_strict_accepting ext data data_parts can_merge_callback
    hbucket hstrict hbreak haccept
  refine ⟨hmain, (partitionRuns_ok data_parts).1, (partitionRuns_ok data_parts).2, ?_⟩
  intro a b c hparts hab hbc h3
  subst hparts
  have hruns : partitionRuns [a, b, c] = [[a, b, c]] := by
    simp [partitionRuns, hab, hbc]
  have hchunk : chunksOf (maxPartsToBreak data) [a, b, c] = [[a, b, c]] :=
    chunksOf_single _ hbreak _ (by simp) (by simpa using h3)
  have hb : buildPartsRanges ext data [a, b, c] can_merge_callback =
      .ok ([[makePartInfo ext a, makePartInfo ext b, makePartInfo ext c]], 3) := by
    rw [hmain, hruns]
    simp [hchunk]
  refine ⟨hb, ?_⟩
  intro hsel
  rw [selectPartsToMerge_eq ext data res [a, b, c] unselectable_part_rows can_merge_callback
    settings _ hb]
  simp [hsel, postProcess, isRejectedSingleton, materialize, hstrict]

/-- Witness for C15: the three parts of partition `P0` (10 bytes each)
followed by a part of partition `P1`, with `max_parts_to_break` 2 and then
the three parts alone with `max_parts_to_break` 10. -/
theorem strict_accepting_candidate_ranges_witness :
    ((partitionRuns [Example.p0a, Example.p0b, Example.p0c, Example.p1a]).map
      (chunksOf 2)).flatten =
      [[Example.p0a, Example.p0b], [Example.p0c], [Example.p1a]] ∧
    buildPartsRanges Example.ext (Example.table false 2 false 0)
      [Example.p0a, Example.p0b, Example.p0c, Example.p1a] Example.acceptAll =
      .ok ([[makePartInfo Example.ext Example.p0a, makePartInfo Example.ext Example.p0b],
        [makePartInfo Example.ext Example.p0c], [makePartInfo Example.ext Example.p1a]], 4) ∧
    selectPartsToMerge Example.ext (Example.table false 10 false 0) []
      [Example.p0a, Example.p0b, Example.p0c] [] Example.acceptAll Example.settings =
      .ok (.SELECTED, [] ++ [[Example.p0a, Example.p0b, Example.p0c]]) :=
  ⟨by decide, by decide,
    ((strict_accepting_candidate_ranges Example.ext (Example.table false 10 false 0) []
      [Example.p0a, Example.p0b, Example.p0c] [] Example.acceptAll Example.settings rfl rfl
      (by decide) (fun _ _ => rfl)).2.2.2 Example.p0a Example.p0b Example.p0c rfl rfl rfl
      (by decide)).2 rfl⟩

/-! ## Part records, post-processing order and defensive checks -/

theorem walkChain_eq (toSecond : Nat → Int) :
    ∀ (p : ServerDataPart) (depth size : Nat) (t : Int),
      walkChain toSecond p (depth, size, t) =
        (depth + 1 + p.previousParts.length,
          (size + p.model.size + (p.previousParts.map fun q => q.model.size).sum) % 2 ^ 64,
          toSecond p.basePart.model.commit_time) := by
  intro p
  induction p with
  | base m =>
    intro depth size t
    simp [walkChain, ServerDataPart.previousParts, ServerDataPart.basePart,
      ServerDataPart.model]
  | chained m prev ih =>
    intro depth size t
    simp only [walkChain, ih, ServerDataPart.previousParts, ServerDataPart.basePart,
      ServerDataPart.model, List.length_cons, List.map_cons, List.sum_cons, Prod.mk.injEq,
      and_true]
    refine ⟨by omega, ?_⟩
    rw [Nat.add_assoc ((size + m.size) % 2 ^ 64), Nat.add_mod, Nat.mod_mod, ← Nat.add_mod]

/-- The record built for an accepted part, in terms of its version chain. -/
theorem makePartInfo_eq (ext : Externals) (part : ServerDataPart) :
    makePartInfo ext part =
      { size := (part.model.size + (part.previousParts.map fun q => q.model.size).sum) % 2 ^ 64
        rows := part.model.rows_count
        age := max 0 (ext.current_time - ext.toSecond part.basePart.model.commit_time)
        level := part.model.level
        chain_depth := part.previousParts.length
        data := part
        shall_participate_in_merges := true } := by
  have hage : ∀ t : Int, (if ext.current_time > t then ext.current_time - t else 0) =
      max 0 (ext.current_time - t) := by
    intro t
    split_ifs with h
    · rw [max_eq_right]; omega
    · rw [max_eq_left]; omega
  cases part with
  | base m =>
    simp [makePartInfo, ServerDataPart.tryGetPreviousPart, ServerDataPart.previousParts,
      ServerDataPart.basePart, ServerDataPart.model, hage]
  | chained m prev =>
    simp only [makePartInfo, ServerDataPart.tryGetPreviousPart, walkChain_eq,
      ServerDataPart.previousParts, ServerDataPart.basePart, ServerDataPart.model, hage,
      List.length_cons, List.map_cons, List.sum_cons, SelectorPart.mk.injEq, and_true,
      true_and]
    refine ⟨?_, by omega⟩
    rw [Nat.add_assoc (m.size % 2 ^ 64), Nat.add_mod, Nat.mod_mod, ← Nat.add_mod]

/-- Every record of a candidate range is the record built for its part. -/
theorem buildPartsRanges_records (ext : Externals) (data : MergeTreeMetaBase)
    (data_parts : ServerDataPartsVector) (cm : ServerCanMergeCallback) :
    ∃ built, buildPartsRanges ext data data_parts cm = .ok built ∧
      ∀ r ∈ built.1, ∀ x ∈ r, x = makePartInfo ext x.data := by
  refine buildPartsRanges_induction ext data data_parts cm
    (fun acc => ∀ r ∈ acc.1, ∀ x ∈ r, x = makePartInfo ext x.data)
    (fun _ st => ∀ r ∈ st.parts_ranges, ∀ x ∈ r, x = makePartInfo ext x.data)
    (by simp) (fun _ _ _ h => h) ?_ (fun _ _ _ h => h)
  intro frame _ part _ st st1 st2 _ hI hopen _ hout
  have h1 : ∀ r ∈ st1.parts_ranges, ∀ x ∈ r, x = makePartInfo ext x.data := by
    cases hopen with
    | kept _ _ => exact hI
    | fresh _ =>
      intro r hr
      rcases List.mem_append.1 hr with hr | hr
      · exact hI r hr
      · simp only [List.mem_singleton] at hr
        subst hr
        simp
    | reused init h => intro r hr; exact hI r (h ▸ hr)
  cases hout with
  | skipped _ _ => exact h1
  | started init b hrs _ _ =>
    intro r hr
    simp only [List.mem_append, List.mem_singleton] at hr
    rcases hr with hr | rfl
    · apply h1 r
      rw [hrs]
      split_ifs at hr
      · exact List.mem_append_left _ hr
      · simpa using hr
    · simp
  | extended init b prev hrs _ _ =>
    intro r hr
    simp only [List.mem_append, List.mem_singleton] at hr
    rcases hr with hr | rfl
    · exact h1 r (by rw [hrs]; exact List.mem_append_left _ hr)
    · intro x hx
      rcases List.mem_append.1 hx with hx | hx
      · exact h1 _ (by rw [hrs]; simp) x hx
      · simp only [List.mem_singleton] at hx
        subst hx
        rfl

/-- Counterexample to C16 as stated: a part of `2^63` bytes whose only
previous version has `2^63` bytes too.  Its own size plus the sizes of the
previous parts of its chain is `2^64`, but the record given to the selector
has size 0: the `size_t` field `size` wraps around in the addition of
line 163. -/
theorem chain_size_wraps :
    Example.hugeChain.model.size +
      (Example.hugeChain.previousParts.map fun q => q.model.size).sum = 2 ^ 64 ∧
    (makePartInfo Example.ext Example.hugeChain).size = 0 ∧
    buildPartsRanges Example.ext (Example.table false 10 false 0) [Example.hugeChain]
      Example.acceptAll = .ok ([[makePartInfo Example.ext Example.hugeChain]], 1) := by
  decide

/-- Claim C16, amended: the chain walk of lines 160-166 is a total function
of the (finite) version chain, and the record given to the selector for an
accepted part has size = own size plus the sizes of all previous parts,
modulo `2^64` (so the sum itself when it is below `2^64`), chain_depth =
number of previous parts, age = max(0, now - commit time in seconds of the
base part of the chain, which is the part itself when it has no previous
part), rows and level of the part itself; every record of every candidate
range is this record of its part. -/
theorem part_record_of_chain (ext : Externals) (data : MergeTreeMetaBase)
    (data_parts : ServerDataPartsVector) (can_merge_callback : ServerCanMergeCallback) :
    (∀ part : ServerDataPart,
      (makePartInfo ext part).size =
        (part.model.size + (part.previousParts.map fun q => q.model.size).sum) % 2 ^ 64 ∧
      (part.model.size + (part.previousParts.map fun q => q.model.size).sum < 2 ^ 64 →
        (makePartInfo ext part).size =
          part.model.size + (part.previousParts.map fun q => q.model.size).sum) ∧
      (makePartInfo ext part).chain_depth = part.previousParts.length ∧
      (makePartInfo ext part).age =
        max 0 (ext.current_time - ext.toSecond part.basePart.model.commit_time) ∧
      (makePartInfo ext part).rows = part.model.rows_count ∧
      (makePartInfo ext part).level = part.model.level ∧
      (makePartInfo ext part).data = part ∧
      (part.tryGetPreviousPart = none → part.basePart = part)) ∧
    ∃ built, buildPartsRanges ext data data_parts can_merge_callback = .ok built ∧
      ∀ r ∈ built.1, ∀ x ∈ r, x = makePartInfo ext x.data := by
  refine ⟨?_, buildPartsRanges_records ext data data_parts can_merge_callback⟩
  intro part
  rw [makePartInfo_eq]
  refine ⟨rfl, fun h => Nat.mod_eq_of_lt h, rfl, rfl, rfl, rfl, rfl, ?_⟩
  cases part with
  | base m => intro _; rfl
  | chained m prev => intro h; simp [ServerDataPart.tryGetPreviousPart] at h

/-- Witness for the amended C16: the part of 10 bytes with previous versions
of 20 and 30 bytes gets a record of size 60 and chain depth 2. -/
theorem part_record_of_chain_witness :
    Example.chainedPart.model.size +
      (Example.chainedPart.previousParts.map fun q => q.model.size).sum < 2 ^ 64 ∧
    (makePartInfo Example.ext Example.chainedPart).size = 60 ∧
    (makePartInfo Example.ext Example.chainedPart).chain_depth = 2 :=
  ⟨by decide,
    ((part_record_of_chain Example.ext (Example.table false 10 false 0) [Example.chainedPart]
      Example.acceptAll).1 Example.chainedPart).2.1 (by decide),
    by decide⟩

theorem isRejectedSingleton_eq (range : PartsRange) :
    isRejectedSingleton range =
      (decide (range.length = 1) && range.all fun sp => decide (sp.chain_depth = 0)) := by
  cases range with
  | nil => rfl
  | cons a tl =>
    cases tl with
    | nil => simp [isRejectedSingleton]
    | cons b tl2 => simp [isRejectedSingleton]

/-- Claim C17: post-processing drops nothing but invalid singletons.  The
planner always returns; when the selector is invoked (the counter is not 0)
and returns a non-empty list, the decision is `SELECTED` and the ranges
appended to `res` are, in the selector's order, the materialisations of
exactly the returned ranges that are not (length 1 with `chain_depth = 0`);
in strict mode a materialised range lists the parts in the selector's order;
in particular a returned singleton with `chain_depth > 0` is appended. -/
theorem postProcess_keeps_all_but_plain_singletons (ext : Externals)
    (data : MergeTreeMetaBase) (res : List ServerDataPartsVector)
    (data_parts : ServerDataPartsVector)
    (unselectable_part_rows : List (String × (Nat × Nat)))
    (can_merge_callback : ServerCanMergeCallback) (settings : SelectPartsToMergeSettings) :
    ∃ built, buildPartsRanges ext data data_parts can_merge_callback = .ok built ∧
      (data_parts ≠ [] → built.2 ≠ 0 →
        selectedRanges ext data unselectable_part_rows settings built.1 ≠ [] →
        selectPartsToMerge ext data res data_parts unselectable_part_rows can_merge_callback
          settings =
        .ok (.SELECTED, res ++
          ((selectedRanges ext data unselectable_part_rows settings built.1).filter
            fun range => !(decide (range.length = 1) &&
              range.all fun sp => decide (sp.chain_depth = 0))).map
            (materialize ext data)) ∧
        ∀ sp, [sp] ∈ selectedRanges ext data unselectable_part_rows settings built.1 →
          0 < sp.chain_depth →
          ∃ appended, selectPartsToMerge ext data res data_parts unselectable_part_rows
              can_merge_callback settings = .ok (.SELECTED, res ++ appended) ∧
            [sp.data] ∈ appended) ∧
      (data.settings.cnch_merge_select_nonadjacent_parts = false →
        ∀ range, materialize ext data range = range.map fun sp => sp.data) := by
  obtain ⟨built, hb⟩ := buildPartsRanges_total ext data data_parts can_merge_callback
  refine ⟨built, hb, ?_, ?_⟩
  · intro hne hcount hsel
    have heq : selectPartsToMerge ext data res data_parts unselectable_part_rows
        can_merge_callback settings =
        .ok (.SELECTED, res ++
          ((selectedRanges ext data unselectable_part_rows settings built.1).filter
            fun range => !(decide (range.length = 1) &&
              range.all fun sp => decide (sp.chain_depth = 0))).map
            (materialize ext data)) := by
      rw [selectPartsToMerge_eq ext data res data_parts unselectable_part_rows
        can_merge_callback settings built hb, if_neg hne, if_neg hcount, if_neg hsel,
        postProcess_eq]
      simp only [isRejectedSingleton_eq]
    refine ⟨heq, ?_⟩
    intro sp hsp hdepth
    refine ⟨_, heq, ?_⟩
    simp only [List.mem_map, List.mem_filter]
    refine ⟨[sp], ⟨hsp, ?_⟩, ?_⟩
    · simp [Nat.pos_iff_ne_zero.1 hdepth]
    · unfold materialize sortParts
      split_ifs <;> simp
  · intro hstrict range
    simp [materialize, hstrict]

/-- Evaluation for C17: a part with two previous versions, alone in its
partition, aggressive mode on, the selector returning the candidate range
whole: the singleton has `chain_depth = 2`, it is kept and the decision is
`SELECTED`. -/
theorem postProcess_keeps_all_but_plain_singletons_witness :
    (makePartInfo Example.ext Example.chainedPart).chain_depth = 2 ∧
    selectPartsToMerge Example.ext (Example.table false 10 false 0) [] [Example.chainedPart] []
      Example.acceptAll { Example.settings with aggressive := true } =
      .ok (.SELECTED, [[Example.chainedPart]]) ∧
    ∃ built, buildPartsRanges Example.ext (Example.table false 10 false 0)
        [Example.chainedPart] Example.acceptAll = .ok built ∧
      ((Example.table false 10 false 0).settings.cnch_merge_select_nonadjacent_parts = false →
        ∀ range, materialize Example.ext (Example.table false 10 false 0) range =
          range.map fun sp => sp.data) := by
  obtain ⟨built, hb, _, h⟩ := postProcess_keeps_all_but_plain_singletons Example.ext
    (Example.table false 10 false 0) [] [Example.chainedPart] [] Example.acceptAll
    { Example.settings with aggressive := true }
  exact ⟨by decide, by decide, built, hb, h⟩

/-- Claim C18: with nonadjacent mode enabled the planner returns, and every
range appended to `res` is a permutation of the parts of the selector range
it came from and is sorted by the part comparator: no part of it is less
than a part that stands before it.  The comparator is assumed to be a strict
weak ordering, as `std::sort` requires. -/
theorem appended_ranges_sorted (ext : Externals) (data : MergeTreeMetaBase)
    (res : List ServerDataPartsVector) (data_parts : ServerDataPartsVector)
    (unselectable_part_rows : List (String × (Nat × Nat)))
    (can_merge_callback : ServerCanMergeCallback) (settings : SelectPartsToMergeSettings)
    (hnonadjacent : data.settings.cnch_merge_select_nonadjacent_parts = true)
    (hasymm : ∀ a b, ext.partLess a b = true → ext.partLess b a = false)
    (htrans : ∀ a b c, ext.partLess b a = false → ext.partLess c b = false →
      ext.partLess c a = false) :
    ∃ built d appended,
      buildPartsRanges ext data data_parts can_merge_callback = .ok built ∧
      selectPartsToMerge ext data res data_parts unselectable_part_rows can_merge_callback
        settings = .ok (d, res ++ appended) ∧
      ∀ r ∈ appended,
        (∃ s ∈ selectedRanges ext data unselectable_part_rows settings built.1,
          r.Perm (s.map fun sp => sp.data)) ∧
        r.Pairwise (fun a b => ext.partLess b a = false) := by
  obtain ⟨built, hb⟩ := buildPartsRanges_total ext data data_parts can_merge_callback
  obtain ⟨d, appended, hsel, happ⟩ := selectPartsToMerge_appended ext data res data_parts
    unselectable_part_rows can_merge_callback settings built hb
  refine ⟨built, d, appended, hb, hsel, ?_⟩
  intro r hr
  obtain ⟨s, hs, _, rfl⟩ := happ r hr
  have hm : materialize ext data s =
      (s.map fun sp => sp.data).insertionSort (fun a b => ext.partLess b a = false) := by
    simp [materialize, sortParts, hnonadjacent]
  rw [hm]
  refine ⟨⟨s, hs, List.perm_insertionSort _ _⟩, ?_⟩
  haveI : IsTotal ServerDataPart (fun a b => ext.partLess b a = false) :=
    ⟨fun a b => by
      cases h : ext.partLess b a with
      | false => exact Or.inl rfl
      | true => exact Or.inr (hasymm b a h)⟩
  haveI : IsTrans ServerDataPart (fun a b => ext.partLess b a = false) :=
    ⟨fun a b c hab hbc => htrans a b c hab hbc⟩
  exact List.sorted_insertionSort (fun a b => ext.partLess b a = false) _

theorem Example.partLess_asymm (a b : ServerDataPart) :
    Example.extBySize.partLess a b = true → Example.extBySize.partLess b a = false := by
  simp only [Example.extBySize, decide_eq_true_eq, decide_eq_false_iff_not]
  omega

theorem Example.partLess_trans (a b c : ServerDataPart) :
    Example.extBySize.partLess b a = false → Example.extBySize.partLess c b = false →
      Example.extBySize.partLess c a = false := by
  simp only [Example.extBySize, decide_eq_false_iff_not]
  omega

/-- Witness for C18: nonadjacent mode, two parts of one commit-time key given
in descending order of the comparator, the selector returning the candidate
range whole; the appended range is in ascending order. -/
theorem appended_ranges_sorted_witness :
    (Example.table true 10 false 0).settings.cnch_merge_select_nonadjacent_parts = true ∧
    selectPartsToMerge Example.extBySize (Example.table true 10 false 0) []
      [Example.p0big, Example.p0mid] [] Example.acceptAll Example.settings =
      .ok (.SELECTED, [[Example.p0mid, Example.p0big]]) ∧
    ∃ built d appended,
      buildPartsRanges Example.extBySize (Example.table true 10 false 0)
        [Example.p0big, Example.p0mid] Example.acceptAll = .ok built ∧
      selectPartsToMerge Example.extBySize (Example.table true 10 false 0) []
        [Example.p0big, Example.p0mid] [] Example.acceptAll Example.settings =
        .ok (d, [] ++ appended) ∧
      ∀ r ∈ appended,
        (∃ s ∈ selectedRanges Example.extBySize (Example.table true 10 false 0) []
            Example.settings built.1,
          r.Perm (s.map fun sp => sp.data)) ∧
        r.Pairwise (fun a b => Example.extBySize.partLess b a = false) :=
  ⟨rfl, by decide,
    appended_ranges_sorted Example.extBySize (Example.table true 10 false 0) []
      [Example.p0big, Example.p0mid] [] Example.acceptAll Example.settings rfl
      Example.partLess_asymm Example.partLess_trans⟩

/-- Claim C20: the defensive checks of the range builder never fail.  The
builder returns for every input, mode and callback; and at every point of the
scan of a frame (the parts `pre` of the frame have been scanned, `part` is
next, whatever ranges and counter the frame started with) the scan so far has
not failed, after lines 107-115 the list of ranges is non-empty, the rest of
the iteration does not fail (so no `back()` is taken of an empty list and the
assertion holds), and when `prev_part` is non-null, that is whenever
`canMerge(prev, part)` is evaluated, the last range is non-empty and its last
element is the record of `prev`. -/
theorem range_builder_checks_hold (ext : Externals) (data : MergeTreeMetaBase)
    (data_parts : ServerDataPartsVector) (can_merge_callback : ServerCanMergeCallback)
    (nonadjacent : Bool) (max_parts_to_break : Nat) (parts_ranges : PartsRanges)
    (parts_selected_precondition : Nat) (pre : ServerDataPartsVector)
    (part : ServerDataPart) :
    (∃ built, buildPartsRanges ext data data_parts can_merge_callback = .ok built) ∧
    ∃ st, pre.foldlM (scanPart ext nonadjacent max_parts_to_break can_merge_callback)
        { parts_ranges := parts_ranges
          parts_selected_precondition := parts_selected_precondition
          prev_partition_id := none
          prev_part := none } = .ok st ∧
      (openFrame nonadjacent max_parts_to_break st part).parts_ranges ≠ [] ∧
      (∃ st2, checkAndAccept ext can_merge_callback
        (openFrame nonadjacent max_parts_to_break st part) part = .ok st2) ∧
      ∀ prev, (openFrame nonadjacent max_parts_to_break st part).prev_part = some prev →
        ∃ init b, (openFrame nonadjacent max_parts_to_break st part).parts_ranges =
            init ++ [b ++ [makePartInfo ext prev]] ∧
          back (openFrame nonadjacent max_parts_to_break st part).parts_ranges =
            .ok (b ++ [makePartInfo ext prev]) ∧
          b ++ [makePartInfo ext prev] ≠ [] := by
  refine ⟨buildPartsRanges_total ext data data_parts can_merge_callback, ?_⟩
  obtain ⟨st, hrun, hwf, _⟩ := scanParts_induction ext nonadjacent max_parts_to_break
    can_merge_callback (fun _ => True) pre (fun _ _ _ _ _ _ _ _ _ _ => trivial)
    { parts_ranges := parts_ranges
      parts_selected_precondition := parts_selected_precondition
      prev_partition_id := none
      prev_part := none } ⟨by simp, by simp⟩ trivial
  have hopen := openFrame_opened nonadjacent max_parts_to_break st part
  obtain ⟨hwf1, hne⟩ := hopen.opened_wf hwf
  obtain ⟨st2, h2, _⟩ := checkAndAccept_outcome ext can_merge_callback _ part hwf1 hne
  refine ⟨st, hrun, hne, ⟨st2, h2⟩, ?_⟩
  intro prev hprev
  obtain ⟨_, init, b, hb⟩ := hwf1.2 prev hprev
  exact ⟨init, b, hb, by rw [hb, back_concat], by simp⟩


/-! ## Invariants at every point of the scan -/

theorem rangesCounted_snoc (init : PartsRanges) (b : PartsRange) (counter : Nat) :
    RangesCounted (init ++ [b]) counter ↔
      (∀ r ∈ init, r ≠ []) ∧ counter = (init.map List.length).sum + b.length := by
  simp [RangesCounted, List.dropLast_concat]

theorem rangesCounted_opened {nonadjacent : Bool} {max_parts_to_break : Nat}
    {part : ServerDataPart} {st st1 : ScanState}
    (h : Opened nonadjacent max_parts_to_break part st st1)
    (hI : RangesCounted st.parts_ranges st.parts_selected_precondition) :
    RangesCounted st1.parts_ranges st1.parts_selected_precondition := by
  cases h with
  | kept _ _ => exact hI
  | fresh hfr =>
    rw [rangesCounted_snoc]
    refine ⟨?_, by simpa using hI.2⟩
    intro r hr
    rcases List.eq_nil_or_concat st.parts_ranges with hnil | ⟨i0, b0, h0⟩
    · rw [hnil] at hr
      simp at hr
    · rw [List.concat_eq_append] at h0
      rw [h0] at hr hI
      rw [rangesCounted_snoc] at hI
      rcases List.mem_append.1 hr with hr | hr
      · exact hI.1 r hr
      · simp only [List.mem_singleton] at hr
        subst hr
        intro hre
        exact hfr i0 (by rw [h0, hre])
  | reused init h =>
    simp only
    rw [← h]
    exact hI

theorem rangesCounted_outcome {ext : Externals} {cm : ServerCanMergeCallback}
    {part : ServerDataPart} {st1 st2 : ScanState} (h : Outcome ext cm part st1 st2)
    (hI : RangesCounted st1.parts_ranges st1.parts_selected_precondition) :
    RangesCounted st2.parts_ranges st2.parts_selected_precondition := by
  cases h with
  | skipped _ _ => exact hI
  | started init b hrs _ _ =>
    rw [hrs, rangesCounted_snoc] at hI
    simp only
    rw [rangesCounted_snoc]
    by_cases hb : b = []
    · subst hb
      simp only [if_true]
      refine ⟨hI.1, ?_⟩
      simp only [List.length_singleton, List.length_nil, Nat.add_zero] at hI ⊢
      omega
    · simp only [hb, if_false]
      refine ⟨?_, ?_⟩
      · intro r hr
        rcases List.mem_append.1 hr with hr | hr
        · exact hI.1 r hr
        · simp only [List.mem_singleton] at hr
          subst hr
          exact hb
      · simp only [List.map_append, List.map_cons, List.map_nil, List.sum_append,
          List.sum_cons, List.sum_nil, List.length_singleton]
        omega
  | extended init b prev hrs _ _ =>
    rw [hrs, rangesCounted_snoc] at hI
    simp only
    rw [rangesCounted_snoc]
    refine ⟨hI.1, ?_⟩
    simp only [List.length_append, List.length_singleton] at hI ⊢
    omega

/-- Induction over a list of frames scanned one after the other. -/
theorem scanFrames_induction (ext : Externals) (nonadjacent : Bool) (max_parts_to_break : Nat)
    (cm : ServerCanMergeCallback) (I : ScanState → Prop)
    (hreset : ∀ st, I st →
      I { parts_ranges := st.parts_ranges
          parts_selected_precondition := st.parts_selected_precondition
          prev_partition_id := none
          prev_part := none })
    (hstep : ∀ part st st1 st2, st.WF ext → I st →
      Opened nonadjacent max_parts_to_break part st st1 → st1.WF ext →
      Outcome ext cm part st1 st2 → I st2) :
    ∀ (frames : List ServerDataPartsVector) (acc : PartsRanges × Nat),
      I { parts_ranges := acc.1, parts_selected_precondition := acc.2,
          prev_partition_id := none, prev_part := none } →
      ∃ acc2, frames.foldlM (scanFrame ext nonadjacent max_parts_to_break cm) acc = .ok acc2 ∧
        I { parts_ranges := acc2.1, parts_selected_precondition := acc2.2,
            prev_partition_id := none, prev_part := none } := by
  intro frames
  induction frames with
  | nil => intro acc h; exact ⟨acc, rfl, h⟩
  | cons frame rest ih =>
    intro acc h
    obtain ⟨st2, hrun, _, hI2⟩ := scanParts_induction ext nonadjacent max_parts_to_break cm I
      frame (fun part _ => hstep part)
      { parts_ranges := acc.1, parts_selected_precondition := acc.2,
        prev_partition_id := none, prev_part := none } ⟨by simp, by simp⟩ h
    obtain ⟨acc2, hb, hJ⟩ := ih (st2.parts_ranges, st2.parts_selected_precondition)
      (hreset st2 hI2)
    refine ⟨acc2, ?_, hJ⟩
    simp [List.foldlM_cons, scanFrame, hrun, bind, Except.bind, pure, Except.pure, hb]

theorem rangesCounted_empty_last {ranges : PartsRanges} {counter : Nat}
    (h : RangesCounted ranges counter) :
    ranges.count [] ≤ 1 ∧ (([] : PartsRange) ∈ ranges → ranges.getLast? = some []) := by
  rcases List.eq_nil_or_concat ranges with hnil | ⟨init, b, h0⟩
  · subst hnil
    simp
  · rw [List.concat_eq_append] at h0
    subst h0
    rw [rangesCounted_snoc] at h
    have hc : init.count [] = 0 := by
      rw [List.count_eq_zero]
      intro hm
      exact h.1 [] hm rfl
    refine ⟨?_, ?_⟩
    · rw [List.count_append, hc]
      simp only [Nat.zero_add]
      exact List.count_le_length _ _
    · intro hm
      rw [List.getLast?_concat]
      rcases List.mem_append.1 hm with hm | hm
      · exact absurd rfl (h.1 [] hm)
      · simp only [List.mem_singleton] at hm
        rw [← hm]

/-- Claim C21: at every point of the range-building scan (any frames scanned
completely, then any parts `pre` of the next frame, before and after lines
107-115 for the next part) the scan has not failed, every range of the list
of candidate ranges except possibly the last one is non-empty, and the
counter equals the total number of records held in all ranges.  So the list
built for the input has these properties, and when it is handed to the
selector (the counter is not 0) it holds at least one part and at most one
empty range, which is then the last one. -/
theorem ranges_counted_everywhere (ext : Externals) (data : MergeTreeMetaBase)
    (data_parts : ServerDataPartsVector) (can_merge_callback : ServerCanMergeCallback)
    (nonadjacent : Bool) (max_parts_to_break : Nat) (frames : List ServerDataPartsVector)
    (pre : ServerDataPartsVector) (part : ServerDataPart) :
    (∃ acc st,
      frames.foldlM (scanFrame ext nonadjacent max_parts_to_break can_merge_callback)
        ([], 0) = .ok acc ∧
      pre.foldlM (scanPart ext nonadjacent max_parts_to_break can_merge_callback)
        { parts_ranges := acc.1, parts_selected_precondition := acc.2,
          prev_partition_id := none, prev_part := none } = .ok st ∧
      ((∀ r ∈ st.parts_ranges.dropLast, r ≠ []) ∧
        st.parts_selected_precondition = (st.parts_ranges.map List.length).sum) ∧
      ((∀ r ∈ (openFrame nonadjacent max_parts_to_break st part).parts_ranges.dropLast,
          r ≠ []) ∧
        (openFrame nonadjacent max_parts_to_break st part).parts_selected_precondition =
          ((openFrame nonadjacent max_parts_to_break st part).parts_ranges.map
            List.length).sum)) ∧
    ∃ built, buildPartsRanges ext data data_parts can_merge_callback = .ok built ∧
      (∀ r ∈ built.1.dropLast, r ≠ []) ∧
      built.2 = (built.1.map List.length).sum ∧
      built.1.count [] ≤ 1 ∧
      (([] : PartsRange) ∈ built.1 → built.1.getLast? = some []) ∧
      (built.2 ≠ 0 → 0 < (built.1.map List.length).sum ∧ ∃ r ∈ built.1, r ≠ []) := by
  have hframes : ∀ (na : Bool) (n : Nat) (fs : List ServerDataPartsVector),
      ∃ acc, fs.foldlM (scanFrame ext na n can_merge_callback) ([], 0) = .ok acc ∧
        RangesCounted acc.1 acc.2 := by
    intro na n fs
    exact scanFrames_induction ext na n can_merge_callback
      (fun st => RangesCounted st.parts_ranges st.parts_selected_precondition)
      (fun _ h => h)
      (fun _ _ _ _ _ hI hopen _ hout => rangesCounted_outcome hout (rangesCounted_opened hopen hI))
      fs ([], 0) ⟨by simp, by simp⟩
  refine ⟨?_, ?_⟩
  · obtain ⟨acc, hacc, hJ⟩ := hframes nonadjacent max_parts_to_break frames
    obtain ⟨st, hrun, _, hI⟩ := scanParts_induction ext nonadjacent max_parts_to_break
      can_merge_callback
      (fun st => RangesCounted st.parts_ranges st.parts_selected_precondition) pre
      (fun _ _ _ _ _ _ hI hopen _ hout =>
        rangesCounted_outcome hout (rangesCounted_opened hopen hI))
      { parts_ranges := acc.1, parts_selected_precondition := acc.2,
        prev_partition_id := none, prev_part := none } ⟨by simp, by simp⟩ hJ
    exact ⟨acc, st, hacc, hrun, hI,
      rangesCounted_opened (openFrame_opened nonadjacent max_parts_to_break st part) hI⟩
  · obtain ⟨built, hb, hJ⟩ := hframes data.settings.cnch_merge_select_nonadjacent_parts
      (maxPartsToBreak data) (allFrames ext data data_parts)
    refine ⟨built, hb, hJ.1, hJ.2, (rangesCounted_empty_last hJ).1,
      (rangesCounted_empty_last hJ).2, ?_⟩
    intro hne
    have hpos : 0 < (built.1.map List.length).sum := by
      rw [← hJ.2]
      exact Nat.pos_of_ne_zero hne
    refine ⟨hpos, ?_⟩
    by_contra hall
    have hz : ∀ r ∈ built.1, r = [] := by
      intro r hr
      by_contra hrne
      exact hall ⟨r, hr, hrne⟩
    have : (built.1.map List.length).sum = 0 := by
      apply List.sum_eq_zero
      intro n hn
      simp only [List.mem_map] at hn
      obtain ⟨r, hr, rfl⟩ := hn
      rw [hz r hr]
      rfl
    omega

/-! ## The parts held in the candidate ranges -/

theorem heldParts_snoc (init : PartsRanges) (b : PartsRange) :
    heldParts (init ++ [b]) = heldParts init ++ b.map fun sp => sp.data := by
  simp [heldParts]

theorem heldParts_opened {nonadjacent : Bool} {max_parts_to_break : Nat}
    {part : ServerDataPart} {st st1 : ScanState}
    (h : Opened nonadjacent max_parts_to_break part st st1) :
    heldParts st1.parts_ranges = heldParts st.parts_ranges := by
  cases h with
  | kept _ _ => rfl
  | fresh _ => simp [heldParts]
  | reused init h => simp only; rw [← h]

theorem heldParts_outcome {ext : Externals} {cm : ServerCanMergeCallback}
    {part : ServerDataPart} {st1 st2 : ScanState} (h : Outcome ext cm part st1 st2) :
    heldParts st2.parts_ranges =
      heldParts st1.parts_ranges ++ (if isLeftOut cm st1.prev_part part then [] else [part]) := by
  cases h with
  | skipped hn hp =>
    have : isLeftOut cm st1.prev_part part = true := by
      unfold isLeftOut
      cases hprev : st1.prev_part with
      | none => simp [hn]
      | some q => simp [hn, hp q hprev]
    simp [this]
  | started init b hrs hn _ =>
    have : isLeftOut cm st1.prev_part part = false := by simp [isLeftOut, hn]
    rw [this, hrs]
    by_cases hb : b = []
    · subst hb
      simp [heldParts]
    · simp [hb, heldParts]
  | extended init b prev hrs hprev hc =>
    have : isLeftOut cm st1.prev_part part = false := by simp [isLeftOut, hprev, hc]
    rw [this, hrs]
    simp [heldParts]

theorem prevPart_outcome {ext : Externals} {cm : ServerCanMergeCallback}
    {part : ServerDataPart} {st1 st2 : ScanState} (h : Outcome ext cm part st1 st2) :
    st2.prev_part = (if isLeftOut cm st1.prev_part part then none else some part) ∧
    st2.prev_partition_id = st1.prev_partition_id := by
  cases h with
  | skipped hn hp =>
    have : isLeftOut cm st1.prev_part part = true := by
      unfold isLeftOut
      cases hprev : st1.prev_part with
      | none => simp [hn]
      | some q => simp [hn, hp q hprev]
    simp [this]
  | started init b hrs hn _ =>
    have : isLeftOut cm st1.prev_part part = false := by simp [isLeftOut, hn]
    simp [this]
  | extended init b prev hrs hprev hc =>
    have : isLeftOut cm st1.prev_part part = false := by simp [isLeftOut, hprev, hc]
    simp [this]

/-- The state reached after any prefix `pre` of a frame scanned from an empty
list of ranges. -/
theorem scan_prefix_spec (ext : Externals) (nonadjacent : Bool) (max_parts_to_break : Nat)
    (cm : ServerCanMergeCallback) (pre : ServerDataPartsVector) :
    ∃ st, pre.foldlM (scanPart ext nonadjacent max_parts_to_break cm)
        { parts_ranges := [], parts_selected_precondition := 0,
          prev_partition_id := none, prev_part := none } = .ok st ∧
      st.WF ext ∧
      (∀ q, st.prev_part = some q →
        pre.getLast? = some q ∧ st.prev_partition_id = some q.partition_id) ∧
      (heldParts st.parts_ranges).Sublist pre ∧
      ((∀ p ∈ pre, cm none p = true) → heldParts st.parts_ranges = pre) := by
  induction pre using List.reverseRecOn with
  | nil =>
    exact ⟨_, rfl, ⟨by simp, by simp⟩, by simp, by simp [heldParts], by simp [heldParts]⟩
  | append_singleton pre p ih =>
    obtain ⟨st, hrun, hwf, _, hsub, hall⟩ := ih
    have hopen := openFrame_opened nonadjacent max_parts_to_break st p
    obtain ⟨hwf1, hne⟩ := hopen.opened_wf hwf
    obtain ⟨st2, h2, hout⟩ := checkAndAccept_outcome ext cm _ p hwf1 hne
    have hwf2 := hout.outcome_wf hwf1 (by simp [hopen.opened_partition_id])
    have hheld := heldParts_outcome hout
    rw [heldParts_opened hopen] at hheld
    refine ⟨st2, ?_, hwf2, ?_, ?_, ?_⟩
    · rw [List.foldlM_append, hrun]
      simp only [bind, Except.bind, List.foldlM_cons, List.foldlM_nil, scanPart, h2]
      rfl
    · intro q hq
      have hpid := hopen.opened_partition_id
      cases hout with
      | skipped _ _ => simp at hq
      | started init b _ _ _ =>
        simp only [Option.some.injEq] at hq
        subst hq
        exact ⟨by simp, hpid⟩
      | extended init b prev _ _ _ =>
        simp only [Option.some.injEq] at hq
        subst hq
        exact ⟨by simp, hpid⟩
    · rw [hheld]
      split_ifs
      · simpa using hsub.trans (List.sublist_append_left pre [p])
      · exact List.Sublist.append hsub (List.Sublist.refl _)
    · intro hsolo
      have hp : cm none p = true := hsolo p (by simp)
      have hpre := hall (fun x hx => hsolo x (List.mem_append_left _ hx))
      rw [hheld, hpre]
      simp [isLeftOut, hp]

theorem openFrame_prev_part (nonadjacent : Bool) (max_parts_to_break : Nat) (st : ScanState)
    (part : ServerDataPart) :
    (openFrame nonadjacent max_parts_to_break st part).prev_part =
      if st.prev_partition_id = some part.partition_id ∧
          needSplit nonadjacent max_parts_to_break st.parts_ranges = false
        then st.prev_part else none := by
  unfold openFrame
  simp only
  cases hs : needSplit nonadjacent max_parts_to_break st.parts_ranges <;>
    cases hp : st.prev_partition_id with
    | none => simp
    | some q =>
      by_cases hq : part.partition_id = q
      · simp [hq]
      · have hq2 : ¬ q = part.partition_id := fun h => hq h.symm
        simp [hq, hq2]

/-- Counterexample to C22 as stated: three parts of partition `P0` in strict
mode on a non-bucketed table.  The first part is accepted, the second fails
both checks, and the third is then left out on the solo check alone, although
a part of its partition frame was accepted before it (the first one) and the
pair check with that part succeeds; scanned right after the first part, the
third part is accepted by that pair check. -/
theorem left_out_despite_accepted_predecessor :
    (Example.table false 10 false 0).isBucketTable = false ∧
    (Example.table false 10 false 0).settings.cnch_merge_select_nonadjacent_parts = false ∧
    buildPartsRanges Example.ext (Example.table false 10 false 0)
      [Example.p0a, Example.p0b, Example.p0c] Example.onlyFirstAndThird =
      .ok ([[makePartInfo Example.ext Example.p0a]], 1) ∧
    heldParts [[makePartInfo Example.ext Example.p0a]] = [Example.p0a] ∧
    Example.p0a.partition_id = Example.p0c.partition_id ∧
    Example.onlyFirstAndThird none Example.p0c = false ∧
    Example.onlyFirstAndThird (some Example.p0a) Example.p0c = true ∧
    buildPartsRanges Example.ext (Example.table false 10 false 0)
      [Example.p0a, Example.p0c] Example.onlyFirstAndThird =
      .ok ([[makePartInfo Example.ext Example.p0a, makePartInfo Example.ext Example.p0c]],
        2) := by
  decide

/-- Claim C22, amended: in strict mode on a non-bucketed table the builder
returns the state reached by scanning the input list from an empty list of
ranges; the concatenation of the candidate ranges is a subsequence of the
input list, and equals it when every part passes the solo check.  When
`part` is looked at after the parts `pre`, it is left out exactly when
`canMerge(null, part)` is false and `prev_part` is null or
`canMerge(prev_part, part)` is false, where `prev_part` is the value after
lines 107-115: it is null when the partition id changed or the last range is
full, and otherwise it is the value left by the scan of `pre`.  That value
is null before the first part; after each part it is null when the part was
left out and the part itself when it was accepted, and the partition id
remembered is that of the part. -/
theorem held_parts_subsequence (ext : Externals) (data : MergeTreeMetaBase)
    (data_parts : ServerDataPartsVector) (can_merge_callback : ServerCanMergeCallback)
    (hbucket : data.isBucketTable = false)
    (hstrict : data.settings.cnch_merge_select_nonadjacent_parts = false) :
    ∃ built final,
      buildPartsRanges ext data data_parts can_merge_callback = .ok built ∧
      data_parts.foldlM (scanPart ext false (maxPartsToBreak data) can_merge_callback)
        { parts_ranges := [], parts_selected_precondition := 0,
          prev_partition_id := none, prev_part := none } = .ok final ∧
      built = (final.parts_ranges, final.parts_selected_precondition) ∧
      (heldParts built.1).Sublist data_parts ∧
      ((∀ p ∈ data_parts, can_merge_callback none p = true) →
        heldParts built.1 = data_parts) ∧
      ∀ pre part post, data_parts = pre ++ part :: post →
        ∃ st st2,
          pre.foldlM (scanPart ext false (maxPartsToBreak data) can_merge_callback)
            { parts_ranges := [], parts_selected_precondition := 0,
              prev_partition_id := none, prev_part := none } = .ok st ∧
          (pre ++ [part]).foldlM
            (scanPart ext false (maxPartsToBreak data) can_merge_callback)
            { parts_ranges := [], parts_selected_precondition := 0,
              prev_partition_id := none, prev_part := none } = .ok st2 ∧
          heldParts st2.parts_ranges = heldParts st.parts_ranges ++
            (if isLeftOut can_merge_callback
                (openFrame false (maxPartsToBreak data) st part).prev_part part
              then [] else [part]) ∧
          (openFrame false (maxPartsToBreak data) st part).prev_part =
            (if st.prev_partition_id = some part.partition_id ∧
                needSplit false (maxPartsToBreak data) st.parts_ranges = false
              then st.prev_part else none) ∧
          (pre = [] → st.prev_part = none ∧ st.prev_partition_id = none) ∧
          st2.prev_part =
            (if isLeftOut can_merge_callback
                (openFrame false (maxPartsToBreak data) st part).prev_part part
              then none else some part) ∧
          st2.prev_partition_id = some part.partition_id ∧
          ∀ q, st.prev_part = some q →
            pre.getLast? = some q ∧ (heldParts st.parts_ranges).getLast? = some q ∧
            st.prev_partition_id = some q.partition_id := by
  obtain ⟨final, hrun, _, _, hsub, hall⟩ :=
    scan_prefix_spec ext false (maxPartsToBreak data) can_merge_callback data_parts
  have hb : buildPartsRanges ext data data_parts can_merge_callback =
      .ok (final.parts_ranges, final.parts_selected_precondition) := by
    simp only [buildPartsRanges, allFrames_strict ext data data_parts hbucket hstrict, hstrict,
      List.foldlM_cons, List.foldlM_nil, scanFrame, hrun, bind, Except.bind, pure, Except.pure]
  refine ⟨_, final, hb, hrun, rfl, hsub, hall, ?_⟩
  intro pre part post _
  obtain ⟨st, hpre, hwf, hlast, _, _⟩ :=
    scan_prefix_spec ext false (maxPartsToBreak data) can_merge_callback pre
  have hopen := openFrame_opened false (maxPartsToBreak data) st part
  obtain ⟨hwf1, hne⟩ := hopen.opened_wf hwf
  obtain ⟨st2, h2, hout⟩ := checkAndAccept_outcome ext can_merge_callback _ part hwf1 hne
  have hheld := heldParts_outcome hout
  rw [heldParts_opened hopen] at hheld
  obtain ⟨hprev2, hpid2⟩ := prevPart_outcome hout
  refine ⟨st, st2, hpre, ?_, hheld, openFrame_prev_part _ _ _ _, ?_, hprev2,
    hpid2.trans hopen.opened_partition_id, ?_⟩
  · rw [List.foldlM_append, hpre]
    simp only [bind, Except.bind, List.foldlM_cons, List.foldlM_nil, scanPart, h2]
    rfl
  · intro hnil
    subst hnil
    simp only [List.foldlM_nil, pure, Except.pure, Except.ok.injEq] at hpre
    subst hpre
    exact ⟨rfl, rfl⟩
  · intro q hq
    obtain ⟨_, init, b, hrs⟩ := hwf.2 q hq
    refine ⟨(hlast q hq).1, ?_, (hlast q hq).2⟩
    rw [hrs, heldParts_snoc]
    simp [List.getLast?_append]

/-- Witness for the amended C22: the strict non-bucketed table and the three
parts of the counterexample. -/
theorem held_parts_subsequence_witness :
    (Example.table false 10 false 0).isBucketTable = false ∧
    (Example.table false 10 false 0).settings.cnch_merge_select_nonadjacent_parts = false ∧
    buildPartsRanges Example.ext (Example.table false 10 false 0)
      [Example.p0a, Example.p0b, Example.p0c] Example.onlyFirstAndThird =
      .ok ([[makePartInfo Example.ext Example.p0a]], 1) ∧
    ∃ built final,
      buildPartsRanges Example.ext (Example.table false 10 false 0)
        [Example.p0a, Example.p0b, Example.p0c] Example.onlyFirstAndThird = .ok built ∧
      [Example.p0a, Example.p0b, Example.p0c].foldlM
        (scanPart Example.ext false (maxPartsToBreak (Example.table false 10 false 0))
          Example.onlyFirstAndThird)
        { parts_ranges := [], parts_selected_precondition := 0,
          prev_partition_id := none, prev_part := none } = .ok final ∧
      built = (final.parts_ranges, final.parts_selected_precondition) ∧
      (heldParts built.1).Sublist [Example.p0a, Example.p0b, Example.p0c] := by
  obtain ⟨built, final, h1, h2, h3, h4, _⟩ := held_parts_subsequence Example.ext
    (Example.table false 10 false 0) [Example.p0a, Example.p0b, Example.p0c]
    Example.onlyFirstAndThird rfl rfl
  exact ⟨rfl, rfl, by decide, built, final, h1, h2, h3, h4⟩

/-! ## Size and depth checks of syntax trees -/

theorem sizeLoop_eq : ∀ (cs : List IAST) (res : Nat),
    IAST.sizeLoop cs res = res + (cs.map IAST.size).sum := by
  intro cs
  induction cs with
  | nil => intro res; simp [IAST.sizeLoop]
  | cons c rest ih =>
    intro res
    simp only [IAST.sizeLoop, ih, List.map_cons, List.sum_cons]
    omega

theorem IAST.size_node (children : List IAST) :
    (IAST.node children).size = 1 + (children.map IAST.size).sum := by
  simp [IAST.size, sizeLoop_eq]

mutual
theorem size_eq_nodes : ∀ t : IAST, t.size = t.nodes.length
  | .node children => by
    rw [IAST.size_node, IAST.nodes, List.length_cons, sizeSum_eq_nodes children]
    omega
theorem sizeSum_eq_nodes : ∀ cs : List IAST,
    (cs.map IAST.size).sum = (IAST.nodesOfList cs).length
  | [] => by simp [IAST.nodesOfList]
  | c :: rest => by
    simp only [List.map_cons, List.sum_cons, IAST.nodesOfList, List.length_append]
    rw [size_eq_nodes c, sizeSum_eq_nodes rest]
end

mutual
theorem checkSize_eq (max_size : Nat) : ∀ t : IAST,
    t.checkSize max_size =
      if t.size ≤ max_size then .ok t.size else .error (.TOO_BIG_AST max_size)
  | .node children => by
    rw [IAST.checkSize, checkSizeLoop_eq max_size children 1, IAST.size_node]
    by_cases hall : ∀ c ∈ children, c.size ≤ max_size
    · rw [if_pos hall]
      by_cases h : 1 + (children.map IAST.size).sum ≤ max_size
      · rw [if_pos h]
        simp only [gt_iff_lt, not_lt.2 h, if_false]
      · rw [if_neg h]
        simp only [gt_iff_lt, not_le.1 h, if_true]
    · have hbig : ¬ 1 + (children.map IAST.size).sum ≤ max_size := by
        intro hle
        apply hall
        intro c hc
        have := List.single_le_sum (fun _ _ => Nat.zero_le _) _
          (List.mem_map_of_mem IAST.size hc)
        omega
      rw [if_neg hall, if_neg hbig]
theorem checkSizeLoop_eq (max_size : Nat) : ∀ (cs : List IAST) (res : Nat),
    IAST.checkSizeLoop max_size cs res =
      if ∀ c ∈ cs, c.size ≤ max_size then .ok (res + (cs.map IAST.size).sum)
      else .error (.TOO_BIG_AST max_size)
  | [], res => by simp [IAST.checkSizeLoop]
  | c :: rest, res => by
    rw [IAST.checkSizeLoop, checkSize_eq max_size c]
    by_cases hc : c.size ≤ max_size
    · rw [if_pos hc]
      simp only
      rw [checkSizeLoop_eq max_size rest (res + c.size)]
      by_cases hr : ∀ x ∈ rest, x.size ≤ max_size
      · have hcr : ∀ x ∈ c :: rest, x.size ≤ max_size := by
          intro x hx
          rcases List.mem_cons.1 hx with hx | hx
          · rw [hx]; exact hc
          · exact hr x hx
        rw [if_pos hr, if_pos hcr, List.map_cons, List.sum_cons, Nat.add_assoc]
      · have hcr : ¬ ∀ x ∈ c :: rest, x.size ≤ max_size := fun h =>
          hr (fun x hx => h x (List.mem_cons_of_mem _ hx))
        rw [if_neg hr, if_neg hcr]
    · have hcr : ¬ ∀ x ∈ c :: rest, x.size ≤ max_size :=
        fun h => hc (h c (List.mem_cons_self _ _))
      rw [if_neg hc, if_neg hcr]
end

/-- Claim C23: for every tree and every `max_size`, `checkSize(max_size)`
returns `size()`, which is the number of nodes of the tree, when
`size() ≤ max_size`, and throws `TOO_BIG_AST` naming `max_size` when
`size() > max_size`. -/
theorem checkSize_returns_size (t : IAST) (max_size : Nat) :
    t.size = t.nodes.length ∧
    (t.size ≤ max_size → t.checkSize max_size = .ok t.size) ∧
    (t.size > max_size → t.checkSize max_size = .error (.TOO_BIG_AST max_size)) := by
  refine ⟨size_eq_nodes t, ?_, ?_⟩
  · intro h
    rw [checkSize_eq, if_pos h]
  · intro h
    rw [checkSize_eq, if_neg (not_le.2 h)]

/-- Evaluation for C23: a tree of four nodes with `max_size` 4 and 3. -/
theorem checkSize_returns_size_witness :
    Example.smallTree.size = 4 ∧
    Example.smallTree.checkSize 4 = .ok 4 ∧
    Example.smallTree.checkSize 3 = .error (.TOO_BIG_AST 3) :=
  ⟨by decide,
    (checkSize_returns_size Example.smallTree 4).2.1 (by decide),
    (checkSize_returns_size Example.smallTree 3).2.2 (by decide)⟩

theorem IAST.depth_pos (t : IAST) : 1 ≤ t.depth := by
  cases t with
  | node children => simp [IAST.depth]

mutual
theorem checkDepthImpl_eq (max_depth : Nat) : ∀ (t : IAST) (level : Nat), level ≤ max_depth →
    t.checkDepthImpl max_depth level =
      if level + t.depth ≤ max_depth + 1 then .ok (level + t.depth)
      else .error (.TOO_DEEP_AST max_depth)
  | .node children, level, hl => by
    rw [IAST.checkDepthImpl, checkDepthLoop_eq max_depth children level (level + 1) hl
      (le_refl _), IAST.depth]
    by_cases h : level + 1 + IAST.depthOfList children ≤ max_depth + 1
    · have h2 : level + (1 + IAST.depthOfList children) ≤ max_depth + 1 := by omega
      rw [if_pos h, if_pos h2]
      congr 1
      omega
    · have h2 : ¬ level + (1 + IAST.depthOfList children) ≤ max_depth + 1 := by omega
      rw [if_neg h, if_neg h2]
theorem checkDepthLoop_eq (max_depth : Nat) : ∀ (cs : List IAST) (level res : Nat),
    level ≤ max_depth → level + 1 ≤ res →
    IAST.checkDepthLoop max_depth cs level res =
      if level + 1 + IAST.depthOfList cs ≤ max_depth + 1
        then .ok (max res (level + 1 + IAST.depthOfList cs))
        else .error (.TOO_DEEP_AST max_depth)
  | [], level, res, _, hres => by
    simp only [IAST.checkDepthLoop, IAST.depthOfList, Nat.add_zero]
    rw [if_pos (by omega), max_eq_left hres]
  | c :: rest, level, res, hl, hres => by
    have hpos := IAST.depth_pos c
    rw [IAST.checkDepthLoop, IAST.depthOfList]
    by_cases hge : level ≥ max_depth
    · rw [if_pos hge, if_neg (by omega)]
    · rw [if_neg hge, checkDepthImpl_eq max_depth c (level + 1) (by omega)]
      by_cases hc : level + 1 + c.depth ≤ max_depth + 1
      · rw [if_pos hc]
        simp only
        rw [checkDepthLoop_eq max_depth rest level (max res (level + 1 + c.depth)) hl
          (by omega)]
        by_cases hr : level + 1 + IAST.depthOfList rest ≤ max_depth + 1
        · rw [if_pos hr, if_pos (by omega)]
          congr 1
          omega
        · rw [if_neg hr, if_neg (by omega)]
      · rw [if_neg hc, if_neg (by omega)]
end

/-- The result of `checkDepthImpl(max_depth, 0)`: the depth of the tree when
it is at most `max_depth + 1`, the exception otherwise. -/
theorem checkDepthImpl_root (t : IAST) (max_depth : Nat) :
    t.checkDepthImpl max_depth 0 =
      if t.depth ≤ max_depth + 1 then .ok t.depth else .error (.TOO_DEEP_AST max_depth) := by
  have := checkDepthImpl_eq max_depth t 0 (Nat.zero_le _)
  simpa using this

/-- Claim C24, evaluated on the code: a root with one child has depth 2; with
`max_depth = 1` the check does not throw and returns 2, a depth greater than
`max_depth`. -/
theorem checkDepthImpl_returns_above_max :
    Example.rootWithChild.depth = 2 ∧
    Example.rootWithChild.checkDepthImpl 1 0 = .ok 2 ∧
    Example.rootWithChild.checkDepthImpl 0 0 = .error (.TOO_DEEP_AST 0) := by
  decide

/-! ## Serialization of SQL hints -/

theorem foldl_append_eq {α B : Type} (f : α → List B) : ∀ (l : List α) (buf : List B),
    l.foldl (fun buf x => buf ++ f x) buf = buf ++ (l.map f).flatten := by
  intro l
  induction l with
  | nil => intro buf; simp
  | cons a tl ih =>
    intro buf
    simp only [List.foldl_cons, ih, List.map_cons, List.flatten_cons, List.append_assoc]

/-- The cells written for one hint. -/
theorem sqlHint_serialize_eq {B : Type} (fmt : BinaryFormat B) (iteration : KvIteration)
    (hint : SqlHint) (buf : List B) :
    hint.serialize fmt iteration buf =
      buf ++ (fmt.writeString hint.name ++ (fmt.writeSize hint.options.length ++
        ((hint.options.map fmt.writeString).flatten ++
          (fmt.writeSize hint.kv_options.length ++
            ((iteration.order hint.kv_options).map fun item =>
              fmt.writeString item.1 ++ fmt.writeString item.2).flatten)))) := by
  have h2 := foldl_append_eq
    (fun item : String × String => fmt.writeString item.1 ++ fmt.writeString item.2)
    (iteration.order hint.kv_options)
  simp only [SqlHint.serialize, foldl_append_eq fmt.writeString, List.append_assoc, h2]

theorem readOptions_written {B : Type} (fmt : BinaryFormat B)
    (hstring : ∀ s rest, fmt.readString (fmt.writeString s ++ rest) = some (s, rest)) :
    ∀ (opts : List String) (hint : SqlHint) (rest : List B),
      SqlHint.readOptions fmt opts.length hint ((opts.map fmt.writeString).flatten ++ rest) =
        some ({ hint with options := hint.options ++ opts }, rest) := by
  intro opts
  induction opts with
  | nil => intro hint rest; simp [SqlHint.readOptions]
  | cons o tl ih =>
    intro hint rest
    simp only [List.length_cons, SqlHint.readOptions, List.map_cons, List.flatten_cons,
      List.append_assoc, hstring, ih, SqlHint.setOption, List.singleton_append]

theorem readKvOptions_written {B : Type} (fmt : BinaryFormat B)
    (hstring : ∀ s rest, fmt.readString (fmt.writeString s ++ rest) = some (s, rest)) :
    ∀ (items : List (String × String)) (hint : SqlHint) (rest : List B),
      ((hint.kv_options ++ items).map Prod.fst).Nodup →
      SqlHint.readKvOptions fmt items.length hint
          ((items.map fun item => fmt.writeString item.1 ++ fmt.writeString item.2).flatten
            ++ rest) =
        some ({ hint with kv_options := hint.kv_options ++ items }, rest) := by
  intro items
  induction items with
  | nil => intro hint rest _; simp [SqlHint.readKvOptions]
  | cons item tl ih =>
    intro hint rest hnd
    have hnot : item.1 ∉ hint.kv_options.map Prod.fst := by
      intro hmem
      simp only [List.map_append, List.map_cons] at hnd
      have := (List.nodup_append.1 hnd).2.2 hmem
      exact this (List.mem_cons_self _ _)
    have hset : hint.setKvOption item.1 item.2 =
        { hint with kv_options := hint.kv_options ++ [item] } := by
      simp only [SqlHint.setKvOption, hnot, if_false]
    simp only [List.length_cons, SqlHint.readKvOptions, List.map_cons, List.flatten_cons,
      List.append_assoc, hstring, hset]
    rw [ih _ rest (by simpa using hnd)]
    simp

/-- Reading back one written hint. -/
theorem SqlHint.deserialize_written {B : Type} (fmt : BinaryFormat B)
    (iteration : KvIteration)
    (hstring : ∀ s rest, fmt.readString (fmt.writeString s ++ rest) = some (s, rest))
    (hsize : ∀ n rest, n < 2 ^ 64 → fmt.readSize (fmt.writeSize n ++ rest) = some (n, rest))
    (hint : SqlHint) (hopts : hint.options.length < 2 ^ 64)
    (hkv : hint.kv_options.length < 2 ^ 64) (hnd : (hint.kv_options.map Prod.fst).Nodup)
    (rest : List B) :
    SqlHint.deserialize fmt (hint.serialize fmt iteration [] ++ rest) =
      some ({ hint with kv_options := iteration.order hint.kv_options }, rest) := by
  have hperm := iteration.order_perm hint.kv_options
  have hlen : (iteration.order hint.kv_options).length = hint.kv_options.length := hperm.length_eq
  have hnd2 : ((iteration.order hint.kv_options).map Prod.fst).Nodup :=
    (hperm.map Prod.fst).nodup_iff.2 hnd
  rw [sqlHint_serialize_eq]
  simp only [List.nil_append, List.append_assoc, SqlHint.deserialize, hstring,
    hsize _ _ hopts, readOptions_written fmt hstring, hsize _ _ hkv]
  rw [← hlen, readKvOptions_written fmt hstring _ _ rest (by simpa using hnd2)]
  simp

theorem SqlHint.serialize_append {B : Type} (fmt : BinaryFormat B) (iteration : KvIteration)
    (hint : SqlHint) (buf : List B) :
    hint.serialize fmt iteration buf = buf ++ hint.serialize fmt iteration [] := by
  rw [sqlHint_serialize_eq, sqlHint_serialize_eq fmt iteration hint []]
  simp

theorem sqlHints_serialize_eq {B : Type} (fmt : BinaryFormat B) (iteration : KvIteration)
    (hints : List SqlHint) (buf : List B) :
    SqlHints.serialize fmt iteration hints buf =
      buf ++ (fmt.writeSize hints.length ++
        (hints.map fun hint => hint.serialize fmt iteration []).flatten) := by
  have h : ∀ (l : List SqlHint) (b : List B),
      l.foldl (fun buf hint => hint.serialize fmt iteration buf) b =
        b ++ (l.map fun hint => hint.serialize fmt iteration []).flatten := by
    intro l
    induction l with
    | nil => intro b; simp
    | cons a tl ih =>
      intro b
      rw [List.foldl_cons, ih, SqlHint.serialize_append]
      simp
  rw [SqlHints.serialize, h]
  simp

theorem readHints_written {B : Type} (fmt : BinaryFormat B) (iteration : KvIteration)
    (hstring : ∀ s rest, fmt.readString (fmt.writeString s ++ rest) = some (s, rest))
    (hsize : ∀ n rest, n < 2 ^ 64 → fmt.readSize (fmt.writeSize n ++ rest) = some (n, rest)) :
    ∀ (hints : List SqlHint),
      (∀ h ∈ hints, h.options.length < 2 ^ 64 ∧ h.kv_options.length < 2 ^ 64 ∧
        (h.kv_options.map Prod.fst).Nodup) →
      ∀ (self : List SqlHint) (rest : List B),
        SqlHints.readHints fmt hints.length self
            ((hints.map fun hint => hint.serialize fmt iteration []).flatten ++ rest) =
          some (self ++ hints.map (fun h =>
            { h with kv_options := iteration.order h.kv_options }), rest) := by
  intro hints
  induction hints with
  | nil => intro _ self rest; simp [SqlHints.readHints]
  | cons a tl ih =>
    intro hwf self rest
    obtain ⟨h1, h2, h3⟩ := hwf a (List.mem_cons_self _ _)
    simp only [List.length_cons, SqlHints.readHints, List.map_cons, List.flatten_cons,
      List.append_assoc,
      SqlHint.deserialize_written fmt iteration hstring hsize a h1 h2 h3]
    rw [ih (fun h hh => hwf h (List.mem_cons_of_mem _ hh))]
    simp

/-- Claim C25: the binary serialization of SQL hints round-trips.  Given read
helpers that read back what the write helpers wrote (sizes below `2^64`),
for every list of hints (vectors shorter than `2^64`, key-value maps with
distinct keys), `SqlHints::deserialize` run on the hints `self` over the cells
written by `SqlHints::serialize`, followed by any `rest`, returns `self`
followed by the decoded hints and leaves exactly `rest`; so on an empty
`self` it returns the decoded hints.  The decoded hints are as many as the
written ones, in the same order, each with the same name, the same options
in the same order and the same key-value options (the entries are those of
the written map, in the order in which the map was iterated). -/
theorem sqlHints_round_trip {B : Type} (fmt : BinaryFormat B) (iteration : KvIteration)
    (hints self : List SqlHint) (rest : List B)
    (hstring : ∀ s rest, fmt.readString (fmt.writeString s ++ rest) = some (s, rest))
    (hsize : ∀ n rest, n < 2 ^ 64 → fmt.readSize (fmt.writeSize n ++ rest) = some (n, rest))
    (hcount : hints.length < 2 ^ 64)
    (hwf : ∀ h ∈ hints, h.options.length < 2 ^ 64 ∧ h.kv_options.length < 2 ^ 64 ∧
      (h.kv_options.map Prod.fst).Nodup) :
    ∃ decoded,
      SqlHints.deserialize fmt self (SqlHints.serialize fmt iteration hints [] ++ rest) =
        some (self ++ decoded, rest) ∧
      SqlHints.deserialize fmt [] (SqlHints.serialize fmt iteration hints [] ++ rest) =
        some (decoded, rest) ∧
      decoded = hints.map (fun h => { h with kv_options := iteration.order h.kv_options }) ∧
      List.Forall₂ (fun d h => d.name = h.name ∧ d.options = h.options ∧
        d.kv_options.Perm h.kv_options) decoded hints ∧
      ((∀ m, iteration.order m = m) → decoded = hints) := by
  have hrun : ∀ s : List SqlHint,
      SqlHints.deserialize fmt s (SqlHints.serialize fmt iteration hints [] ++ rest) =
        some (s ++ hints.map (fun h =>
          { h with kv_options := iteration.order h.kv_options }), rest) := by
    intro s
    rw [sqlHints_serialize_eq]
    simp only [List.nil_append, List.append_assoc, SqlHints.deserialize, hsize _ _ hcount]
    exact readHints_written fmt iteration hstring hsize hints hwf s rest
  refine ⟨_, hrun self, by simpa using hrun [], rfl, ?_, ?_⟩
  · rw [List.forall₂_map_left_iff]
    exact List.forall₂_same.2 (fun h _ => ⟨rfl, rfl, iteration.order_perm _⟩)
  · intro hid
    simp [hid]

/-- Witness for C25: a format with one cell per value, the two example hints,
the key-value maps iterated in reverse order. -/
theorem sqlHints_round_trip_witness :
    SqlHints.deserialize Example.cellFormat []
        (SqlHints.serialize Example.cellFormat Example.reverseKv Example.hints [] ++
          [Sum.inl 7]) =
      some ([{ name := "leading", options := ["t1", "t2"],
               kv_options := [("b", "2"), ("a", "1")] },
             { name := "no_merge", options := [], kv_options := [] }], [Sum.inl 7]) ∧
    ∃ decoded,
      SqlHints.deserialize Example.cellFormat Example.hints
          (SqlHints.serialize Example.cellFormat Example.reverseKv Example.hints [] ++
            [Sum.inl 7]) =
        some (Example.hints ++ decoded, [Sum.inl 7]) ∧
      List.Forall₂ (fun d h => d.name = h.name ∧ d.options = h.options ∧
        d.kv_options.Perm h.kv_options) decoded Example.hints := by
  obtain ⟨decoded, h1, _, _, h4, _⟩ := sqlHints_round_trip Example.cellFormat
    Example.reverseKv Example.hints Example.hints [Sum.inl 7]
    (fun _ _ => rfl) (fun _ _ _ => rfl) (by decide) (by decide)
  exact ⟨by decide, decoded, h1, h4⟩

/-! ## Metrics of catalog calls -/

/-- Claim C26: `runWithMetricSupport(job, success, failed)`, for two different
events that the timer does not touch when it is destroyed.  The job is run
exactly once, on the state left by the construction of the timer: every
quantity that each run of the job raises by one, and that the timer and the
increments leave alone, is raised by one.  When the job returns normally the
function returns normally, `success` is one more than after the job and
`failed` is as after the job; when the job throws `e` the function throws the
same `e`, `failed` is one more than after the job and `success` is as after
the job. -/
theorem runWithMetricSupport_counts {σ ε : Type} (helper : Catalog.ProfileEventsTimer σ)
    (job : Catalog.Job σ ε) (success failed : Nat) (w : Catalog.World σ)
    (hdistinct : success ≠ failed)
    (htimer : ∀ v, (helper.destruct v).counters success = v.counters success ∧
      (helper.destruct v).counters failed = v.counters failed) :
    (Catalog.runWithMetricSupport helper job success failed w).1 =
      (job (helper.construct w)).1 ∧
    ((job (helper.construct w)).1 = none →
      (Catalog.runWithMetricSupport helper job success failed w).2.counters success =
        (job (helper.construct w)).2.counters success + 1 ∧
      (Catalog.runWithMetricSupport helper job success failed w).2.counters failed =
        (job (helper.construct w)).2.counters failed) ∧
    (∀ e, (job (helper.construct w)).1 = some e →
      (Catalog.runWithMetricSupport helper job success failed w).1 = some e ∧
      (Catalog.runWithMetricSupport helper job success failed w).2.counters failed =
        (job (helper.construct w)).2.counters failed + 1 ∧
      (Catalog.runWithMetricSupport helper job success failed w).2.counters success =
        (job (helper.construct w)).2.counters success) ∧
    (∀ runs : Catalog.World σ → Nat,
      (∀ v, runs (job v).2 = runs v + 1) →
      (∀ v, runs (helper.construct v) = runs v) →
      (∀ v, runs (helper.destruct v) = runs v) →
      (∀ event v, runs (Catalog.increment event v) = runs v) →
      runs (Catalog.runWithMetricSupport helper job success failed w).2 = runs w + 1) := by
  have hne : ¬ failed = success := fun h => hdistinct h.symm
  unfold Catalog.runWithMetricSupport
  simp only
  rcases hjob : job (helper.construct w) with ⟨r, w2⟩
  cases r with
  | none =>
    refine ⟨rfl, ?_, ?_, ?_⟩
    · intro _
      simp [(htimer _).1, (htimer _).2, Catalog.increment, hne]
    · intro e he
      simp at he
    · intro runs h1 h2 h3 h4
      have := h1 (helper.construct w)
      rw [hjob] at this
      simp only at this
      rw [h3, h4, this, h2]
  | some e0 =>
    refine ⟨rfl, ?_, ?_, ?_⟩
    · intro h
      simp at h
    · intro e he
      simp only [Option.some.injEq] at he
      subst he
      simp [(htimer _).1, (htimer _).2, Catalog.increment, hdistinct]
    · intro runs h1 h2 h3 h4
      have := h1 (helper.construct w)
      rw [hjob] at this
      simp only at this
      rw [h3, h4, this, h2]

/-- Witness for C26: a timer that counts under event 0, the events 10 and 11,
a job that returns and a job that throws "boom". -/
theorem runWithMetricSupport_counts_witness :
    (10 : Nat) ≠ 11 ∧
    (Catalog.runWithMetricSupport Example.requestTimer Example.goodJob 10 11
      Example.freshWorld).1 = none ∧
    (Catalog.runWithMetricSupport Example.requestTimer Example.goodJob 10 11
      Example.freshWorld).2.counters 10 = 1 ∧
    (Catalog.runWithMetricSupport Example.requestTimer Example.goodJob 10 11
      Example.freshWorld).2.counters 11 = 0 ∧
    (Catalog.runWithMetricSupport Example.requestTimer Example.badJob 10 11
      Example.freshWorld).1 = some "boom" ∧
    (Catalog.runWithMetricSupport Example.requestTimer Example.badJob 10 11
      Example.freshWorld).2.counters 10 = 0 ∧
    (Catalog.runWithMetricSupport Example.requestTimer Example.badJob 10 11
      Example.freshWorld).2.counters 11 = 1 ∧
    (Catalog.runWithMetricSupport Example.requestTimer Example.badJob 10 11
      Example.freshWorld).2.state = 1 :=
  ⟨by decide, by decide, by decide, by decide,
    (runWithMetricSupport_counts Example.requestTimer Example.badJob 10 11 Example.freshWorld
      (by decide) (fun _ => ⟨rfl, rfl⟩)).1,
    by decide, by decide, by decide⟩


end DB
